import Mathlib

/-!
# Search server: inverted index, query parser and TF-IDF ranking

A shallow embedding of `search-server/*.cpp, *.h`.

* A `std::string` / `std::string_view` is the list of its bytes (`Str`).
* `std::map` and `std::set` are association lists / lists kept in ascending key
  order (`OMap`, `OSet`), so that iteration visits the keys in ascending order.
* `double` is modelled by exact rational arithmetic (`ℚ`); the library function
  `log` is a parameter `ln : ℚ → ℚ` of the ranking functions.
* `int` is `Int`; the one place where the source adds machine integers
  (`ComputeAverageRating`) wraps to 32 bits explicitly.
* A member function that mutates the server returns the outcome of the call
  together with the state the server is left in; `const` members return
  `Except Error _`.
-/

/-- A byte string: the bytes of a `std::string` or `std::string_view`. -/
abbrev Str := List Nat

/-- The byte of the ASCII space. -/
abbrev SPACE : Nat := 32

/-- The byte of the ASCII minus sign. -/
abbrev DASH : Nat := 45

/-- Bytes of a string literal (its code points; the literals used are ASCII). -/
def bytes (s : String) : Str := s.toList.map Char.toNat

/-- The exceptions thrown by the server: `std::invalid_argument` and
`std::out_of_range`. -/
inductive Error where
  | InvalidArgument
  | OutOfRange
deriving DecidableEq, Repr

deriving instance DecidableEq for Except

/-- From `document.h`: `enum class DocumentStatus`. -/
inductive DocumentStatus where
  | ACTUAL
  | IRRELEVANT
  | BANNED
  | REMOVED
deriving DecidableEq, Repr

/-- From `document.h`: `struct Document`. -/
structure Document where
  id : Int
  relevance : ℚ
  rating : Int
deriving DecidableEq, Repr

/-! ## Ordered containers -/

namespace OSet

/-- Insertion into a `std::set`: the list stays ascending, a present key is kept once. -/
def insert {K : Type} [LinearOrder K] (k : K) : List K → List K
  | [] => [k]
  | k' :: t =>
    if k < k' then k :: k' :: t
    else if k = k' then k' :: t
    else k' :: insert k t

/-- Erasure from a `std::set`. -/
def erase {K : Type} [LinearOrder K] (k : K) (m : List K) : List K :=
  m.filter (fun x => decide (x ≠ k))

end OSet

namespace OMap

/-- Lookup in a `std::map` (`find`, `count`, `at`). -/
def find? {K V : Type} [LinearOrder K] : List (K × V) → K → Option V
  | [], _ => none
  | (k', v) :: t, k => if k = k' then some v else find? t k

/-- Assignment `m[k] = v`: the entry is created in key order or overwritten. -/
def set {K V : Type} [LinearOrder K] (k : K) (v : V) : List (K × V) → List (K × V)
  | [] => [(k, v)]
  | (k', v') :: t =>
    if k < k' then (k, v) :: (k', v') :: t
    else if k = k' then (k, v) :: t
    else (k', v') :: set k v t

/-- The value `m[k]` reads: the stored value, or the value-initialised default
that `operator[]` creates. -/
def getD {K V : Type} [LinearOrder K] (m : List (K × V)) (k : K) (dflt : V) : V :=
  (find? m k).getD dflt

/-- Method `std::map::emplace`: nothing happens when the key is present. -/
def emplace {K V : Type} [LinearOrder K] (k : K) (v : V) (m : List (K × V)) : List (K × V) :=
  if (find? m k).isSome then m else set k v m

/-- Method `std::map::erase(key)`. -/
def erase {K V : Type} [LinearOrder K] (k : K) (m : List (K × V)) : List (K × V) :=
  m.filter (fun p => decide (p.1 ≠ k))

/-- The keys in iteration order. -/
def keys {K V : Type} (m : List (K × V)) : List K := m.map Prod.fst

/-- The keys of the map are strictly ascending, as in every `std::map`. -/
def WF {K V : Type} [LinearOrder K] (m : List (K × V)) : Prop := (keys m).Sorted (· < ·)

end OMap

/-! ## Library algorithms -/

/-- The inner loop of insertion sort (`__unguarded_linear_insert`): `val` moves
towards the front over every element `x` with `comp val x`. The sorted prefix is
passed back to front. -/
def unguardedLinearInsert {α : Type} (comp : α → α → Bool) (val : α) : List α → List α
  | [] => [val]
  | x :: t => if comp val x then x :: unguardedLinearInsert comp val t else val :: x :: t

/-- One step of insertion sort: an element that compares before the first one is
moved to the front, any other element is inserted by the linear scan. The sorted
prefix is held back to front. -/
def insertionStep {α : Type} (comp : α → α → Bool) (rpre : List α) (val : α) : List α :=
  match rpre.getLast? with
  | none => [val]
  | some first =>
    if comp val first then rpre ++ [val] else unguardedLinearInsert comp val rpre

/-- Model of `std::sort(first, last, comp)`: the insertion sort that the standard
libraries run on short ranges (`__insertion_sort` of libstdc++ up to 16 elements,
`_Insertion_sort_unchecked` of the MSVC library up to 32). On a comparison that is a
strict weak order every `std::sort` agrees with it up to the order of equivalent
elements. -/
def stdSort {α : Type} (comp : α → α → Bool) (l : List α) : List α :=
  (l.foldl (insertionStep comp) []).reverse

/-- Model of `std::unique` followed by `erase`: one element of every run of equal
neighbours is kept. -/
def stdUnique {α : Type} [DecidableEq α] : List α → List α
  | [] => []
  | [a] => [a]
  | a :: b :: t => if a = b then stdUnique (b :: t) else a :: stdUnique (b :: t)

/-! ## string_processing.cpp -/

/-- Member `std::string_view::find(c)`: the position of the first byte equal to
`c`; `none` stands for `npos`. -/
def svFind : Str → Nat → Option Nat
  | [], _ => none
  | b :: t, c => if b = c then some 0 else (svFind t c).map (· + 1)

/-- Member `std::string_view::find_first_not_of(c, pos)`: the first position at or
after `pos` whose byte differs from `c`; `none` stands for `npos`. -/
def svFindFirstNotOf : Str → Nat → Nat → Option Nat
  | [], _, _ => none
  | b :: t, c, 0 => if b ≠ c then some 0 else (svFindFirstNotOf t c 0).map (· + 1)
  | _ :: t, c, pos + 1 => (svFindFirstNotOf t c pos).map (· + 1)

/-- Call `text.remove_prefix(std::min(text.size(), n))` with `n = npos` for `none`. -/
def removePrefix (text : Str) : Option Nat → Str
  | none => []
  | some n => text.drop n

/-- The `while (!text.empty())` loop of `SplitIntoWords`; every turn removes at
least one byte, so `fuel = text.length` turns are enough. -/
def SplitIntoWordsLoop : Nat → Str → List Str
  | 0, _ => []
  | fuel + 1, text =>
    if text.isEmpty then []
    else
      let space := svFind text SPACE
      let word := match space with
        | none => text
        | some n => text.take n
      let rest := match space with
        | none => removePrefix text none
        | some n => removePrefix text (svFindFirstNotOf text SPACE n)
      word :: SplitIntoWordsLoop fuel rest

/-- From `string_processing.cpp`: `SplitIntoWords`. -/
def SplitIntoWords (text : Str) : List Str :=
  let text1 := removePrefix text (svFindFirstNotOf text SPACE 0)
  SplitIntoWordsLoop text1.length text1

/-! ## search_server.h, search_server.cpp -/

/-- From `search_server.h`: `struct DocumentData`. -/
structure DocumentData where
  rating : Int
  status : DocumentStatus
deriving DecidableEq, Repr

/-- From `search_server.h`: the data members of `class SearchServer`. -/
structure SearchServer where
  storage_ : List Str
  stop_words_ : List Str
  word_to_document_freqs_ : List (Str × List (Int × ℚ))
  documents_ : List (Int × DocumentData)
  document_id_ : List Int
  id_to_word_to_document_freqs_ : List (Int × List (Str × ℚ))
deriving DecidableEq

namespace SearchServer

/-- Constant `MAX_RESULT_DOCUMENT_COUNT`. -/
def MAX_RESULT_DOCUMENT_COUNT : Nat := 5

/-- From `search_server.h`: `struct QueryWord`. -/
structure QueryWord where
  data : Str
  is_minus : Bool
  is_stop : Bool
deriving DecidableEq, Repr

/-- From `search_server.h`: `struct Query`. -/
structure Query where
  plus_words : List Str
  minus_words : List Str
deriving DecidableEq, Repr

/-- Source function `IsValidWord`: no byte is a control character (`c >= 0 && c < 32`). -/
def IsValidWord (word : Str) : Bool :=
  !word.any (fun c => decide (c < SPACE))

/-- Source function `IsStopWord`: `stop_words_.count(word) > 0`. -/
def IsStopWord (s : SearchServer) (word : Str) : Bool :=
  decide (word ∈ s.stop_words_)

/-- The server before the constructor body runs: every container is empty. -/
def empty : SearchServer :=
  { storage_ := [], stop_words_ := [], word_to_document_freqs_ := [], documents_ := [],
    document_id_ := [], id_to_word_to_document_freqs_ := [] }

/-- Constructor `SearchServer(const std::string& stop_words)` (and the
`std::string_view` one, whose body is the same). -/
def ofString (stop_words : Str) : Except Error SearchServer :=
  if !IsValidWord stop_words then .error .InvalidArgument
  else
    .ok { empty with
      stop_words_ := (SplitIntoWords stop_words).foldl (fun st word => OSet.insert word st) [] }

/-- Constructor `SearchServer(const StringCollection& stop_words)`: the words are
checked and inserted one after the other. -/
def ofCollection (stop_words : List Str) : Except Error SearchServer :=
  (stop_words.foldlM
    (fun st word =>
      if !IsValidWord word then (.error .InvalidArgument : Except Error (List Str))
      else .ok (OSet.insert word st)) []).map
    (fun st => { empty with stop_words_ := st })

/-- Source function `SplitIntoWordsNoStop`. -/
def SplitIntoWordsNoStop (s : SearchServer) (text : Str) : List Str :=
  (SplitIntoWords text).filter (fun word => !IsStopWord s word)

/-- Two's-complement wrap of an integer to the range of a 32-bit `int`. -/
def wrapInt32 (x : Int) : Int := (x + 2147483648) % 4294967296 - 2147483648

/-- Source function `ComputeAverageRating`: the sum is accumulated in an `int`, the size is cast to
`int`, and `/` on `int` truncates toward zero. -/
def ComputeAverageRating (ratings : List Int) : Int :=
  if ratings.isEmpty then 0
  else
    let rating_sum := ratings.foldl (fun acc r => wrapInt32 (acc + r)) 0
    Int.tdiv rating_sum (wrapInt32 (ratings.length : Int))

/-- The statement `word_to_document_freqs_[word][document_id] += x` on a
map of maps. -/
def addFreq {K1 K2 : Type} [LinearOrder K1] [LinearOrder K2]
    (m : List (K1 × List (K2 × ℚ))) (k1 : K1) (k2 : K2) (x : ℚ) : List (K1 × List (K2 × ℚ)) :=
  let inner := OMap.getD m k1 []
  OMap.set k1 (OMap.set k2 (OMap.getD inner k2 0 + x) inner) m

/-- Source function `AddDocument`: the three checks throw before anything is written. -/
def AddDocument (s : SearchServer) (document_id : Int) (document : Str)
    (status : DocumentStatus) (ratings : List Int) : Except Error Unit × SearchServer :=
  if document_id < 0 then (.error .InvalidArgument, s)
  else if decide (document_id ∈ s.document_id_) then (.error .InvalidArgument, s)
  else if !IsValidWord document then (.error .InvalidArgument, s)
  else
    let s1 := { s with
      document_id_ := OSet.insert document_id s.document_id_
      storage_ := s.storage_ ++ [document] }
    let words := SplitIntoWordsNoStop s1 document
    let inv_word_count : ℚ := 1 / (words.length : ℚ)
    let s2 := words.foldl
      (fun st word => { st with
        word_to_document_freqs_ :=
          addFreq st.word_to_document_freqs_ word document_id inv_word_count
        id_to_word_to_document_freqs_ :=
          addFreq st.id_to_word_to_document_freqs_ document_id word inv_word_count })
      s1
    (.ok (), { s2 with
      documents_ :=
        OMap.emplace document_id ⟨ComputeAverageRating ratings, status⟩ s2.documents_ })

/-- Source function `GetDocumentCount`. -/
def GetDocumentCount (s : SearchServer) : Int := (s.documents_.length : Int)

/-- Source function `GetWordFrequencies`: the stored map, or the empty static map. -/
def GetWordFrequencies (s : SearchServer) (document_id : Int) : List (Str × ℚ) :=
  match OMap.find? s.id_to_word_to_document_freqs_ document_id with
  | none => []
  | some m => m

/-- Source function `ParseQueryWord`. -/
def ParseQueryWord (s : SearchServer) (text : Str) : Except Error QueryWord :=
  if text.isEmpty then .error .InvalidArgument
  else
    let is_minus : Bool := decide (text.head? = some DASH)
    let word := if is_minus then text.drop 1 else text
    if word.isEmpty || decide (word.head? = some DASH) || !IsValidWord word then
      .error .InvalidArgument
    else .ok ⟨word, is_minus, IsStopWord s word⟩

/-- The `for` loop of `ParseQuery` over the split text. -/
def parseWords (s : SearchServer) : List Str → Query → Except Error Query
  | [], query => .ok query
  | word :: rest, query =>
    match ParseQueryWord s word with
    | .error e => .error e
    | .ok query_word =>
      if !query_word.is_stop then
        if query_word.is_minus then
          parseWords s rest { query with minus_words := query.minus_words ++ [query_word.data] }
        else
          parseWords s rest { query with plus_words := query.plus_words ++ [query_word.data] }
      else parseWords s rest query

/-- Source function `ParseQuery(text, delete_copy)`; `std::sort` on `string_view` compares with
`operator<`, the lexicographic order of the bytes. -/
def ParseQuery (s : SearchServer) (text : Str) (delete_copy : Bool) : Except Error Query :=
  if !IsValidWord text then .error .InvalidArgument
  else
    match parseWords s (SplitIntoWords text) ⟨[], []⟩ with
    | .error e => .error e
    | .ok query =>
      if delete_copy then
        .ok { minus_words := stdUnique (stdSort (fun a b => decide (a < b)) query.minus_words)
              plus_words := stdUnique (stdSort (fun a b => decide (a < b)) query.plus_words) }
      else .ok query

/-- Source function `ComputeWordInverseDocumentFreq`; `at(word)` throws when the word is no key. -/
def ComputeWordInverseDocumentFreq (ln : ℚ → ℚ) (s : SearchServer) (word : Str) :
    Except Error ℚ :=
  match OMap.find? s.word_to_document_freqs_ word with
  | none => .error .OutOfRange
  | some inner => .ok (ln ((GetDocumentCount s : ℚ) * 1 / (inner.length : ℚ)))

/-- The inner loop of `FindAllDocuments` over `word_to_document_freqs_.at(word)`. -/
def accumulateWord (s : SearchServer) (predicate : Int → DocumentStatus → Int → Bool)
    (inverse_document_freq : ℚ) :
    List (Int × ℚ) → List (Int × ℚ) → Except Error (List (Int × ℚ))
  | [], acc => .ok acc
  | (document_id, term_freq) :: rest, acc =>
    match OMap.find? s.documents_ document_id with
    | none => .error .OutOfRange
    | some document =>
      if predicate document_id document.status document.rating then
        accumulateWord s predicate inverse_document_freq rest
          (OMap.set document_id
            (OMap.getD acc document_id 0 + term_freq * inverse_document_freq) acc)
      else accumulateWord s predicate inverse_document_freq rest acc

/-- The loop of `FindAllDocuments` over `query.plus_words`. -/
def accumulatePlus (ln : ℚ → ℚ) (s : SearchServer)
    (predicate : Int → DocumentStatus → Int → Bool) :
    List Str → List (Int × ℚ) → Except Error (List (Int × ℚ))
  | [], acc => .ok acc
  | word :: rest, acc =>
    match OMap.find? s.word_to_document_freqs_ word with
    | none => accumulatePlus ln s predicate rest acc
    | some inner =>
      match ComputeWordInverseDocumentFreq ln s word with
      | .error e => .error e
      | .ok inverse_document_freq =>
        match accumulateWord s predicate inverse_document_freq inner acc with
        | .error e => .error e
        | .ok acc1 => accumulatePlus ln s predicate rest acc1

/-- The loop of `FindAllDocuments` over `query.minus_words`. -/
def eraseMinus (s : SearchServer) : List Str → List (Int × ℚ) → List (Int × ℚ)
  | [], acc => acc
  | word :: rest, acc =>
    match OMap.find? s.word_to_document_freqs_ word with
    | none => eraseMinus s rest acc
    | some inner =>
      eraseMinus s rest (inner.foldl (fun a p => OMap.erase p.1 a) acc)

/-- The last loop of `FindAllDocuments`: the accumulated map becomes a vector of
`Document`, in ascending id order. -/
def materialize (s : SearchServer) : List (Int × ℚ) → Except Error (List Document)
  | [] => .ok []
  | (document_id, relevance) :: rest =>
    match OMap.find? s.documents_ document_id with
    | none => .error .OutOfRange
    | some document =>
      match materialize s rest with
      | .error e => .error e
      | .ok docs => .ok (⟨document_id, relevance, document.rating⟩ :: docs)

/-- Source function `FindAllDocuments(query, predicate)` (sequential). -/
def FindAllDocuments (ln : ℚ → ℚ) (s : SearchServer) (query : Query)
    (predicate : Int → DocumentStatus → Int → Bool) : Except Error (List Document) :=
  match accumulatePlus ln s predicate query.plus_words [] with
  | .error e => .error e
  | .ok document_to_relevance =>
    materialize s (eraseMinus s query.minus_words document_to_relevance)

/-- The constant `epsilon = 1e-6` of `FindTopDocuments`. -/
def epsilon : ℚ := 1 / 1000000

/-- The comparison lambda handed to `std::sort` in `FindTopDocuments`. -/
def compareDocuments (lhs rhs : Document) : Bool :=
  if |lhs.relevance - rhs.relevance| < epsilon then decide (lhs.rating > rhs.rating)
  else decide (lhs.relevance > rhs.relevance)

/-- Source function `FindTopDocuments(raw_query, predicate)`. -/
def FindTopDocuments (ln : ℚ → ℚ) (s : SearchServer) (raw_query : Str)
    (predicate : Int → DocumentStatus → Int → Bool) : Except Error (List Document) :=
  match ParseQuery s raw_query true with
  | .error e => .error e
  | .ok query =>
    match FindAllDocuments ln s query predicate with
    | .error e => .error e
    | .ok matched_documents =>
      let sorted := stdSort compareDocuments matched_documents
      if sorted.length > MAX_RESULT_DOCUMENT_COUNT then
        .ok (sorted.take MAX_RESULT_DOCUMENT_COUNT)
      else .ok sorted

/-- Source function `FindTopDocuments(raw_query, set_status)`. -/
def FindTopDocumentsStatus (ln : ℚ → ℚ) (s : SearchServer) (raw_query : Str)
    (set_status : DocumentStatus) : Except Error (List Document) :=
  FindTopDocuments ln s raw_query (fun _ status _ => decide (status = set_status))

/-- Source function `FindTopDocuments(raw_query)`: the status is `ACTUAL`. -/
def FindTopDocumentsDefault (ln : ℚ → ℚ) (s : SearchServer) (raw_query : Str) :
    Except Error (List Document) :=
  FindTopDocumentsStatus ln s raw_query DocumentStatus.ACTUAL

/-- The loop `word_to_document_freqs_[word].erase(document_id)` over the words of
the removed document. -/
def eraseFromWords (document_id : Int) :
    List Str → List (Str × List (Int × ℚ)) → List (Str × List (Int × ℚ))
  | [], w2d => w2d
  | word :: rest, w2d =>
    eraseFromWords document_id rest
      (OMap.set word (OMap.erase document_id (OMap.getD w2d word [])) w2d)

/-- Source function `RemoveDocument(document_id)`. -/
def RemoveDocument (s : SearchServer) (document_id : Int) : SearchServer :=
  if !decide (document_id ∈ s.document_id_) then s
  else
    let all_words_in_document := GetWordFrequencies s document_id
    { s with
      word_to_document_freqs_ :=
        eraseFromWords document_id (all_words_in_document.map Prod.fst)
          s.word_to_document_freqs_
      documents_ := OMap.erase document_id s.documents_
      document_id_ := OSet.erase document_id s.document_id_
      id_to_word_to_document_freqs_ := OMap.erase document_id s.id_to_word_to_document_freqs_ }

/-- Source function `RemoveDocument(std::execution::par, document_id)`, its loops taken in
sequence order; `id_to_word_to_document_freqs_.at(document_id)` throws when the
document has no entry in the forward index. -/
def RemoveDocumentPar (s : SearchServer) (document_id : Int) :
    Except Error Unit × SearchServer :=
  if !decide (document_id ∈ s.document_id_) then (.ok (), s)
  else
    match OMap.find? s.id_to_word_to_document_freqs_ document_id with
    | none => (.error .OutOfRange, s)
    | some m =>
      let words := m.map Prod.fst
      (.ok (), { s with
        word_to_document_freqs_ := eraseFromWords document_id words s.word_to_document_freqs_
        documents_ := OMap.erase document_id s.documents_
        document_id_ := OSet.erase document_id s.document_id_
        id_to_word_to_document_freqs_ :=
          OMap.erase document_id s.id_to_word_to_document_freqs_ })

end SearchServer

/-! ## Notions used to state the properties -/

namespace SearchServer

/-- A query text is malformed when it holds a byte below 0x20, or one of its words
is "-", or one of its words begins with "--". -/
def MalformedQuery (text : Str) : Prop :=
  (∃ b ∈ text, b < 32) ∨ (∃ w ∈ SplitIntoWords text, w = [DASH])
    ∨ (∃ w ∈ SplitIntoWords text, w.take 2 = [DASH, DASH])

instance (text : Str) : Decidable (MalformedQuery text) := by
  unfold MalformedQuery; infer_instance

/-- A word of a query counts as positive when it does not begin with '-' and is no
stop-word. -/
def isPlusToken (s : SearchServer) (w : Str) : Bool :=
  decide (w.head? ≠ some DASH) && !IsStopWord s w

/-- A word of a query counts as negative when it begins with '-' and what follows
the '-' is no stop-word. -/
def isMinusToken (s : SearchServer) (w : Str) : Bool :=
  decide (w.head? = some DASH) && !IsStopWord s (w.drop 1)

end SearchServer

namespace OMap

/-- Lookup in a map of maps: the value under `m[k1][k2]`, if both keys are there. -/
def find2 {K1 K2 V : Type} [LinearOrder K1] [LinearOrder K2]
    (m : List (K1 × List (K2 × V))) (k1 : K1) (k2 : K2) : Option V :=
  (find? m k1).bind (fun inner => find? inner k2)

end OMap

namespace SearchServer

/-- The index invariants: the containers are ordered maps and sets, the metadata
map and the id set have the same keys, the forward index only knows live
documents, and the two indices store the same frequency for every word and
document. -/
structure Inv (s : SearchServer) : Prop where
  ids_sorted : s.document_id_.Sorted (· < ·)
  docs_keys : OMap.keys s.documents_ = s.document_id_
  w2d_wf : OMap.WF s.word_to_document_freqs_
  w2d_inner_wf : ∀ p ∈ s.word_to_document_freqs_, OMap.WF p.2
  d2w_wf : OMap.WF s.id_to_word_to_document_freqs_
  d2w_inner_wf : ∀ p ∈ s.id_to_word_to_document_freqs_, OMap.WF p.2
  d2w_keys : ∀ d ∈ OMap.keys s.id_to_word_to_document_freqs_, d ∈ s.document_id_
  agree : ∀ w d, OMap.find2 s.word_to_document_freqs_ w d
    = OMap.find2 s.id_to_word_to_document_freqs_ d w

/-- The states a server can be in: what a constructor returns, and what any call
of `AddDocument` or `RemoveDocument` (failed calls included) leaves behind. -/
inductive Reachable : SearchServer → Prop where
  | ofString (stop_words : Str) (s : SearchServer) :
      ofString stop_words = .ok s → Reachable s
  | ofCollection (stop_words : List Str) (s : SearchServer) :
      ofCollection stop_words = .ok s → Reachable s
  | add (s : SearchServer) (document_id : Int) (document : Str) (status : DocumentStatus)
      (ratings : List Int) :
      Reachable s → Reachable (AddDocument s document_id document status ratings).2
  | remove (s : SearchServer) (document_id : Int) :
      Reachable s → Reachable (RemoveDocument s document_id)
  | removePar (s : SearchServer) (document_id : Int) :
      Reachable s → Reachable (RemoveDocumentPar s document_id).2

end SearchServer

namespace SearchServer

/-- The state a successful `AddDocument` leaves behind. -/
def afterAdd (s : SearchServer) (document_id : Int) (document : Str)
    (status : DocumentStatus) (ratings : List Int) : SearchServer :=
  { storage_ := s.storage_ ++ [document]
    stop_words_ := s.stop_words_
    word_to_document_freqs_ :=
      ((SplitIntoWordsNoStop s document).map (fun w => (w, document_id))).foldl
        (fun m p => addFreq m p.1 p.2 (1 / ((SplitIntoWordsNoStop s document).length : ℚ)))
        s.word_to_document_freqs_
    documents_ := OMap.emplace document_id ⟨ComputeAverageRating ratings, status⟩ s.documents_
    document_id_ := OSet.insert document_id s.document_id_
    id_to_word_to_document_freqs_ :=
      ((SplitIntoWordsNoStop s document).map (fun w => (document_id, w))).foldl
        (fun m p => addFreq m p.1 p.2 (1 / ((SplitIntoWordsNoStop s document).length : ℚ)))
        s.id_to_word_to_document_freqs_ }

end SearchServer

/-! ## The corpus of the ranking scenario -/

namespace SearchServer

/-- The server built from the stop-words "and in on". -/
def scenarioStart : SearchServer :=
  { empty with stop_words_ := [bytes "and", bytes "in", bytes "on"] }

/-- The scenario after its first document. -/
def scenario1 : SearchServer :=
  (AddDocument scenarioStart 1 (bytes "white cat and fancy collar")
    DocumentStatus.ACTUAL [8, -3]).2

/-- The scenario after its second document. -/
def scenario2 : SearchServer :=
  (AddDocument scenario1 2 (bytes "fluffy cat fluffy tail") DocumentStatus.ACTUAL [7, 2, 7]).2

/-- The scenario after its third document. -/
def scenario3 : SearchServer :=
  (AddDocument scenario2 3 (bytes "groomed dog expressive eyes")
    DocumentStatus.ACTUAL [5, -12, 2, 1]).2

/-- The scenario with its four documents, the last one `BANNED`. -/
def scenario4 : SearchServer :=
  (AddDocument scenario3 4 (bytes "groomed starling evgeniy") DocumentStatus.BANNED [9]).2

end SearchServer

/-! ## Notions used to state the ranking properties -/

namespace SearchServer

/-- Document `d` contains word `w`: the inverted index has an entry for `d` under
`w`. -/
def containsWord (s : SearchServer) (d : Int) (w : Str) : Bool :=
  (OMap.find2 s.word_to_document_freqs_ w d).isSome

/-- Document `d` has metadata and the filter accepts its id, status and rating. -/
def passesFilter (s : SearchServer) (predicate : Int → DocumentStatus → Int → Bool)
    (d : Int) : Bool :=
  match OMap.find? s.documents_ d with
  | none => false
  | some data => predicate d data.status data.rating

/-- The rating stored for document `d`. -/
def ratingOf (s : SearchServer) (d : Int) : Int :=
  match OMap.find? s.documents_ d with
  | none => 0
  | some data => data.rating

/-- The term frequency of word `w` in document `d`, 0 when `d` does not contain `w`. -/
def tf (s : SearchServer) (w : Str) (d : Int) : ℚ :=
  (OMap.find2 s.word_to_document_freqs_ w d).getD 0

/-- The number of live documents that contain word `w`. -/
def df (s : SearchServer) (w : Str) : Nat :=
  (s.document_id_.filter (fun d => containsWord s d w)).length

/-- The summand `tf * idf` that word `w` adds to the relevance of document `d`, as
the code computes it. -/
def termScore (ln : ℚ → ℚ) (s : SearchServer) (w : Str) (d : Int) : ℚ :=
  tf s w d
    * ln ((GetDocumentCount s : ℚ) * 1 / ((OMap.getD s.word_to_document_freqs_ w []).length : ℚ))

/-- The documents a parsed query selects: live documents that pass the filter,
contain a plus word and contain no minus word, in ascending id order, each with
the sum of its term scores and its rating. -/
def candidates (ln : ℚ → ℚ) (s : SearchServer) (query : Query)
    (predicate : Int → DocumentStatus → Int → Bool) : List Document :=
  (s.document_id_.filter (fun d =>
      passesFilter s predicate d && query.plus_words.any (containsWord s d)
        && !query.minus_words.any (containsWord s d))).map
    (fun d => ⟨d, (query.plus_words.map (fun w => termScore ln s w d)).sum, ratingOf s d⟩)

/-- The cut to `MAX_RESULT_DOCUMENT_COUNT` entries at the end of `FindTopDocuments`. -/
def truncateTop (docs : List Document) : List Document :=
  if docs.length > MAX_RESULT_DOCUMENT_COUNT then docs.take MAX_RESULT_DOCUMENT_COUNT else docs

end SearchServer

namespace SearchServer

/-- The query the deduplicating parse builds from a well-formed text. -/
def parsedQuery (s : SearchServer) (text : Str) : Query :=
  { minus_words := stdUnique (stdSort (fun a b => decide (a < b))
      (((SplitIntoWords text).filter (isMinusToken s)).map (List.drop 1)))
    plus_words := stdUnique (stdSort (fun a b => decide (a < b))
      ((SplitIntoWords text).filter (isPlusToken s))) }

/-- Document `d` is live. -/
def isLive (s : SearchServer) (d : Int) : Bool := decide (d ∈ s.document_id_)

/-- Document `d` contains a positive query word that is no stop-word. -/
def hasPlusWord (s : SearchServer) (text : Str) (d : Int) : Bool :=
  (SplitIntoWords text).any (fun w => isPlusToken s w && containsWord s d w)

/-- Document `d` contains a negative query word that is no stop-word. -/
def hasMinusWord (s : SearchServer) (text : Str) (d : Int) : Bool :=
  (SplitIntoWords text).any (fun w => isMinusToken s w && containsWord s d (w.drop 1))

/-- Document `d` is live, passes the filter, contains a positive query word and
contains no negative query word. -/
def qualifies (s : SearchServer) (text : Str) (predicate : Int → DocumentStatus → Int → Bool)
    (d : Int) : Bool :=
  isLive s d && passesFilter s predicate d && hasPlusWord s text d && !hasMinusWord s text d

end SearchServer

namespace SearchServer

end SearchServer

/-! ## A corpus with three nearly tied documents -/

namespace SearchServer

end SearchServer

/-! ## MatchDocument -/

namespace SearchServer

/-- The test both overloads of `MatchDocument` make on a query word:
`word_to_document_freqs_.count(word)` and then
`word_to_document_freqs_.at(word).count(document_id)`. -/
def wordHasDocument (s : SearchServer) (document_id : Int) (word : Str) : Bool :=
  match OMap.find? s.word_to_document_freqs_ word with
  | none => false
  | some inner => (OMap.find? inner document_id).isSome

/-- The loop of the sequential `MatchDocument` over `query.minus_words`; `true`
means that the function returns from inside the loop. -/
def matchMinusLoop (s : SearchServer) (document_id : Int) : List Str → Bool
  | [] => false
  | word :: rest =>
    match OMap.find? s.word_to_document_freqs_ word with
    | none => matchMinusLoop s document_id rest
    | some inner =>
      if (OMap.find? inner document_id).isSome then true
      else matchMinusLoop s document_id rest

/-- The loop of the sequential `MatchDocument` over `query.plus_words`, which
pushes the matched words to the back of `matched_words`. -/
def matchPlusLoop (s : SearchServer) (document_id : Int) : List Str → List Str → List Str
  | [], matched_words => matched_words
  | word :: rest, matched_words =>
    match OMap.find? s.word_to_document_freqs_ word with
    | none => matchPlusLoop s document_id rest matched_words
    | some inner =>
      if (OMap.find? inner document_id).isSome then
        matchPlusLoop s document_id rest (matched_words ++ [word])
      else matchPlusLoop s document_id rest matched_words

/-- The return statement `{ words, documents_.at(document_id).status }`. -/
def returnWithStatus (s : SearchServer) (document_id : Int) (words : List Str) :
    Except Error (List Str × DocumentStatus) :=
  match OMap.find? s.documents_ document_id with
  | none => .error .OutOfRange
  | some document => .ok (words, document.status)

/-- Source function `MatchDocument(raw_query, document_id)`; the overload that takes
`std::execution::sequenced_policy` calls it. -/
def MatchDocument (s : SearchServer) (raw_query : Str) (document_id : Int) :
    Except Error (List Str × DocumentStatus) :=
  if !IsValidWord raw_query then .error .InvalidArgument
  else if !decide (document_id ∈ s.document_id_) then .error .OutOfRange
  else
    match ParseQuery s raw_query true with
    | .error e => .error e
    | .ok query =>
      if matchMinusLoop s document_id query.minus_words then
        returnWithStatus s document_id []
      else
        returnWithStatus s document_id (matchPlusLoop s document_id query.plus_words [])

/-- Source function `MatchDocument(std::execution::par, raw_query, document_id)`, its
algorithms taken in sequence order. `copy_if` keeps the order of the words it copies;
the sort and `unique` run on the copied words, and `erase(last, end())` drops
everything behind the unique words, the unused tail of the vector included. -/
def MatchDocumentPar (s : SearchServer) (raw_query : Str) (document_id : Int) :
    Except Error (List Str × DocumentStatus) :=
  if !decide (document_id ∈ s.document_id_) then .error .OutOfRange
  else
    match ParseQuery s raw_query false with
    | .error e => .error e
    | .ok query =>
      if query.minus_words.any (wordHasDocument s document_id) then
        returnWithStatus s document_id []
      else
        let copied := query.plus_words.filter (wordHasDocument s document_id)
        returnWithStatus s document_id
          (stdUnique (stdSort (fun a b => decide (a < b)) copied))

end SearchServer

namespace SearchServer

/-- Further invariants of the forward index: no stored inner map is empty, and the
frequencies of every stored inner map sum to 1. -/
structure Inv2 (s : SearchServer) : Prop where
  d2w_nonempty : ∀ d inner, OMap.find? s.id_to_word_to_document_freqs_ d = some inner →
    inner ≠ []
  d2w_sum : ∀ d inner, OMap.find? s.id_to_word_to_document_freqs_ d = some inner →
    (inner.map Prod.snd).sum = 1

/-- The server after `AddDocument(0, "", ACTUAL, {})` on the empty server: one live
document without any word. -/
def wordless : SearchServer :=
  (AddDocument empty 0 [] DocumentStatus.ACTUAL []).2

end SearchServer

/-! ## A corpus with six documents for one word -/

namespace SearchServer

/-- Six documents on a server without stop-words, each the single word "cat":
documents 1 to 5 are `ACTUAL` with the rating 1, document 6 is `BANNED` with the
rating 0. -/
def crowd : SearchServer :=
  (AddDocument
    (AddDocument
      (AddDocument
        (AddDocument
          (AddDocument
            (AddDocument empty 1 (bytes "cat") DocumentStatus.ACTUAL [1]).2
            2 (bytes "cat") DocumentStatus.ACTUAL [1]).2
          3 (bytes "cat") DocumentStatus.ACTUAL [1]).2
        4 (bytes "cat") DocumentStatus.ACTUAL [1]).2
      5 (bytes "cat") DocumentStatus.ACTUAL [1]).2
    6 (bytes "cat") DocumentStatus.BANNED []).2

end SearchServer

/-! ## concurrent_map.h -/

namespace OMap

/-- Method `std::map::merge(source)`: the entries of `source` whose key the target
does not hold are moved into the target, in the key order of `source`. -/
def merge {K V : Type} [LinearOrder K] (result source : List (K × V)) : List (K × V) :=
  source.foldl (fun r p => emplace p.1 p.2 r) result

end OMap

/-- Class template `ConcurrentMap<int, Value>`: the vector `all_maps_` of shards, each
an ordered map (the mutexes play no part when the operations run one at a time). -/
structure ConcurrentMap (V : Type) where
  all_maps_ : List (List (Int × V))

namespace ConcurrentMap

/-- Constructor `ConcurrentMap(bucket_count)`: `bucket_count` empty shards. -/
def create (V : Type) (bucket_count : Nat) : ConcurrentMap V :=
  ⟨List.replicate bucket_count []⟩

/-- The statement `int index = static_cast<uint64_t>(key) % all_maps_.size()`: the key is
taken modulo 2^64, and the remainder by the number of shards is narrowed to an
`int`. -/
def index {V : Type} (cm : ConcurrentMap V) (key : Int) : Int :=
  SearchServer.wrapInt32 ((key % 18446744073709551616) % (cm.all_maps_.length : Int))

/-- The position that the subscript `all_maps_[index]` addresses: the `int` index is
converted to `size_t`. A position past the end of the vector is undefined
behaviour in the source; the model then reads an empty shard and writes nothing. -/
def slot {V : Type} (cm : ConcurrentMap V) (key : Int) : Nat :=
  (cm.index key % 18446744073709551616).toNat

/-- Member `operator[]` followed by an update of `ref_to_value`: `little_map[key]` of
the shard of the key is read, value-initialised to `dflt` when the key is absent,
and overwritten with `update` of it. -/
def Access {V : Type} (cm : ConcurrentMap V) (key : Int) (dflt : V) (update : V → V) :
    ConcurrentMap V :=
  let little_map := cm.all_maps_.getD (cm.slot key) []
  ⟨cm.all_maps_.set (cm.slot key)
    (OMap.set key (update (OMap.getD little_map key dflt)) little_map)⟩

/-- Member `Erase(key)`: the key is erased from its shard; the count of erased
entries is returned with the new map. -/
def Erase {V : Type} (cm : ConcurrentMap V) (key : Int) : Nat × ConcurrentMap V :=
  let little_map := cm.all_maps_.getD (cm.slot key) []
  (if (OMap.find? little_map key).isSome then 1 else 0,
    ⟨cm.all_maps_.set (cm.slot key) (OMap.erase key little_map)⟩)

/-- Member `BuildOrdinaryMap`: the shards are merged into one ordered map, in the
order of the vector. -/
def BuildOrdinaryMap {V : Type} (cm : ConcurrentMap V) : List (Int × V) :=
  cm.all_maps_.foldl OMap.merge []

/-- The number of shards is positive and fits in an `int`, the shards are ordered
maps, and every key is stored in the shard that its subscript addresses. -/
structure Sharded {V : Type} (cm : ConcurrentMap V) : Prop where
  size_pos : 0 < cm.all_maps_.length
  size_le : cm.all_maps_.length ≤ 2147483648
  shard_wf : ∀ i, OMap.WF (cm.all_maps_.getD i [])
  shard_keys : ∀ i key, key ∈ OMap.keys (cm.all_maps_.getD i []) → cm.slot key = i

end ConcurrentMap

/-! ## search_server.h: the overloads with an execution policy -/

namespace SearchServer

/-- The inner loop of the first function object of `FindAllDocuments(policy, ...)`
over `word_to_document_freqs_.at(word)`. -/
def accumulateWordPolicy (s : SearchServer) (predicate : Int → DocumentStatus → Int → Bool)
    (inverse_document_freq : ℚ) :
    List (Int × ℚ) → ConcurrentMap ℚ → Except Error (ConcurrentMap ℚ)
  | [], acc => .ok acc
  | (document_id, term_freq) :: rest, acc =>
    match OMap.find? s.documents_ document_id with
    | none => .error .OutOfRange
    | some document =>
      if predicate document_id document.status document.rating then
        accumulateWordPolicy s predicate inverse_document_freq rest
          (ConcurrentMap.Access acc document_id 0
            (fun ref_to_value => ref_to_value + term_freq * inverse_document_freq))
      else accumulateWordPolicy s predicate inverse_document_freq rest acc

/-- The first `std::for_each(policy, ...)` of `FindAllDocuments(policy, ...)`, over
`query.plus_words`, its function object applied in sequence order. -/
def accumulatePlusPolicy (ln : ℚ → ℚ) (s : SearchServer)
    (predicate : Int → DocumentStatus → Int → Bool) :
    List Str → ConcurrentMap ℚ → Except Error (ConcurrentMap ℚ)
  | [], acc => .ok acc
  | word :: rest, acc =>
    match OMap.find? s.word_to_document_freqs_ word with
    | none => accumulatePlusPolicy ln s predicate rest acc
    | some inner =>
      match ComputeWordInverseDocumentFreq ln s word with
      | .error e => .error e
      | .ok inverse_document_freq =>
        match accumulateWordPolicy s predicate inverse_document_freq inner acc with
        | .error e => .error e
        | .ok acc1 => accumulatePlusPolicy ln s predicate rest acc1

/-- The second `std::for_each(policy, ...)` of `FindAllDocuments(policy, ...)`, over
`query.minus_words`, its function object applied in sequence order. -/
def eraseMinusPolicy (s : SearchServer) : List Str → ConcurrentMap ℚ → ConcurrentMap ℚ
  | [], acc => acc
  | word :: rest, acc =>
    match OMap.find? s.word_to_document_freqs_ word with
    | none => eraseMinusPolicy s rest acc
    | some inner =>
      eraseMinusPolicy s rest (inner.foldl (fun a p => (ConcurrentMap.Erase a p.1).2) acc)

/-- Source function `FindAllDocuments(policy, query, predicate)` with its loops taken in
sequence order. The result `none` stands for `std::terminate`, which an exception that
leaves a function object of `std::for_each(policy, ...)` calls; an exception of the
last loop is thrown to the caller. -/
def FindAllDocumentsPolicy (ln : ℚ → ℚ) (s : SearchServer) (query : Query)
    (predicate : Int → DocumentStatus → Int → Bool) : Option (Except Error (List Document)) :=
  match accumulatePlusPolicy ln s predicate query.plus_words (ConcurrentMap.create ℚ 100) with
  | .error _ => none
  | .ok document_to_relevance =>
    let final_map :=
      ConcurrentMap.BuildOrdinaryMap (eraseMinusPolicy s query.minus_words document_to_relevance)
    some (materialize s final_map)

/-- Source function `FindTopDocuments(policy, raw_query, predicate)`; `none` stands for
`std::terminate`. -/
def FindTopDocumentsPolicy (ln : ℚ → ℚ) (s : SearchServer) (raw_query : Str)
    (predicate : Int → DocumentStatus → Int → Bool) : Option (Except Error (List Document)) :=
  match ParseQuery s raw_query true with
  | .error e => some (.error e)
  | .ok query =>
    match FindAllDocumentsPolicy ln s query predicate with
    | none => none
    | some (.error e) => some (.error e)
    | some (.ok matched_documents) =>
      let sorted := stdSort compareDocuments matched_documents
      if sorted.length > MAX_RESULT_DOCUMENT_COUNT then
        some (.ok (sorted.take MAX_RESULT_DOCUMENT_COUNT))
      else some (.ok sorted)

end SearchServer

/-! ## remove_duplicates.cpp -/

namespace SearchServer

/-- The `std::set` of words that `RemoveDuplicates` builds from the keys of
`GetWordFrequencies(document_id)` through `std::transform` and `std::inserter`. -/
def wordSet (s : SearchServer) (document_id : Int) : List Str :=
  (GetWordFrequencies s document_id).foldl (fun words pair => OSet.insert pair.1 words) []

/-- The first loop of `RemoveDuplicates`, over the ids of the server in ascending
order: an id whose word set is in `set_words` goes into `duplicates_id`, any other
word set is inserted into `set_words`. -/
def findDuplicates (s : SearchServer) : List Int → List (List Str) → List Int → List Int
  | [], _, duplicates_id => duplicates_id
  | document_id :: rest, set_words, duplicates_id =>
    if decide (wordSet s document_id ∈ set_words) then
      findDuplicates s rest set_words (OSet.insert document_id duplicates_id)
    else
      findDuplicates s rest (OSet.insert (wordSet s document_id) set_words) duplicates_id

/-- The second loop of `RemoveDuplicates`: for every id of `duplicates_id` one line
"Found duplicate document id N" is printed and the document is removed. The
first component lists the printed ids, one for each line. -/
def removeFound : List Int → List Int × SearchServer → List Int × SearchServer
  | [], acc => acc
  | document_id :: rest, (printed, s) =>
    removeFound rest (printed ++ [document_id], RemoveDocument s document_id)

/-- From `remove_duplicates.cpp`: `RemoveDuplicates`; the result is the list of ids
printed to `std::cout` and the server afterwards. -/
def RemoveDuplicates (s : SearchServer) : List Int × SearchServer :=
  removeFound (findDuplicates s s.document_id_ [] []) ([], s)

/-- Some live document with a smaller id has the same word set as document `d`. -/
def hasEarlierTwin (s : SearchServer) (d : Int) : Bool :=
  s.document_id_.any (fun e => decide (e < d) && decide (wordSet s e = wordSet s d))

/-- The scenario corpus with a fifth document that repeats the words of document 2. -/
def scenario5 : SearchServer :=
  (AddDocument scenario4 5 (bytes "fluffy cat fluffy tail") DocumentStatus.ACTUAL [1, 2]).2

end SearchServer

/-! ## Notions used to state the properties of SplitIntoWords -/

/-- A text without its spaces at the end and with every run of spaces that a byte
other than a space follows replaced by one space: a space is kept exactly when the
next byte is not a space. -/
def squeezeSpaces : Str → Str
  | [] => []
  | [b] => if b = SPACE then [] else [b]
  | b :: c :: t =>
    if b = SPACE ∧ c = SPACE then squeezeSpaces (c :: t) else b :: squeezeSpaces (c :: t)

/-- The text with leading and trailing spaces removed and inner runs of spaces
collapsed to one space. -/
def collapseSpaces (text : Str) : Str :=
  squeezeSpaces (text.dropWhile (fun b => decide (b = SPACE)))

/-- Words joined with single spaces. -/
def joinWords (words : List Str) : Str := [SPACE].intercalate words

/-! ## Operations on a ConcurrentMap, one at a time -/

/-- One operation on a map with `int` keys: element access `operator[](key)` followed
by an update of the referenced value, or `Erase(key)`. -/
inductive MapOp (V : Type) where
  | access (key : Int) (update : V → V)
  | erase (key : Int)

namespace ConcurrentMap

/-- The operation on a `ConcurrentMap`; `dflt` is the value-initialised `Value`. -/
def apply {V : Type} (dflt : V) (cm : ConcurrentMap V) : MapOp V → ConcurrentMap V
  | .access key update => Access cm key dflt update
  | .erase key => (Erase cm key).2

/-- The same operation on one ordinary `std::map`: `m[key] = update(m[key])`, or
`m.erase(key)`. -/
def applyOrdinary {V : Type} (dflt : V) (m : List (Int × V)) : MapOp V → List (Int × V)
  | .access key update => OMap.set key (update (OMap.getD m key dflt)) m
  | .erase key => OMap.erase key m

end ConcurrentMap

/-! ## A rating list longer than an `int` can count -/

namespace SearchServer

/-- A list of 2^31 + 1 ratings: 2^31 - 1 ratings 1 followed by two ratings 0. Its
sum, and every running sum, is at most 2147483647. -/
def longRatings : List Int := 1 :: (List.replicate 2147483646 1 ++ [0, 0])

end SearchServer

/-! ## A corpus in which a third document stands between two nearly tied ones -/

namespace SearchServer

/-- The text of `k + 1` words "w" followed by `m` words "x". -/
def mixText (k m : Nat) : Str :=
  bytes "w" ++ (List.replicate k (bytes " w")).flatten ++ (List.replicate m (bytes " x")).flatten

/-- Four documents on a server without stop-words, in which the word "w" has the
term frequencies 1/2, 1/5, 59/200 and 19/100; the ratings are 0, 1, 0 and 9. -/
def blockedCorpus : SearchServer :=
  (AddDocument
    (AddDocument
      (AddDocument
        (AddDocument empty 1 (mixText 0 1) DocumentStatus.ACTUAL []).2
        2 (mixText 0 4) DocumentStatus.ACTUAL [1]).2
      3 (mixText 58 141) DocumentStatus.ACTUAL []).2
    4 (mixText 18 81) DocumentStatus.ACTUAL [9]).2

end SearchServer

/-! # Theorems -/

/-! ## Ordered containers -/

namespace OSet
variable {K : Type} [LinearOrder K]

theorem oset_mem_insert (k j : K) (m : List K) : j ∈ insert k m ↔ j = k ∨ j ∈ m := by
  induction m with
  | nil => simp [insert]
  | cons a t ih =>
    simp only [insert]
    split_ifs with h1 h2
    · simp
    · subst h2; simp
    · simp [ih]; tauto

theorem oset_sorted_insert (k : K) (m : List K) (h : m.Sorted (· < ·)) :
    (insert k m).Sorted (· < ·) := by
  induction m with
  | nil => simp [insert]
  | cons a t ih =>
    simp only [insert]
    split_ifs with h1 h2
    · rw [List.sorted_cons]
      refine ⟨?_, h⟩
      intro b hb
      rcases List.mem_cons.1 hb with rfl | hb
      · exact h1
      · exact lt_trans h1 (List.rel_of_sorted_cons h b hb)
    · exact h
    · rw [List.sorted_cons] at h ⊢
      refine ⟨?_, ih h.2⟩
      intro b hb
      rcases (oset_mem_insert k b t).1 hb with rfl | hb
      · exact lt_of_le_of_ne (not_lt.1 h1) (Ne.symm h2)
      · exact h.1 b hb

theorem oset_mem_erase (k j : K) (m : List K) : j ∈ erase k m ↔ j ≠ k ∧ j ∈ m := by
  simp [erase, and_comm]

theorem oset_sorted_erase (k : K) (m : List K) (h : m.Sorted (· < ·)) :
    (erase k m).Sorted (· < ·) :=
  List.Pairwise.sublist (List.filter_sublist _) h

end OSet

namespace OMap
variable {K V : Type} [LinearOrder K]

theorem find?_set (k j : K) (v : V) (m : List (K × V)) :
    find? (set k v m) j = if j = k then some v else find? m j := by
  induction m with
  | nil => simp [set, find?]
  | cons a t ih =>
    obtain ⟨a, w⟩ := a
    simp only [set]
    split_ifs with h1 h2 h3 h4 h5 <;> simp_all [find?]

theorem find?_erase (k j : K) (m : List (K × V)) :
    find? (erase k m) j = if j = k then none else find? m j := by
  induction m with
  | nil => simp [erase, find?]
  | cons a t ih =>
    obtain ⟨a, w⟩ := a
    simp only [erase] at ih ⊢
    by_cases h : a = k
    · subst h
      simp [List.filter_cons, find?, ih]
      split_ifs <;> simp_all
    · simp [List.filter_cons, find?, ih, h]
      split_ifs <;> simp_all

theorem keys_set (k : K) (v : V) (m : List (K × V)) :
    keys (set k v m) = OSet.insert k (keys m) := by
  induction m with
  | nil => simp [set, keys, OSet.insert]
  | cons a t ih =>
    obtain ⟨a, w⟩ := a
    simp only [set, keys, List.map_cons, OSet.insert] at ih ⊢
    split_ifs with h1 h2
    · simp
    · simp [h2]
    · simp [ih]

theorem keys_erase (k : K) (m : List (K × V)) :
    keys (erase k m) = OSet.erase k (keys m) := by
  simp [keys, erase, OSet.erase, List.filter_map, Function.comp_def]

theorem find?_isSome (m : List (K × V)) (k : K) : (find? m k).isSome = true ↔ k ∈ keys m := by
  induction m with
  | nil => simp [find?, keys]
  | cons a t ih =>
    obtain ⟨a, w⟩ := a
    simp only [find?, keys, List.map_cons, List.mem_cons] at ih ⊢
    split_ifs with h <;> simp_all

theorem find?_eq_none (m : List (K × V)) (k : K) : find? m k = none ↔ k ∉ keys m := by
  rw [← find?_isSome]; cases find? m k <;> simp

theorem mem_of_find? (m : List (K × V)) (k : K) (v : V) (h : find? m k = some v) : (k, v) ∈ m := by
  induction m with
  | nil => simp [find?] at h
  | cons a t ih =>
    obtain ⟨a, w⟩ := a
    simp only [find?] at h
    split_ifs at h with h1
    · simp_all
    · exact List.mem_cons_of_mem _ (ih h)

theorem find?_of_mem (m : List (K × V)) (hm : WF m) (k : K) (v : V) (h : (k, v) ∈ m) :
    find? m k = some v := by
  induction m with
  | nil => simp at h
  | cons a t ih =>
    obtain ⟨a, w⟩ := a
    simp only [WF, keys, List.map_cons, List.sorted_cons] at hm
    rcases List.mem_cons.1 h with h | h
    · cases h; simp [find?]
    · have hk : a < k := hm.1 k (List.mem_map_of_mem Prod.fst h)
      simp only [find?]
      rw [if_neg (ne_of_gt hk)]
      exact ih hm.2 h

theorem wf_set (k : K) (v : V) (m : List (K × V)) (h : WF m) : WF (set k v m) := by
  unfold WF; rw [keys_set]; exact OSet.oset_sorted_insert k _ h

theorem wf_erase (k : K) (m : List (K × V)) (h : WF m) : WF (erase k m) := by
  unfold WF; rw [keys_erase]; exact OSet.oset_sorted_erase k _ h

theorem mem_set (k : K) (v : V) (m : List (K × V)) (p : K × V) (h : p ∈ set k v m) :
    p = (k, v) ∨ p ∈ m := by
  induction m with
  | nil => simpa [set] using h
  | cons a t ih =>
    obtain ⟨a, w⟩ := a
    simp only [set] at h
    split_ifs at h with h1 h2
    · simpa using h
    · rcases List.mem_cons.1 h with h | h
      · exact Or.inl h
      · exact Or.inr (List.mem_cons_of_mem _ h)
    · rcases List.mem_cons.1 h with h | h
      · exact Or.inr (h ▸ List.mem_cons_self _ _)
      · rcases ih h with h | h
        · exact Or.inl h
        · exact Or.inr (List.mem_cons_of_mem _ h)

theorem mem_erase (k : K) (m : List (K × V)) (p : K × V) (h : p ∈ erase k m) : p ∈ m :=
  List.mem_of_mem_filter h

theorem ext (m1 m2 : List (K × V)) (h1 : WF m1) (h2 : WF m2)
    (h : ∀ k, find? m1 k = find? m2 k) : m1 = m2 := by
  induction m1 generalizing m2 with
  | nil =>
    cases m2 with
    | nil => rfl
    | cons b t2 =>
      obtain ⟨b, w⟩ := b
      have := h b
      simp [find?] at this
  | cons a t1 ih =>
    obtain ⟨a, v⟩ := a
    cases m2 with
    | nil =>
      have := h a
      simp [find?] at this
    | cons b t2 =>
      obtain ⟨b, w⟩ := b
      simp only [WF, keys, List.map_cons, List.sorted_cons] at h1 h2
      have hab : a = b := by
        rcases lt_trichotomy a b with hlt | heq | hgt
        · exfalso
          have := h a
          simp only [find?, if_true, if_neg (ne_of_lt hlt)] at this
          have hmem := mem_of_find? t2 a v this.symm
          exact absurd (h2.1 a (List.mem_map_of_mem Prod.fst hmem)) (not_lt.2 (le_of_lt hlt))
        · exact heq
        · exfalso
          have := h b
          simp only [find?, if_true, if_neg (ne_of_lt hgt)] at this
          have hmem := mem_of_find? t1 b w this
          exact absurd (h1.1 b (List.mem_map_of_mem Prod.fst hmem)) (not_lt.2 (le_of_lt hgt))
      subst hab
      have hv : v = w := by
        have := h a
        simpa [find?] using this
      subst hv
      congr 1
      apply ih t2 h1.2 h2.2
      intro k
      have := h k
      simp only [find?] at this
      split_ifs at this with hk
      · subst hk
        rw [(find?_eq_none t1 k).2, (find?_eq_none t2 k).2]
        · intro hmem; exact absurd (h2.1 k hmem) (lt_irrefl k)
        · intro hmem; exact absurd (h1.1 k hmem) (lt_irrefl k)
      · exact this

end OMap

/-! ## ComputeAverageRating -/

namespace SearchServer

theorem wrapInt32_of_fits (x : Int) (h1 : -2147483648 ≤ x) (h2 : x < 2147483648) :
    wrapInt32 x = x := by
  unfold wrapInt32; omega

theorem wrapInt32_add_wrap (a b : Int) : wrapInt32 (wrapInt32 a + b) = wrapInt32 (a + b) := by
  unfold wrapInt32; omega

theorem foldl_wrap_sum (ratings : List Int) (r : Int) (acc : Int) :
    (r :: ratings).foldl (fun acc r => wrapInt32 (acc + r)) acc
      = wrapInt32 (acc + (r :: ratings).sum) := by
  induction ratings generalizing r acc with
  | nil => simp
  | cons r2 t ih =>
    rw [List.foldl_cons, ih r2, wrapInt32_add_wrap]
    simp [add_assoc]

theorem isValidWord_iff (word : Str) : IsValidWord word = true ↔ ∀ b ∈ word, ¬ b < 32 := by
  simp [IsValidWord]

end SearchServer

/-- C5: a call of `AddDocument` with a negative id, with the id of a live document
or with a text holding a byte below 0x20 fails with `InvalidArgument` and leaves
every data member of the server as it was. -/
theorem C5_add_document_rejects (s : SearchServer) (document_id : Int) (document : Str)
    (status : DocumentStatus) (ratings : List Int)
    (h : document_id < 0 ∨ document_id ∈ s.document_id_ ∨ ∃ b ∈ document, b < 32) :
    SearchServer.AddDocument s document_id document status ratings
      = (Except.error Error.InvalidArgument, s) := by
  unfold SearchServer.AddDocument
  by_cases h1 : document_id < 0
  · simp [h1]
  · by_cases h2 : document_id ∈ s.document_id_
    · simp [h1, h2]
    · have h3 : SearchServer.IsValidWord document = false := by
        rcases h with h | h | h
        · exact absurd h h1
        · exact absurd h h2
        · cases hv : SearchServer.IsValidWord document
          · rfl
          · obtain ⟨b, hb, hlt⟩ := h
            exact absurd hlt ((SearchServer.isValidWord_iff document).1 hv b hb)
      simp [h1, h2, h3]

/-- Witness of C5: id -1 on the empty server. -/
theorem C5_add_document_rejects_witness :
    ((-1 : Int) < 0 ∨ (-1 : Int) ∈ SearchServer.empty.document_id_ ∨ ∃ b ∈ bytes "ok", b < 32)
    ∧ SearchServer.AddDocument SearchServer.empty (-1) (bytes "ok") DocumentStatus.ACTUAL []
      = (Except.error Error.InvalidArgument, SearchServer.empty) :=
  ⟨by decide, C5_add_document_rejects SearchServer.empty (-1) (bytes "ok")
    DocumentStatus.ACTUAL [] (by decide)⟩

/-! ## SplitIntoWords -/

theorem removePrefix_cons_succ (b : Nat) (t : Str) (o : Option Nat) :
    removePrefix (b :: t) (o.map (· + 1)) = removePrefix t o := by
  cases o <;> simp [removePrefix]

theorem removePrefix_findFirstNotOf (text : Str) (c n : Nat) :
    removePrefix text (svFindFirstNotOf text c n)
      = (text.drop n).dropWhile (fun x => decide (x = c)) := by
  induction text generalizing n with
  | nil => simp [svFindFirstNotOf, removePrefix]
  | cons b t ih =>
    cases n with
    | zero =>
      by_cases h : b = c
      · simp [svFindFirstNotOf, h, removePrefix_cons_succ, ih 0, List.dropWhile_cons]
      · simp [svFindFirstNotOf, h, removePrefix, List.dropWhile_cons]
    | succ n =>
      simp [svFindFirstNotOf, removePrefix_cons_succ, ih n]

theorem svFind_none (text : Str) (c : Nat) (h : svFind text c = none) :
    text.takeWhile (fun x => !decide (x = c)) = text
      ∧ text.dropWhile (fun x => !decide (x = c)) = [] := by
  induction text with
  | nil => simp
  | cons b t ih =>
    simp only [svFind] at h
    split_ifs at h with hb
    simp only [Option.map_eq_none'] at h
    obtain ⟨i1, i2⟩ := ih h
    rw [List.takeWhile_cons, List.dropWhile_cons]
    simp only [hb, decide_False, Bool.not_false, if_true, i1, i2, and_self]

theorem svFind_some (text : Str) (c n : Nat) (h : svFind text c = some n) :
    text.take n = text.takeWhile (fun x => !decide (x = c))
      ∧ text.drop n = text.dropWhile (fun x => !decide (x = c)) := by
  induction text generalizing n with
  | nil => simp [svFind] at h
  | cons b t ih =>
    simp only [svFind] at h
    split_ifs at h with hb
    · cases h
      simp [List.takeWhile_cons, List.dropWhile_cons, hb]
    · simp only [Option.map_eq_some'] at h
      obtain ⟨m, hm, rfl⟩ := h
      obtain ⟨i1, i2⟩ := ih m hm
      rw [List.takeWhile_cons, List.dropWhile_cons]
      simp only [hb, decide_False, Bool.not_false, if_true, List.take_succ_cons,
        List.drop_succ_cons, i1, i2, and_self]

/-- One turn of the loop of `SplitIntoWords`: the word is the longest space-free
prefix, and the text goes on after the spaces that follow it. -/
theorem splitIntoWordsLoop_succ (fuel : Nat) (text : Str) :
    SplitIntoWordsLoop (fuel + 1) text
      = if text = [] then []
        else text.takeWhile (fun x => !decide (x = SPACE)) ::
          SplitIntoWordsLoop fuel
            ((text.dropWhile (fun x => !decide (x = SPACE))).dropWhile
              (fun x => decide (x = SPACE))) := by
  simp only [SplitIntoWordsLoop, List.isEmpty_iff]
  split_ifs with h
  · rfl
  · cases hs : svFind text SPACE with
    | none =>
      obtain ⟨h1, h2⟩ := svFind_none text SPACE hs
      simp only [removePrefix, h1, h2, List.dropWhile_nil]
    | some n =>
      obtain ⟨h1, h2⟩ := svFind_some text SPACE n hs
      simp only [removePrefix_findFirstNotOf, h1, h2]

theorem splitIntoWords_eq (text : Str) :
    SplitIntoWords text
      = SplitIntoWordsLoop (text.dropWhile (fun x => decide (x = SPACE))).length
          (text.dropWhile (fun x => decide (x = SPACE))) := by
  simp [SplitIntoWords, removePrefix_findFirstNotOf]

theorem head?_dropWhile_space (text : Str) :
    (text.dropWhile (fun x => decide (x = SPACE))).head? ≠ some SPACE := by
  intro hh
  have := List.head?_dropWhile_not (fun b => decide (b = SPACE)) text
  rw [hh] at this
  simp at this

theorem loop_words (fuel : Nat) (text : Str) (hstart : text.head? ≠ some SPACE) :
    ∀ w ∈ SplitIntoWordsLoop fuel text, w ≠ [] ∧ (∀ b ∈ w, b ∈ text ∧ b ≠ SPACE) := by
  induction fuel generalizing text with
  | zero => simp [SplitIntoWordsLoop]
  | succ fuel ih =>
    rw [splitIntoWordsLoop_succ]
    split_ifs with h
    · simp
    · intro w hw
      rcases List.mem_cons.1 hw with rfl | hw
      · constructor
        · cases text with
          | nil => exact absurd rfl h
          | cons b t =>
            have hb : b ≠ SPACE := by simpa using hstart
            simp [List.takeWhile_cons, hb]
        · intro b hb
          refine ⟨(List.takeWhile_sublist _).subset hb, ?_⟩
          simpa using List.mem_takeWhile_imp hb
      · obtain ⟨h1, h2⟩ := ih _ (head?_dropWhile_space _) w hw
        refine ⟨h1, fun b hb => ⟨?_, (h2 b hb).2⟩⟩
        have := (h2 b hb).1
        exact (List.dropWhile_sublist _).subset ((List.dropWhile_sublist _).subset this)

/-- Every word of `SplitIntoWords` is non-empty, free of spaces, and made of bytes
of the text. -/
theorem splitIntoWords_words (text : Str) :
    ∀ w ∈ SplitIntoWords text, w ≠ [] ∧ (∀ b ∈ w, b ∈ text ∧ b ≠ SPACE) := by
  rw [splitIntoWords_eq]
  intro w hw
  obtain ⟨h1, h2⟩ := loop_words _ _ (head?_dropWhile_space text) w hw
  exact ⟨h1, fun b hb => ⟨(List.dropWhile_sublist _).subset (h2 b hb).1, (h2 b hb).2⟩⟩

/-! ## The sorting model -/

section Sorting
variable {α : Type}

theorem unguardedLinearInsert_perm (comp : α → α → Bool) (val : α) (l : List α) :
    (unguardedLinearInsert comp val l).Perm (val :: l) := by
  induction l with
  | nil => simp [unguardedLinearInsert]
  | cons x t ih =>
    simp only [unguardedLinearInsert]
    split_ifs
    · exact (List.Perm.cons x ih).trans (List.Perm.swap val x t)
    · exact List.Perm.refl _

theorem insertionStep_perm (comp : α → α → Bool) (rpre : List α) (val : α) :
    (insertionStep comp rpre val).Perm (val :: rpre) := by
  unfold insertionStep
  split
  · rename_i h
    rw [List.getLast?_eq_none_iff] at h
    subst h; exact List.Perm.refl _
  · split_ifs
    · exact List.perm_append_singleton val rpre
    · exact unguardedLinearInsert_perm comp val rpre

theorem foldl_insertionStep_perm (comp : α → α → Bool) (l rpre : List α) :
    (l.foldl (insertionStep comp) rpre).Perm (l ++ rpre) := by
  induction l generalizing rpre with
  | nil => simp
  | cons a t ih =>
    rw [List.foldl_cons]
    refine (ih _).trans ?_
    refine (List.Perm.append_left t (insertionStep_perm comp rpre a)).trans ?_
    simp

/-- The sorting model returns a permutation of its input. -/
theorem stdSort_perm (comp : α → α → Bool) (l : List α) : (stdSort comp l).Perm l := by
  unfold stdSort
  refine (List.reverse_perm _).trans ?_
  simpa using foldl_insertionStep_perm comp l []

theorem mem_stdSort (comp : α → α → Bool) (l : List α) (x : α) : x ∈ stdSort comp l ↔ x ∈ l :=
  (stdSort_perm comp l).mem_iff

theorem length_stdSort (comp : α → α → Bool) (l : List α) : (stdSort comp l).length = l.length :=
  (stdSort_perm comp l).length_eq

/-- The linear scan keeps the prefix ordered when the comparison is asymmetric and
negatively transitive on the elements at hand. -/
theorem unguardedLinearInsert_pairwise (comp : α → α → Bool) (M : α → Prop)
    (hasym : ∀ a b, comp a b = true → comp b a = false)
    (hneg : ∀ a b c, M a → M b → M c → comp a b = true → comp a c = true ∨ comp c b = true)
    (val : α) (hval : M val) (l : List α) (hl : ∀ x ∈ l, M x)
    (h : l.Pairwise (fun x y => comp x y = false)) :
    (unguardedLinearInsert comp val l).Pairwise (fun x y => comp x y = false) := by
  induction l with
  | nil => simp [unguardedLinearInsert]
  | cons x t ih =>
    rw [List.pairwise_cons] at h
    simp only [unguardedLinearInsert]
    split_ifs with hc
    · rw [List.pairwise_cons]
      refine ⟨?_, ih (fun y hy => hl y (List.mem_cons_of_mem _ hy)) h.2⟩
      intro y hy
      have hy2 := ((unguardedLinearInsert_perm comp val t).mem_iff).1 hy
      rcases List.mem_cons.1 hy2 with rfl | hy3
      · exact hasym _ _ hc
      · exact h.1 y hy3
    · rw [List.pairwise_cons]
      refine ⟨?_, List.pairwise_cons.2 h⟩
      intro y hy
      rcases List.mem_cons.1 hy with rfl | hy
      · simpa using hc
      · by_contra hcy
        have hcy : comp val y = true := by simpa using hcy
        rcases hneg val y x hval (hl y (List.mem_cons_of_mem _ hy)) (hl x (List.mem_cons_self _ _))
          hcy with h1 | h1
        · exact hc h1
        · rw [h.1 y hy] at h1; exact absurd h1 (by simp)

theorem insertionStep_pairwise (comp : α → α → Bool) (M : α → Prop)
    (hasym : ∀ a b, comp a b = true → comp b a = false)
    (hneg : ∀ a b c, M a → M b → M c → comp a b = true → comp a c = true ∨ comp c b = true)
    (val : α) (hval : M val) (rpre : List α) (hl : ∀ x ∈ rpre, M x)
    (h : rpre.Pairwise (fun x y => comp x y = false)) :
    (insertionStep comp rpre val).Pairwise (fun x y => comp x y = false) := by
  unfold insertionStep
  split
  · simp
  · rename_i first hfirst
    split_ifs with hc
    · rw [List.pairwise_append]
      refine ⟨h, by simp, ?_⟩
      intro x hx y hy
      rw [List.mem_singleton] at hy
      subst hy
      obtain ⟨init, rfl⟩ : ∃ init, rpre = init ++ [first] :=
        List.getLast?_eq_some_iff.1 hfirst
      have hfm : first ∈ init ++ [first] := by simp
      by_contra hxy
      have hxy : comp x y = true := by simpa using hxy
      rcases hneg x y first (hl x hx) hval (hl first hfm) hxy with h1 | h1
      · rw [List.pairwise_append] at h
        rcases List.mem_append.1 hx with hx | hx
        · have := h.2.2 x hx first (by simp)
          rw [this] at h1; exact absurd h1 (by simp)
        · rw [List.mem_singleton] at hx
          subst hx
          have := hasym _ _ h1
          rw [this] at h1; exact absurd h1 (by simp)
      · rw [hasym _ _ hc] at h1; exact absurd h1 (by simp)
    · exact unguardedLinearInsert_pairwise comp M hasym hneg val hval rpre hl h

theorem foldl_insertionStep_pairwise (comp : α → α → Bool) (M : α → Prop)
    (hasym : ∀ a b, comp a b = true → comp b a = false)
    (hneg : ∀ a b c, M a → M b → M c → comp a b = true → comp a c = true ∨ comp c b = true)
    (l rpre : List α) (hl : ∀ x ∈ l, M x) (hr : ∀ x ∈ rpre, M x)
    (h : rpre.Pairwise (fun x y => comp x y = false)) :
    (l.foldl (insertionStep comp) rpre).Pairwise (fun x y => comp x y = false) := by
  induction l generalizing rpre with
  | nil => exact h
  | cons a t ih =>
    rw [List.foldl_cons]
    refine ih _ (fun x hx => hl x (List.mem_cons_of_mem _ hx)) ?_ ?_
    · intro x hx
      rcases List.mem_cons.1 ((insertionStep_perm comp rpre a).mem_iff.1 hx) with rfl | hx
      · exact hl _ (List.mem_cons_self _ _)
      · exact hr x hx
    · exact insertionStep_pairwise comp M hasym hneg a (hl a (List.mem_cons_self _ _)) rpre hr h

/-- On an asymmetric comparison that is negatively transitive on the elements of
the input, the sorting model orders every pair: no later element compares before
an earlier one. -/
theorem stdSort_pairwise (comp : α → α → Bool) (M : α → Prop)
    (hasym : ∀ a b, comp a b = true → comp b a = false)
    (hneg : ∀ a b c, M a → M b → M c → comp a b = true → comp a c = true ∨ comp c b = true)
    (l : List α) (hl : ∀ x ∈ l, M x) :
    (stdSort comp l).Pairwise (fun x y => comp y x = false) := by
  unfold stdSort
  rw [List.pairwise_reverse]
  exact foldl_insertionStep_pairwise comp M hasym hneg l [] hl (by simp) List.Pairwise.nil

end Sorting

/-! ## std::unique -/

theorem mem_stdUnique {α : Type} [DecidableEq α] (l : List α) (x : α) :
    x ∈ stdUnique l ↔ x ∈ l := by
  induction l using stdUnique.induct with
  | case1 => simp [stdUnique]
  | case2 a => simp [stdUnique]
  | case3 a t ih =>
    simp only [stdUnique, if_true, ih]
    simp
  | case4 a b t hab ih =>
    simp only [stdUnique, if_neg hab, List.mem_cons, ih]

/-- After sorting, `std::unique` leaves a strictly ascending list. -/
theorem stdUnique_sorted {α : Type} [LinearOrder α] [DecidableEq α] (l : List α)
    (h : l.Pairwise (fun x y => ¬ y < x)) : (stdUnique l).Sorted (· < ·) := by
  induction l using stdUnique.induct with
  | case1 => simp [stdUnique]
  | case2 a => simp [stdUnique]
  | case3 a t ih =>
    simp only [stdUnique, if_true]
    exact ih (List.Pairwise.of_cons h)
  | case4 a b t hab ih =>
    simp only [stdUnique, if_neg hab]
    rw [List.sorted_cons]
    refine ⟨?_, ih (List.Pairwise.of_cons h)⟩
    intro y hy
    rw [mem_stdUnique] at hy
    rw [List.pairwise_cons] at h
    have hab2 : a < b := lt_of_le_of_ne (not_lt.1 (h.1 b (List.mem_cons_self _ _))) hab
    rcases List.mem_cons.1 hy with rfl | hy
    · exact hab2
    · have h2 := h.2
      rw [List.pairwise_cons] at h2
      exact lt_of_lt_of_le hab2 (not_lt.1 (h2.1 y hy))

/-- Sorting with `operator<` and removing equal neighbours gives a strictly
ascending list with the same elements. -/
theorem sort_unique_spec {α : Type} [LinearOrder α] [DecidableEq α]
    [DecidableRel (fun a b : α => a < b)] (l : List α) :
    (stdUnique (stdSort (fun a b => decide (a < b)) l)).Sorted (· < ·)
    ∧ ∀ x, x ∈ stdUnique (stdSort (fun a b => decide (a < b)) l) ↔ x ∈ l := by
  constructor
  · apply stdUnique_sorted
    have := stdSort_pairwise (fun a b : α => decide (a < b)) (fun _ => True)
      (by intro a b hab; simp only [decide_eq_true_eq] at hab; simp [le_of_lt hab])
      (by
        intro a b c _ _ _ hab
        simp only [decide_eq_true_eq] at hab ⊢
        rcases lt_or_le a c with h | h
        · exact Or.inl h
        · exact Or.inr (lt_of_le_of_lt h hab))
      l (by simp)
    refine this.imp ?_
    intro x y hxy
    simpa using hxy
  · intro x
    rw [mem_stdUnique, mem_stdSort]

/-! ## The query parser -/

namespace SearchServer

theorem isValidWord_of_subset (w text : Str) (h : IsValidWord text = true)
    (hsub : ∀ b ∈ w, b ∈ text) : IsValidWord w = true := by
  rw [isValidWord_iff] at h ⊢
  exact fun b hb => h b (hsub b hb)

/-- What `ParseQueryWord` does with a non-empty word free of control bytes. -/
theorem parseQueryWord_eq (s : SearchServer) (w : Str) (hne : w ≠ []) (hv : IsValidWord w = true) :
    ParseQueryWord s w
      = if w = [DASH] ∨ w.take 2 = [DASH, DASH] then .error .InvalidArgument
        else .ok ⟨if w.head? = some DASH then w.drop 1 else w, decide (w.head? = some DASH),
          IsStopWord s (if w.head? = some DASH then w.drop 1 else w)⟩ := by
  cases w with
  | nil => exact absurd rfl hne
  | cons a t =>
    have hvt : IsValidWord t = true :=
      isValidWord_of_subset t (a :: t) hv (fun b hb => List.mem_cons_of_mem _ hb)
    by_cases ha : a = DASH
    · subst ha
      cases t with
      | nil => simp [ParseQueryWord]
      | cons b u =>
        by_cases hb : b = DASH
        · subst hb; simp [ParseQueryWord]
        · simp [ParseQueryWord, hb, hvt]
    · simp [ParseQueryWord, ha, hv]

theorem parseWords_eq (s : SearchServer) (words : List Str) (query : Query)
    (hw : ∀ w ∈ words, w ≠ [] ∧ IsValidWord w = true) :
    parseWords s words query
      = if ∃ w ∈ words, w = [DASH] ∨ w.take 2 = [DASH, DASH] then .error .InvalidArgument
        else .ok ⟨query.plus_words ++ words.filter (isPlusToken s),
          query.minus_words ++ (words.filter (isMinusToken s)).map (List.drop 1)⟩ := by
  induction words generalizing query with
  | nil => simp [parseWords]
  | cons w rest ih =>
    have hrest : ∀ w ∈ rest, w ≠ [] ∧ IsValidWord w = true :=
      fun x hx => hw x (List.mem_cons_of_mem _ hx)
    obtain ⟨hne, hv⟩ := hw w (List.mem_cons_self _ _)
    simp only [parseWords, parseQueryWord_eq s w hne hv]
    by_cases hbad : w = [DASH] ∨ w.take 2 = [DASH, DASH]
    · simp [hbad]
    · rw [if_neg hbad]
      simp only [List.exists_mem_cons_iff, hbad, false_or]
      by_cases hd : w.head? = some DASH
      · by_cases hst : IsStopWord s w.tail = true
        · simp [hd, hst, ih _ hrest, isPlusToken, isMinusToken, List.filter_cons]
        · simp only [Bool.not_eq_true] at hst
          simp [hd, hst, ih _ hrest, isPlusToken, isMinusToken, List.filter_cons]
      · by_cases hst : IsStopWord s w = true
        · simp [hd, hst, ih _ hrest, isPlusToken, isMinusToken, List.filter_cons]
        · simp only [Bool.not_eq_true] at hst
          simp [hd, hst, ih _ hrest, isPlusToken, isMinusToken, List.filter_cons]

theorem splitIntoWords_valid (text : Str) (hv : IsValidWord text = true) :
    ∀ w ∈ SplitIntoWords text, w ≠ [] ∧ IsValidWord w = true := by
  intro w hw
  obtain ⟨h1, h2⟩ := splitIntoWords_words text w hw
  exact ⟨h1, isValidWord_of_subset w text hv (fun b hb => (h2 b hb).1)⟩

theorem isValidWord_false_iff (text : Str) : IsValidWord text = false ↔ ∃ b ∈ text, b < 32 := by
  simp [IsValidWord]

/-- The outcome of `ParseQuery` on every text. -/
theorem parseQuery_eq (s : SearchServer) (text : Str) (delete_copy : Bool) :
    ParseQuery s text delete_copy
      = if MalformedQuery text then .error .InvalidArgument
        else if delete_copy then
          .ok { minus_words := stdUnique (stdSort (fun a b => decide (a < b))
                  (((SplitIntoWords text).filter (isMinusToken s)).map (List.drop 1)))
                plus_words := stdUnique (stdSort (fun a b => decide (a < b))
                  ((SplitIntoWords text).filter (isPlusToken s))) }
        else .ok ⟨(SplitIntoWords text).filter (isPlusToken s),
          ((SplitIntoWords text).filter (isMinusToken s)).map (List.drop 1)⟩ := by
  cases hv : IsValidWord text with
  | false =>
    have hm : MalformedQuery text := Or.inl ((isValidWord_false_iff text).1 hv)
    rw [if_pos hm]
    simp [ParseQuery, hv]
  | true =>
    have hno : ¬ ∃ b ∈ text, b < 32 := by
      rw [← isValidWord_false_iff, hv]; simp
    have hpw := parseWords_eq s _ ⟨[], []⟩ (splitIntoWords_valid text hv)
    by_cases hbad : ∃ w ∈ SplitIntoWords text, w = [DASH] ∨ w.take 2 = [DASH, DASH]
    · have hm : MalformedQuery text := by
        obtain ⟨w, hw, h | h⟩ := hbad
        · exact Or.inr (Or.inl ⟨w, hw, h⟩)
        · exact Or.inr (Or.inr ⟨w, hw, h⟩)
      rw [if_pos hbad] at hpw
      rw [if_pos hm]
      simp only [ParseQuery, hv, hpw]
      simp
    · have hm : ¬ MalformedQuery text := by
        rintro (h | ⟨w, hw, h⟩ | ⟨w, hw, h⟩)
        · exact hno h
        · exact hbad ⟨w, hw, Or.inl h⟩
        · exact hbad ⟨w, hw, Or.inr h⟩
      rw [if_neg hbad] at hpw
      rw [if_neg hm]
      simp only [ParseQuery, hv, hpw]
      cases delete_copy <;> simp

theorem mem_plus_filter (s : SearchServer) (text : Str) (w : Str) :
    w ∈ (SplitIntoWords text).filter (isPlusToken s)
      ↔ w ∈ SplitIntoWords text ∧ w.head? ≠ some DASH ∧ w ∉ s.stop_words_ := by
  simp [isPlusToken, IsStopWord]

theorem mem_minus_filter (s : SearchServer) (text : Str) (w : Str) :
    w ∈ ((SplitIntoWords text).filter (isMinusToken s)).map (List.drop 1)
      ↔ (DASH :: w) ∈ SplitIntoWords text ∧ w ∉ s.stop_words_ := by
  simp only [List.mem_map, List.mem_filter, isMinusToken, IsStopWord, Bool.and_eq_true,
    decide_eq_true_eq, Bool.not_eq_true', decide_eq_false_iff_not]
  constructor
  · rintro ⟨t, ⟨ht, hd, hst⟩, rfl⟩
    cases t with
    | nil => simp at hd
    | cons a u =>
      simp only [List.head?_cons, Option.some.injEq] at hd
      subst hd
      exact ⟨ht, hst⟩
  · rintro ⟨h1, h2⟩
    exact ⟨DASH :: w, ⟨h1, rfl, h2⟩, rfl⟩

end SearchServer

/-- C9: for every stop-word set and every query text, `ParseQuery` fails with
`InvalidArgument` exactly when the text holds a byte below 0x20, or a word of it is
"-", or a word of it begins with "--"; on every other text it succeeds, among them
the empty text and every text made of spaces only; the text "--x" is rejected. -/
theorem C9_parse_query_fails_iff (s : SearchServer) (text : Str) (delete_copy : Bool) :
    (SearchServer.ParseQuery s text delete_copy = Except.error Error.InvalidArgument
        ↔ SearchServer.MalformedQuery text)
    ∧ (¬ SearchServer.MalformedQuery text →
        ∃ query, SearchServer.ParseQuery s text delete_copy = Except.ok query)
    ∧ (∃ query, SearchServer.ParseQuery s [] delete_copy = Except.ok query)
    ∧ (∀ n, ∃ query,
        SearchServer.ParseQuery s (List.replicate n SPACE) delete_copy = Except.ok query)
    ∧ SearchServer.ParseQuery s (bytes "--x") delete_copy
        = Except.error Error.InvalidArgument := by
  have key : ∀ t : Str, ¬ SearchServer.MalformedQuery t →
      ∃ query, SearchServer.ParseQuery s t delete_copy = Except.ok query := by
    intro t ht
    rw [SearchServer.parseQuery_eq, if_neg ht]
    cases delete_copy <;> simp
  refine ⟨?_, key text, key [] (by decide), ?_, ?_⟩
  · rw [SearchServer.parseQuery_eq]
    by_cases h : SearchServer.MalformedQuery text
    · simp [h]
    · rw [if_neg h]
      cases delete_copy <;> simp [h]
  · intro n
    apply key
    have hnw : ∀ w, w ∉ SplitIntoWords (List.replicate n SPACE) := by
      intro w hw
      obtain ⟨h1, h2⟩ := splitIntoWords_words _ w hw
      cases w with
      | nil => exact h1 rfl
      | cons b t =>
        have := h2 b (List.mem_cons_self _ _)
        exact this.2 (List.eq_of_mem_replicate this.1)
    rintro (⟨b, hb, hlt⟩ | ⟨w, hw, _⟩ | ⟨w, hw, _⟩)
    · rw [List.eq_of_mem_replicate hb] at hlt
      exact absurd hlt (by decide)
    · exact hnw w hw
    · exact hnw w hw
  · rw [SearchServer.parseQuery_eq, if_pos (by decide)]

/-- C10: on a well-formed query text the deduplicating parse succeeds; its
`plus_words` and `minus_words` are strictly ascending in the lexicographic order of
the bytes, the plus words are exactly the words of the text that do not begin with
'-' and are no stop-words, and the minus words are exactly the words `w` such that
"-" followed by `w` is a word of the text and `w` is no stop-word. -/
theorem C10_parse_query_sorted_sets (s : SearchServer) (text : Str)
    (hq : ¬ SearchServer.MalformedQuery text) :
    ∃ query, SearchServer.ParseQuery s text true = Except.ok query
      ∧ query.plus_words.Sorted (· < ·)
      ∧ query.minus_words.Sorted (· < ·)
      ∧ (∀ w, w ∈ query.plus_words
          ↔ w ∈ SplitIntoWords text ∧ w.head? ≠ some DASH ∧ w ∉ s.stop_words_)
      ∧ (∀ w, w ∈ query.minus_words
          ↔ (DASH :: w) ∈ SplitIntoWords text ∧ w ∉ s.stop_words_) := by
  rw [SearchServer.parseQuery_eq, if_neg hq]
  refine ⟨_, rfl, ?_, ?_, ?_, ?_⟩
  · exact (sort_unique_spec _).1
  · exact (sort_unique_spec _).1
  · intro w
    dsimp only
    rw [(sort_unique_spec _).2, SearchServer.mem_plus_filter]
  · intro w
    dsimp only
    rw [(sort_unique_spec _).2, SearchServer.mem_minus_filter]

/-! ## Maps of maps -/

namespace OMap
variable {K1 K2 : Type} [LinearOrder K1] [LinearOrder K2]

theorem find2_eq_getD (m : List (K1 × List (K2 × ℚ))) (k1 : K1) (k2 : K2) :
    getD (getD m k1 []) k2 0 = (find2 m k1 k2).getD 0 := by
  unfold getD find2
  cases find? m k1 <;> simp [find?]

theorem find2_addFreq (m : List (K1 × List (K2 × ℚ))) (k1 j1 : K1) (k2 j2 : K2) (x : ℚ) :
    find2 (SearchServer.addFreq m k1 k2 x) j1 j2
      = if j1 = k1 ∧ j2 = k2 then some ((find2 m k1 k2).getD 0 + x) else find2 m j1 j2 := by
  unfold SearchServer.addFreq
  simp only [find2, find?_set]
  by_cases h1 : j1 = k1
  · subst h1
    by_cases h2 : j2 = k2
    · subst h2
      simp only [if_true, Option.some_bind, find?_set, and_self]
      rw [find2_eq_getD]; rfl
    · simp only [if_true, Option.some_bind, find?_set, if_neg h2, and_false, if_false, h2]
      unfold getD
      cases find? m j1 <;> simp [find?]
  · simp [h1]

theorem keys_addFreq (m : List (K1 × List (K2 × ℚ))) (k1 : K1) (k2 : K2) (x : ℚ) :
    keys (SearchServer.addFreq m k1 k2 x) = OSet.insert k1 (keys m) := by
  unfold SearchServer.addFreq; rw [keys_set]

theorem wf_addFreq (m : List (K1 × List (K2 × ℚ))) (k1 : K1) (k2 : K2) (x : ℚ) (h : WF m) :
    WF (SearchServer.addFreq m k1 k2 x) := wf_set _ _ _ h

theorem wf_nil {K V : Type} [LinearOrder K] : WF ([] : List (K × V)) := by
  simp [WF, keys]

theorem wf_getD (m : List (K1 × List (K2 × ℚ))) (k1 : K1) (h : ∀ p ∈ m, WF p.2) :
    WF (getD m k1 []) := by
  unfold getD
  cases hf : find? m k1 with
  | none => exact wf_nil
  | some inner => exact h _ (mem_of_find? m k1 inner hf)

theorem inner_wf_addFreq (m : List (K1 × List (K2 × ℚ))) (k1 : K1) (k2 : K2) (x : ℚ)
    (h : ∀ p ∈ m, WF p.2) : ∀ p ∈ SearchServer.addFreq m k1 k2 x, WF p.2 := by
  intro p hp
  rcases mem_set _ _ _ p hp with rfl | hp
  · exact wf_set _ _ _ (wf_getD m k1 h)
  · exact h p hp

/-- The frequencies after a run of `+=` statements, one for each listed pair of
keys: a listed pair holds its former value plus one increment per occurrence. -/
theorem find2_foldl_addFreq (pairs : List (K1 × K2)) (m : List (K1 × List (K2 × ℚ)))
    (x : ℚ) (j1 : K1) (j2 : K2) :
    find2 (pairs.foldl (fun m p => SearchServer.addFreq m p.1 p.2 x) m) j1 j2
      = if (j1, j2) ∈ pairs
        then some ((find2 m j1 j2).getD 0 + (pairs.count (j1, j2) : ℚ) * x)
        else find2 m j1 j2 := by
  induction pairs generalizing m with
  | nil => simp
  | cons p t ih =>
    obtain ⟨k1, k2⟩ := p
    rw [List.foldl_cons, ih]
    simp only [find2_addFreq]
    by_cases hp : j1 = k1 ∧ j2 = k2
    · obtain ⟨rfl, rfl⟩ := hp
      simp only [and_self, if_true, List.mem_cons, true_or, Option.getD_some,
        List.count_cons_self]
      split_ifs with ht
      · congr 1; push_cast; ring
      · rw [List.count_eq_zero_of_not_mem ht]; simp
    · have hne : (j1, j2) ≠ (k1, k2) := by
        intro h; cases h; exact hp ⟨rfl, rfl⟩
      have hne2 : ¬ ((k1, k2) = (j1, j2)) := fun h => hne h.symm
      simp only [if_neg hp, List.mem_cons, hne, false_or]
      rw [List.count_cons_of_ne hne]

theorem keys_foldl_addFreq (pairs : List (K1 × K2)) (m : List (K1 × List (K2 × ℚ))) (x : ℚ)
    (j : K1) :
    j ∈ keys (pairs.foldl (fun m p => SearchServer.addFreq m p.1 p.2 x) m)
      ↔ j ∈ keys m ∨ j ∈ pairs.map Prod.fst := by
  induction pairs generalizing m with
  | nil => simp
  | cons p t ih =>
    rw [List.foldl_cons, ih, keys_addFreq, OSet.oset_mem_insert]
    simp only [List.map_cons, List.mem_cons]
    tauto

theorem wf_foldl_addFreq (pairs : List (K1 × K2)) (m : List (K1 × List (K2 × ℚ))) (x : ℚ)
    (h : WF m) (hi : ∀ p ∈ m, WF p.2) :
    WF (pairs.foldl (fun m p => SearchServer.addFreq m p.1 p.2 x) m)
      ∧ ∀ p ∈ pairs.foldl (fun m p => SearchServer.addFreq m p.1 p.2 x) m, WF p.2 := by
  induction pairs generalizing m with
  | nil => exact ⟨h, hi⟩
  | cons p t ih =>
    rw [List.foldl_cons]
    exact ih _ (wf_addFreq _ _ _ _ h) (inner_wf_addFreq _ _ _ _ hi)

end OMap

/-! ## AddDocument and RemoveDocument keep the index invariants -/

namespace SearchServer

theorem addLoop_eq (document_id : Int) (x : ℚ) (words : List Str) (s1 : SearchServer) :
    words.foldl
      (fun st word => { st with
        word_to_document_freqs_ := addFreq st.word_to_document_freqs_ word document_id x
        id_to_word_to_document_freqs_ :=
          addFreq st.id_to_word_to_document_freqs_ document_id word x })
      s1
    = { s1 with
        word_to_document_freqs_ :=
          (words.map (fun w => (w, document_id))).foldl (fun m p => addFreq m p.1 p.2 x)
            s1.word_to_document_freqs_
        id_to_word_to_document_freqs_ :=
          (words.map (fun w => (document_id, w))).foldl (fun m p => addFreq m p.1 p.2 x)
            s1.id_to_word_to_document_freqs_ } := by
  induction words generalizing s1 with
  | nil => rfl
  | cons w t ih => rw [List.foldl_cons, ih]; rfl

theorem addDocument_ok (s : SearchServer) (document_id : Int) (document : Str)
    (status : DocumentStatus) (ratings : List Int)
    (h1 : ¬ document_id < 0) (h2 : document_id ∉ s.document_id_)
    (h3 : IsValidWord document = true) :
    AddDocument s document_id document status ratings
      = (.ok (), afterAdd s document_id document status ratings) := by
  unfold AddDocument
  simp only [h1, h2, h3, if_false, decide_False, Bool.not_true, Bool.false_eq_true]
  rw [addLoop_eq]
  rfl

/-- Every call of `AddDocument` either fails and leaves the state alone or succeeds
with the state `afterAdd`. -/
theorem addDocument_cases (s : SearchServer) (document_id : Int) (document : Str)
    (status : DocumentStatus) (ratings : List Int) :
    (AddDocument s document_id document status ratings = (.error .InvalidArgument, s)
      ∧ (document_id < 0 ∨ document_id ∈ s.document_id_ ∨ IsValidWord document = false))
    ∨ (AddDocument s document_id document status ratings
        = (.ok (), afterAdd s document_id document status ratings)
      ∧ ¬ document_id < 0 ∧ document_id ∉ s.document_id_ ∧ IsValidWord document = true) := by
  by_cases h1 : document_id < 0
  · left; exact ⟨by simp [AddDocument, h1], Or.inl h1⟩
  · by_cases h2 : document_id ∈ s.document_id_
    · left; exact ⟨by simp [AddDocument, h1, h2], Or.inr (Or.inl h2)⟩
    · rcases Bool.eq_false_or_eq_true (IsValidWord document) with h3 | h3
      · right; exact ⟨addDocument_ok s _ _ _ _ h1 h2 h3, h1, h2, h3⟩
      · left; exact ⟨by simp [AddDocument, h1, h2, h3], Or.inr (Or.inr h3)⟩

theorem inv_afterAdd (s : SearchServer) (document_id : Int) (document : Str)
    (status : DocumentStatus) (ratings : List Int) (hs : Inv s)
    (h2 : document_id ∉ s.document_id_) :
    Inv (afterAdd s document_id document status ratings) := by
  have hw := OMap.wf_foldl_addFreq
    ((SplitIntoWordsNoStop s document).map (fun w => (w, document_id)))
    s.word_to_document_freqs_ (1 / ((SplitIntoWordsNoStop s document).length : ℚ))
    hs.w2d_wf hs.w2d_inner_wf
  have hd := OMap.wf_foldl_addFreq
    ((SplitIntoWordsNoStop s document).map (fun w => (document_id, w)))
    s.id_to_word_to_document_freqs_ (1 / ((SplitIntoWordsNoStop s document).length : ℚ))
    hs.d2w_wf hs.d2w_inner_wf
  refine ⟨OSet.oset_sorted_insert _ _ hs.ids_sorted, ?_, hw.1, hw.2, hd.1, hd.2, ?_, ?_⟩
  · show OMap.keys (OMap.emplace _ _ _) = OSet.insert _ _
    unfold OMap.emplace
    have : (OMap.find? s.documents_ document_id).isSome = false := by
      rw [Bool.eq_false_iff, Ne, OMap.find?_isSome, hs.docs_keys]; exact h2
    rw [this]
    simp only [Bool.false_eq_true, if_false]
    rw [OMap.keys_set, hs.docs_keys]
  · intro d hd2
    show d ∈ OSet.insert _ _
    rw [OSet.oset_mem_insert]
    have := (OMap.keys_foldl_addFreq _ _ _ d).1 hd2
    rcases this with h | h
    · exact Or.inr (hs.d2w_keys d h)
    · left
      simp only [List.map_map, List.mem_map, Function.comp] at h
      obtain ⟨_, _, h⟩ := h
      exact h.symm
  · intro w d
    show OMap.find2 (List.foldl _ _ _) w d = OMap.find2 (List.foldl _ _ _) d w
    rw [OMap.find2_foldl_addFreq, OMap.find2_foldl_addFreq, hs.agree w d]
    have hmem : (w, d) ∈ (SplitIntoWordsNoStop s document).map (fun w => (w, document_id))
        ↔ (d, w) ∈ (SplitIntoWordsNoStop s document).map (fun w => (document_id, w)) := by
      simp only [List.mem_map, Prod.mk.injEq]
      constructor
      · rintro ⟨a, ha, rfl, rfl⟩; exact ⟨a, ha, rfl, rfl⟩
      · rintro ⟨a, ha, rfl, rfl⟩; exact ⟨a, ha, rfl, rfl⟩
    simp only [hmem]
    split_ifs with hin
    · congr 3
      simp only [List.count, List.countP_map]
      congr 1
      apply List.countP_congr
      intro a _
      simp only [Function.comp, beq_iff_eq, Prod.mk.injEq]
      tauto
    · rfl

end SearchServer

namespace OMap
variable {K1 K2 V : Type} [LinearOrder K1] [LinearOrder K2]

theorem find2_erase (m : List (K1 × List (K2 × V))) (k j1 : K1) (j2 : K2) :
    find2 (erase k m) j1 j2 = if j1 = k then none else find2 m j1 j2 := by
  unfold find2
  rw [find?_erase]
  split_ifs <;> rfl

theorem find2_none_of_not_mem_keys (m : List (K1 × List (K2 × V))) (j1 : K1) (j2 : K2)
    (h : j2 ∉ keys (getD m j1 [])) : find2 m j1 j2 = none := by
  unfold find2 getD at *
  cases hf : find? m j1 with
  | none => rfl
  | some inner =>
    rw [hf] at h
    simpa using (find?_eq_none inner j2).2 h

end OMap

namespace SearchServer

theorem find2_eraseFromWords (document_id : Int) (words : List Str)
    (m : List (Str × List (Int × ℚ))) (w : Str) (d : Int) :
    OMap.find2 (eraseFromWords document_id words m) w d
      = if d = document_id ∧ w ∈ words then none else OMap.find2 m w d := by
  induction words generalizing m with
  | nil => simp [eraseFromWords]
  | cons a t ih =>
    rw [eraseFromWords, ih]
    have hstep : OMap.find2 (OMap.set a (OMap.erase document_id (OMap.getD m a [])) m) w d
        = if w = a ∧ d = document_id then none else OMap.find2 m w d := by
      unfold OMap.find2
      rw [OMap.find?_set]
      by_cases hw : w = a
      · subst hw
        simp only [if_true, Option.some_bind, OMap.find?_erase, true_and]
        split_ifs with hd
        · rfl
        · unfold OMap.getD
          cases OMap.find? m w <;> simp [OMap.find?]
      · simp [hw]
    rw [hstep]
    by_cases hd : d = document_id
    · by_cases ht : w ∈ t
      · simp [hd, ht]
      · by_cases hw : w = a
        · simp [hd, hw]
        · simp [hd, ht, hw]
    · simp [hd]

theorem wf_eraseFromWords (document_id : Int) (words : List Str)
    (m : List (Str × List (Int × ℚ))) (h : OMap.WF m) (hi : ∀ p ∈ m, OMap.WF p.2) :
    OMap.WF (eraseFromWords document_id words m)
      ∧ ∀ p ∈ eraseFromWords document_id words m, OMap.WF p.2 := by
  induction words generalizing m with
  | nil => exact ⟨h, hi⟩
  | cons a t ih =>
    rw [eraseFromWords]
    apply ih _ (OMap.wf_set _ _ _ h)
    intro p hp
    rcases OMap.mem_set _ _ _ p hp with rfl | hp
    · exact OMap.wf_erase _ _ (OMap.wf_getD m a hi)
    · exact hi p hp

/-- The state `RemoveDocument` leaves behind when the document is live. -/
theorem removeDocument_live (s : SearchServer) (document_id : Int)
    (h : document_id ∈ s.document_id_) :
    RemoveDocument s document_id
      = { s with
          word_to_document_freqs_ :=
            eraseFromWords document_id ((GetWordFrequencies s document_id).map Prod.fst)
              s.word_to_document_freqs_
          documents_ := OMap.erase document_id s.documents_
          document_id_ := OSet.erase document_id s.document_id_
          id_to_word_to_document_freqs_ :=
            OMap.erase document_id s.id_to_word_to_document_freqs_ } := by
  simp [RemoveDocument, h]

theorem removeDocument_not_live (s : SearchServer) (document_id : Int)
    (h : document_id ∉ s.document_id_) : RemoveDocument s document_id = s := by
  simp [RemoveDocument, h]

/-- The parallel overload either throws on a live document without an entry in the
forward index, leaving the state alone, or does what the sequential one does. -/
theorem removeDocumentPar_cases (s : SearchServer) (document_id : Int) :
    (RemoveDocumentPar s document_id = (.error .OutOfRange, s)
      ∧ document_id ∈ s.document_id_
      ∧ OMap.find? s.id_to_word_to_document_freqs_ document_id = none)
    ∨ RemoveDocumentPar s document_id = (.ok (), RemoveDocument s document_id) := by
  by_cases h : document_id ∈ s.document_id_
  · cases hf : OMap.find? s.id_to_word_to_document_freqs_ document_id with
    | none => left; exact ⟨by simp [RemoveDocumentPar, h, hf], h, rfl⟩
    | some m =>
      right
      rw [removeDocument_live s document_id h]
      simp [RemoveDocumentPar, h, hf, GetWordFrequencies]
  · right
    rw [removeDocument_not_live s document_id h]
    simp [RemoveDocumentPar, h]

theorem inv_removeDocument (s : SearchServer) (document_id : Int) (hs : Inv s) :
    Inv (RemoveDocument s document_id) := by
  by_cases h : document_id ∈ s.document_id_
  swap
  · rw [removeDocument_not_live s document_id h]; exact hs
  rw [removeDocument_live s document_id h]
  have hw := wf_eraseFromWords document_id ((GetWordFrequencies s document_id).map Prod.fst)
    s.word_to_document_freqs_ hs.w2d_wf hs.w2d_inner_wf
  refine ⟨OSet.oset_sorted_erase _ _ hs.ids_sorted, ?_, hw.1, hw.2, OMap.wf_erase _ _ hs.d2w_wf,
    fun p hp => hs.d2w_inner_wf p (OMap.mem_erase _ _ p hp), ?_, ?_⟩
  · show OMap.keys (OMap.erase _ _) = OSet.erase _ _
    rw [OMap.keys_erase, hs.docs_keys]
  · intro d hd
    show d ∈ OSet.erase _ _
    have hd2 : d ∈ OMap.keys (OMap.erase document_id s.id_to_word_to_document_freqs_) := hd
    rw [OMap.keys_erase, OSet.oset_mem_erase] at hd2
    rw [OSet.oset_mem_erase]
    exact ⟨hd2.1, hs.d2w_keys d hd2.2⟩
  · intro w d
    show OMap.find2 (eraseFromWords _ _ _) w d = OMap.find2 (OMap.erase _ _) d w
    rw [find2_eraseFromWords, OMap.find2_erase]
    by_cases hd : d = document_id
    · subst hd
      simp only [true_and, if_true]
      split_ifs with hin
      · rfl
      · rw [hs.agree]
        apply OMap.find2_none_of_not_mem_keys
        intro hk
        apply hin
        unfold GetWordFrequencies
        unfold OMap.getD at hk
        cases hf : OMap.find? s.id_to_word_to_document_freqs_ d with
        | none => rw [hf] at hk; simp [OMap.keys] at hk
        | some inner => rw [hf] at hk; exact hk
    · simp only [hd, false_and, if_false]
      exact hs.agree w d

theorem inv_empty_stop (st : List Str) : Inv { empty with stop_words_ := st } := by
  refine ⟨?_, ?_, ?_, ?_, ?_, ?_, ?_, ?_⟩ <;>
    simp [empty, OMap.WF, OMap.keys, OMap.find2, OMap.find?]

/-- Every reachable state satisfies the index invariants. -/
theorem inv_of_reachable (s : SearchServer) (h : Reachable s) : Inv s := by
  induction h with
  | ofString stop_words s hs =>
    unfold ofString at hs
    split_ifs at hs
    cases hs
    exact inv_empty_stop _
  | ofCollection stop_words s hs =>
    unfold ofCollection at hs
    cases hf : List.foldlM
      (fun st word =>
        if !IsValidWord word then (Except.error Error.InvalidArgument : Except Error (List Str))
        else Except.ok (OSet.insert word st)) [] stop_words with
    | error e => rw [hf] at hs; cases hs
    | ok st =>
      rw [hf] at hs
      cases hs
      exact inv_empty_stop _
  | add s document_id document status ratings _ ih =>
    rcases addDocument_cases s document_id document status ratings with ⟨h, _⟩ | ⟨h, _, h2, _⟩
    · rw [h]; exact ih
    · rw [h]; exact inv_afterAdd s document_id document status ratings ih h2
  | remove s document_id _ ih => exact inv_removeDocument s document_id ih
  | removePar s document_id _ ih =>
    rcases removeDocumentPar_cases s document_id with ⟨h, _⟩ | h
    · rw [h]; exact ih
    · rw [h]; exact inv_removeDocument s document_id ih

end SearchServer

/-! ## What AddDocument stores -/

namespace SearchServer

/-- The inverted index after a successful `AddDocument`. -/
theorem afterAdd_w2d (s : SearchServer) (document_id : Int) (document : Str)
    (status : DocumentStatus) (ratings : List Int) (w : Str) (d : Int) :
    OMap.find2 (afterAdd s document_id document status ratings).word_to_document_freqs_ w d
      = if d = document_id ∧ w ∈ SplitIntoWordsNoStop s document
        then some ((OMap.find2 s.word_to_document_freqs_ w d).getD 0
          + ((SplitIntoWordsNoStop s document).count w : ℚ)
            * (1 / ((SplitIntoWordsNoStop s document).length : ℚ)))
        else OMap.find2 s.word_to_document_freqs_ w d := by
  show OMap.find2 (List.foldl _ _ _) w d = _
  rw [OMap.find2_foldl_addFreq]
  have hmem : (w, d) ∈ (SplitIntoWordsNoStop s document).map (fun w => (w, document_id))
      ↔ d = document_id ∧ w ∈ SplitIntoWordsNoStop s document := by
    simp only [List.mem_map, Prod.mk.injEq]
    constructor
    · rintro ⟨a, ha, rfl, rfl⟩; exact ⟨rfl, ha⟩
    · rintro ⟨rfl, ha⟩; exact ⟨w, ha, rfl, rfl⟩
  by_cases h : d = document_id ∧ w ∈ SplitIntoWordsNoStop s document
  · rw [if_pos (hmem.2 h), if_pos h]
    have hc : ∀ n1 n2 : Nat, n1 = n2 → ∀ a x : ℚ, some (a + (n1 : ℚ) * x) = some (a + (n2 : ℚ) * x) := by
      intro n1 n2 hn a x; rw [hn]
    apply hc
    simp only [List.count, List.countP_map]
    apply List.countP_congr
    intro a _
    simp [Function.comp, h.1]
  · rw [if_neg (fun hh => h (hmem.1 hh)), if_neg h]

/-- The forward index after a successful `AddDocument`. -/
theorem afterAdd_d2w (s : SearchServer) (document_id : Int) (document : Str)
    (status : DocumentStatus) (ratings : List Int) (w : Str) (d : Int) :
    OMap.find2 (afterAdd s document_id document status ratings).id_to_word_to_document_freqs_ d w
      = if d = document_id ∧ w ∈ SplitIntoWordsNoStop s document
        then some ((OMap.find2 s.id_to_word_to_document_freqs_ d w).getD 0
          + ((SplitIntoWordsNoStop s document).count w : ℚ)
            * (1 / ((SplitIntoWordsNoStop s document).length : ℚ)))
        else OMap.find2 s.id_to_word_to_document_freqs_ d w := by
  show OMap.find2 (List.foldl _ _ _) d w = _
  rw [OMap.find2_foldl_addFreq]
  have hmem : (d, w) ∈ (SplitIntoWordsNoStop s document).map (fun w => (document_id, w))
      ↔ d = document_id ∧ w ∈ SplitIntoWordsNoStop s document := by
    simp only [List.mem_map, Prod.mk.injEq]
    constructor
    · rintro ⟨a, ha, rfl, rfl⟩; exact ⟨rfl, ha⟩
    · rintro ⟨rfl, ha⟩; exact ⟨w, ha, rfl, rfl⟩
  by_cases h : d = document_id ∧ w ∈ SplitIntoWordsNoStop s document
  · rw [if_pos (hmem.2 h), if_pos h]
    have hc : ∀ n1 n2 : Nat, n1 = n2 → ∀ a x : ℚ, some (a + (n1 : ℚ) * x) = some (a + (n2 : ℚ) * x) := by
      intro n1 n2 hn a x; rw [hn]
    apply hc
    simp only [List.count, List.countP_map]
    apply List.countP_congr
    intro a _
    simp [Function.comp, h.1]
  · rw [if_neg (fun hh => h (hmem.1 hh)), if_neg h]

theorem mem_splitIntoWordsNoStop (s : SearchServer) (text w : Str) :
    w ∈ SplitIntoWordsNoStop s text ↔ w ∈ SplitIntoWords text ∧ w ∉ s.stop_words_ := by
  simp [SplitIntoWordsNoStop, IsStopWord]

theorem count_splitIntoWordsNoStop (s : SearchServer) (text w : Str) (h : w ∉ s.stop_words_) :
    (SplitIntoWordsNoStop s text).count w = (SplitIntoWords text).count w := by
  unfold SplitIntoWordsNoStop
  rw [List.count_filter]
  simp [IsStopWord, h]

/-- A document that is not live has no frequency in either index. -/
theorem find2_none_of_not_live (s : SearchServer) (hs : Inv s) (d : Int)
    (hd : d ∉ s.document_id_) (w : Str) :
    OMap.find2 s.id_to_word_to_document_freqs_ d w = none
      ∧ OMap.find2 s.word_to_document_freqs_ w d = none := by
  have h1 : OMap.find2 s.id_to_word_to_document_freqs_ d w = none := by
    unfold OMap.find2
    rw [(OMap.find?_eq_none _ d).2 (fun hk => hd (hs.d2w_keys d hk))]
    rfl
  exact ⟨h1, (hs.agree w d).trans h1⟩

theorem find?_getWordFrequencies (s : SearchServer) (d : Int) (w : Str) :
    OMap.find? (GetWordFrequencies s d) w = OMap.find2 s.id_to_word_to_document_freqs_ d w := by
  unfold GetWordFrequencies OMap.find2
  cases OMap.find? s.id_to_word_to_document_freqs_ d <;> simp [OMap.find?]

theorem addDocument_ok_iff (s : SearchServer) (document_id : Int) (document : Str)
    (status : DocumentStatus) (ratings : List Int) :
    (AddDocument s document_id document status ratings).1 = .ok ()
      ↔ ¬ document_id < 0 ∧ document_id ∉ s.document_id_ ∧ IsValidWord document = true := by
  rcases addDocument_cases s document_id document status ratings with ⟨h, hc⟩ | ⟨h, hc⟩
  · rw [h]
    simp only [false_iff, reduceCtorEq]
    rintro ⟨h1, h2, h3⟩
    rcases hc with hc | hc | hc
    · exact h1 hc
    · exact h2 hc
    · rw [h3] at hc; cases hc
  · rw [h]
    simp only [true_iff]
    exact hc

end SearchServer

/-- C7: after a successful `AddDocument(id, text, ...)` on a reachable server,
`GetWordFrequencies(id)` maps every word `w` that is a non-stop word of the text to
(number of words of the text equal to `w`) / (number of non-stop words of the
text) and has no entry for any other word; `word_to_document_freqs_[w][id]`
stores the same value. -/
theorem C7_add_document_term_frequency (s : SearchServer) (hs : SearchServer.Reachable s)
    (document_id : Int) (document : Str) (status : DocumentStatus) (ratings : List Int)
    (hok : (SearchServer.AddDocument s document_id document status ratings).1 = Except.ok ())
    (w : Str) :
    OMap.find?
        (SearchServer.GetWordFrequencies
          (SearchServer.AddDocument s document_id document status ratings).2 document_id) w
      = (if w ∈ SplitIntoWords document ∧ w ∉ s.stop_words_
          then some (((SplitIntoWords document).count w : ℚ)
            / (((SplitIntoWords document).filter (fun t => decide (t ∉ s.stop_words_))).length : ℚ))
          else none)
    ∧ OMap.find2
        (SearchServer.AddDocument s document_id document status ratings).2.word_to_document_freqs_
        w document_id
      = OMap.find?
          (SearchServer.GetWordFrequencies
            (SearchServer.AddDocument s document_id document status ratings).2 document_id) w := by
  have hinv := SearchServer.inv_of_reachable s hs
  obtain ⟨h1, h2, h3⟩ := (SearchServer.addDocument_ok_iff s _ _ _ _).1 hok
  rw [SearchServer.addDocument_ok s _ _ _ _ h1 h2 h3]
  have hnone := SearchServer.find2_none_of_not_live s hinv document_id h2 w
  have hlen : (SearchServer.SplitIntoWordsNoStop s document).length
      = ((SplitIntoWords document).filter (fun t => decide (t ∉ s.stop_words_))).length := by
    unfold SearchServer.SplitIntoWordsNoStop SearchServer.IsStopWord
    congr 2
    funext t
    simp
  constructor
  · rw [SearchServer.find?_getWordFrequencies, SearchServer.afterAdd_d2w, hnone.1]
    simp only [true_and, Option.getD_none, zero_add, SearchServer.mem_splitIntoWordsNoStop]
    split_ifs with hw
    · rw [SearchServer.count_splitIntoWordsNoStop s document w hw.2, hlen]
      congr 1
      rw [mul_one_div]
    · rfl
  · rw [SearchServer.find?_getWordFrequencies, SearchServer.afterAdd_d2w,
      SearchServer.afterAdd_w2d, hnone.1, hnone.2]

/-! ## The scenario corpus is reachable -/

namespace SearchServer

theorem reachable_empty : Reachable empty :=
  Reachable.ofString [] empty (by decide)

theorem reachable_scenarioStart : Reachable scenarioStart :=
  Reachable.ofString (bytes "and in on") scenarioStart (by decide)

theorem reachable_scenario1 : Reachable scenario1 :=
  Reachable.add _ _ _ _ _ reachable_scenarioStart

theorem reachable_scenario4 : Reachable scenario4 :=
  Reachable.add _ _ _ _ _ (Reachable.add _ _ _ _ _ (Reachable.add _ _ _ _ _ reachable_scenario1))

end SearchServer

/-- Witness of C7: the word "cat" of the first scenario document. -/
theorem C7_add_document_term_frequency_witness :
    SearchServer.Reachable SearchServer.scenarioStart
    ∧ (SearchServer.AddDocument SearchServer.scenarioStart 1 (bytes "white cat and fancy collar")
        DocumentStatus.ACTUAL [8, -3]).1 = Except.ok ()
    ∧ OMap.find? (SearchServer.GetWordFrequencies SearchServer.scenario1 1) (bytes "cat")
        = some (1 / 4)
    ∧ OMap.find2 SearchServer.scenario1.word_to_document_freqs_ (bytes "cat") 1 = some (1 / 4)
    ∧ OMap.find? (SearchServer.GetWordFrequencies SearchServer.scenario1 1) (bytes "and")
        = none := by
  have hok : (SearchServer.AddDocument SearchServer.scenarioStart 1
      (bytes "white cat and fancy collar") DocumentStatus.ACTUAL [8, -3]).1 = Except.ok () := by
    decide
  have h := C7_add_document_term_frequency SearchServer.scenarioStart
    SearchServer.reachable_scenarioStart 1 (bytes "white cat and fancy collar")
    DocumentStatus.ACTUAL [8, -3] hok (bytes "cat")
  have h2 := C7_add_document_term_frequency SearchServer.scenarioStart
    SearchServer.reachable_scenarioStart 1 (bytes "white cat and fancy collar")
    DocumentStatus.ACTUAL [8, -3] hok (bytes "and")
  have hval : (if bytes "cat" ∈ SplitIntoWords (bytes "white cat and fancy collar")
        ∧ bytes "cat" ∉ SearchServer.scenarioStart.stop_words_
      then some (((SplitIntoWords (bytes "white cat and fancy collar")).count (bytes "cat") : ℚ)
        / (((SplitIntoWords (bytes "white cat and fancy collar")).filter
            (fun t => decide (t ∉ SearchServer.scenarioStart.stop_words_))).length : ℚ))
      else none) = some (1 / 4) := by
    rw [if_pos (by decide)]
    rw [show ((SplitIntoWords (bytes "white cat and fancy collar")).count (bytes "cat")) = 1
        from by decide,
      show ((SplitIntoWords (bytes "white cat and fancy collar")).filter
        (fun t => decide (t ∉ SearchServer.scenarioStart.stop_words_))).length = 4 from by decide]
    norm_num
  exact ⟨SearchServer.reachable_scenarioStart, hok, h.1.trans hval, (h.2.trans h.1).trans hval,
    h2.1.trans (if_neg (by decide))⟩

/-- C6 (counterexample): on the empty server `AddDocument(0, "-cat", ACTUAL, [])`
does not fail, and the word "-cat", which begins with '-', becomes a key of both
indices; the same holds for the text "-". -/
theorem C6_dash_word_accepted :
    (SearchServer.AddDocument SearchServer.empty 0 (bytes "-cat") DocumentStatus.ACTUAL []).1
        = Except.ok ()
    ∧ bytes "-cat" ∈ OMap.keys
        (SearchServer.AddDocument SearchServer.empty 0 (bytes "-cat")
          DocumentStatus.ACTUAL []).2.word_to_document_freqs_
    ∧ (OMap.find2
        (SearchServer.AddDocument SearchServer.empty 0 (bytes "-cat")
          DocumentStatus.ACTUAL []).2.id_to_word_to_document_freqs_ 0 (bytes "-cat")).isSome
        = true
    ∧ (bytes "-cat").head? = some DASH
    ∧ (SearchServer.AddDocument SearchServer.empty 0 (bytes "-") DocumentStatus.ACTUAL []).1
        = Except.ok ()
    ∧ bytes "-" ∈ OMap.keys
        (SearchServer.AddDocument SearchServer.empty 0 (bytes "-")
          DocumentStatus.ACTUAL []).2.word_to_document_freqs_ := by
  decide

/-- C6 (amended): a call of `AddDocument` with a non-negative id that is not live
and a text without a byte below 0x20 succeeds, whatever its words begin with; every
word of the text that is no stop-word, a word "-" or one that begins with '-'
included, is afterwards a key of the inverted index with an entry for the id, and
has an entry under the id in the forward index. -/
theorem C6_add_document_accepts_any_word (s : SearchServer) (document_id : Int)
    (document : Str) (status : DocumentStatus) (ratings : List Int)
    (h1 : 0 ≤ document_id) (h2 : document_id ∉ s.document_id_)
    (h3 : ∀ b ∈ document, ¬ b < 32) :
    (SearchServer.AddDocument s document_id document status ratings).1 = Except.ok ()
    ∧ ∀ w ∈ SplitIntoWords document, w ∉ s.stop_words_ →
        w ∈ OMap.keys
          (SearchServer.AddDocument s document_id document status ratings).2.word_to_document_freqs_
        ∧ (OMap.find2
            (SearchServer.AddDocument s document_id document status
              ratings).2.word_to_document_freqs_ w document_id).isSome = true
        ∧ (OMap.find2
            (SearchServer.AddDocument s document_id document status
              ratings).2.id_to_word_to_document_freqs_ document_id w).isSome = true := by
  have hv : SearchServer.IsValidWord document = true :=
    (SearchServer.isValidWord_iff document).2 h3
  have hok := SearchServer.addDocument_ok s document_id document status ratings
    (not_lt.2 h1) h2 hv
  rw [hok]
  refine ⟨rfl, ?_⟩
  intro w hw hst
  have hmem : w ∈ SearchServer.SplitIntoWordsNoStop s document :=
    (SearchServer.mem_splitIntoWordsNoStop s document w).2 ⟨hw, hst⟩
  have hw2 := SearchServer.afterAdd_w2d s document_id document status ratings w document_id
  have hd2 := SearchServer.afterAdd_d2w s document_id document status ratings w document_id
  rw [if_pos ⟨rfl, hmem⟩] at hw2 hd2
  refine ⟨?_, by simp only [hw2, Option.isSome_some], by simp only [hd2, Option.isSome_some]⟩
  rw [← OMap.find?_isSome]
  unfold OMap.find2 at hw2
  cases hf : OMap.find?
    (SearchServer.afterAdd s document_id document status ratings).word_to_document_freqs_ w with
  | none => rw [hf] at hw2; simp at hw2
  | some inner => rfl

/-- Witness of C6 (amended): the text "-cat" on the empty server. -/
theorem C6_add_document_accepts_any_word_witness :
    (0 : Int) ≤ 0 ∧ (0 : Int) ∉ SearchServer.empty.document_id_
    ∧ (∀ b ∈ bytes "-cat", ¬ b < 32)
    ∧ (SearchServer.AddDocument SearchServer.empty 0 (bytes "-cat") DocumentStatus.ACTUAL []).1
        = Except.ok ()
    ∧ ∀ w ∈ SplitIntoWords (bytes "-cat"), w ∉ SearchServer.empty.stop_words_ →
        w ∈ OMap.keys
          (SearchServer.AddDocument SearchServer.empty 0 (bytes "-cat")
            DocumentStatus.ACTUAL []).2.word_to_document_freqs_
        ∧ (OMap.find2
            (SearchServer.AddDocument SearchServer.empty 0 (bytes "-cat")
              DocumentStatus.ACTUAL []).2.word_to_document_freqs_ w 0).isSome = true
        ∧ (OMap.find2
            (SearchServer.AddDocument SearchServer.empty 0 (bytes "-cat")
              DocumentStatus.ACTUAL []).2.id_to_word_to_document_freqs_ 0 w).isSome = true :=
  ⟨by decide, by decide, by decide,
    C6_add_document_accepts_any_word SearchServer.empty 0 (bytes "-cat") DocumentStatus.ACTUAL []
      (by decide) (by decide) (by decide)⟩

namespace SearchServer

theorem computeAverageRating_eq (ratings : List Int) (hlen : ratings.length < 2147483648)
    (hlo : -2147483648 ≤ ratings.sum) (hhi : ratings.sum < 2147483648) :
    ComputeAverageRating ratings
      = if ratings = [] then 0 else Int.tdiv ratings.sum (ratings.length : Int) := by
  cases ratings with
  | nil => simp [ComputeAverageRating]
  | cons r t =>
    simp only [ComputeAverageRating, List.isEmpty_cons, Bool.false_eq_true, if_false,
      reduceCtorEq]
    rw [foldl_wrap_sum, zero_add, wrapInt32_of_fits _ hlo hhi,
      wrapInt32_of_fits _ (by omega) (by omega)]

theorem afterAdd_documents (s : SearchServer) (hs : Inv s) (document_id : Int) (document : Str)
    (status : DocumentStatus) (ratings : List Int) (h2 : document_id ∉ s.document_id_) :
    OMap.find? (afterAdd s document_id document status ratings).documents_ document_id
      = some ⟨ComputeAverageRating ratings, status⟩ := by
  show OMap.find? (OMap.emplace _ _ _) _ = _
  unfold OMap.emplace
  have : (OMap.find? s.documents_ document_id).isSome = false := by
    rw [Bool.eq_false_iff, Ne, OMap.find?_isSome, hs.docs_keys]; exact h2
  rw [this]
  simp only [Bool.false_eq_true, if_false]
  rw [OMap.find?_set, if_pos rfl]

end SearchServer

/-- The accumulation of `ComputeAverageRating` with wrap-around is the wrapped sum. -/
theorem SearchServer.foldl_wrap_eq (ratings : List Int) :
    ratings.foldl (fun acc r => SearchServer.wrapInt32 (acc + r)) 0
      = SearchServer.wrapInt32 ratings.sum := by
  cases ratings with
  | nil => decide
  | cons r t => rw [SearchServer.foldl_wrap_sum, zero_add]

/-- Function `ComputeAverageRating` on a list that is not empty. -/
theorem SearchServer.computeAverageRating_cons (r : Int) (t : List Int) :
    SearchServer.ComputeAverageRating (r :: t)
      = Int.tdiv (SearchServer.wrapInt32 (r :: t).sum)
          (SearchServer.wrapInt32 ((r :: t).length : Int)) := by
  simp only [SearchServer.ComputeAverageRating, List.isEmpty_cons, Bool.false_eq_true, if_false]
  rw [SearchServer.foldl_wrap_sum, zero_add]

theorem SearchServer.longRatings_facts :
    SearchServer.longRatings.sum = 2147483647
    ∧ SearchServer.longRatings.length = 2147483649 := by
  unfold SearchServer.longRatings
  constructor
  · rw [List.sum_cons, List.sum_append, List.sum_replicate]
    simp only [List.sum_cons, List.sum_nil, smul_eq_mul, nsmul_eq_mul]
    norm_num
  · rw [List.length_cons, List.length_append, List.length_replicate]
    rfl

/-- C8 (counterexample): the list of 2^31 + 1 ratings, 2^31 - 1 ones and two zeros,
has the sum 2147483647, which fits in a signed 32-bit integer; `AddDocument` with
it succeeds on the empty server and stores the rating -1, while the sum divided
by the count with truncation toward zero is 0. -/
theorem C8_long_rating_list_stores_minus_one :
    SearchServer.longRatings.sum = 2147483647
    ∧ SearchServer.longRatings.length = 2147483649
    ∧ (SearchServer.AddDocument SearchServer.empty 0 [] DocumentStatus.ACTUAL
        SearchServer.longRatings).1 = Except.ok ()
    ∧ (OMap.find? (SearchServer.AddDocument SearchServer.empty 0 [] DocumentStatus.ACTUAL
        SearchServer.longRatings).2.documents_ 0).map DocumentData.rating = some (-1)
    ∧ Int.tdiv SearchServer.longRatings.sum (SearchServer.longRatings.length : Int) = 0 := by
  obtain ⟨hsum, hlength⟩ := SearchServer.longRatings_facts
  have hinv := SearchServer.inv_of_reachable _ SearchServer.reachable_empty
  have hadd := SearchServer.addDocument_ok SearchServer.empty 0 [] DocumentStatus.ACTUAL
    SearchServer.longRatings (by decide) (by decide) (by decide)
  have hcar : SearchServer.ComputeAverageRating SearchServer.longRatings = -1 := by
    have h1 := SearchServer.computeAverageRating_cons 1 (List.replicate 2147483646 1 ++ [0, 0])
    have h2 : (1 :: (List.replicate 2147483646 (1 : Int) ++ [0, 0])) = SearchServer.longRatings :=
      rfl
    rw [h2, hsum, hlength] at h1
    rw [h1]
    decide
  refine ⟨hsum, hlength, ?_, ?_, ?_⟩
  · rw [hadd]
  · rw [hadd, SearchServer.afterAdd_documents _ hinv _ _ _ _ (by decide), Option.map_some',
      hcar]
  · rw [hsum, hlength]
    decide

/-- C8 (amended): for a rating list with fewer than 2^31 ratings whose running sums
(the sum of every prefix, the whole list included) fit in a signed 32-bit integer,
the `int` accumulation never leaves the range of an `int`, and a successful
`AddDocument` on a reachable server stores the rating 0 when the list is empty and
otherwise the sum divided by the count, truncated toward zero; so [8,-3] gives 2,
[5,-12,2,1] gives -1 and [-3,0] gives -1, not -2. -/
theorem C8_average_rating_truncates (s : SearchServer) (hs : SearchServer.Reachable s)
    (document_id : Int) (document : Str) (status : DocumentStatus) (ratings : List Int)
    (hok : (SearchServer.AddDocument s document_id document status ratings).1 = Except.ok ())
    (hlen : ratings.length < 2147483648)
    (hpre : ∀ k, -2147483648 ≤ (ratings.take k).sum ∧ (ratings.take k).sum < 2147483648) :
    (OMap.find? (SearchServer.AddDocument s document_id document status ratings).2.documents_
        document_id).map DocumentData.rating
      = some (if ratings = [] then 0 else Int.tdiv ratings.sum (ratings.length : Int))
    ∧ SearchServer.ComputeAverageRating ratings
      = (if ratings = [] then 0 else Int.tdiv ratings.sum (ratings.length : Int))
    ∧ (∀ k, (ratings.take k).foldl (fun acc r => SearchServer.wrapInt32 (acc + r)) 0
        = (ratings.take k).sum)
    ∧ SearchServer.ComputeAverageRating [8, -3] = 2
    ∧ SearchServer.ComputeAverageRating [5, -12, 2, 1] = -1
    ∧ SearchServer.ComputeAverageRating [-3, 0] = -1
    ∧ SearchServer.ComputeAverageRating [-3, 0] ≠ -2 := by
  have hinv := SearchServer.inv_of_reachable s hs
  obtain ⟨h1, h2, h3⟩ := (SearchServer.addDocument_ok_iff s _ _ _ _).1 hok
  rw [SearchServer.addDocument_ok s _ _ _ _ h1 h2 h3,
    SearchServer.afterAdd_documents s hinv _ _ _ _ h2]
  have htot := hpre ratings.length
  rw [List.take_length] at htot
  have := SearchServer.computeAverageRating_eq ratings hlen htot.1 htot.2
  refine ⟨by simp only [Option.map_some', this], this, fun k => ?_, by decide, by decide,
    by decide, by decide⟩
  rw [SearchServer.foldl_wrap_eq, SearchServer.wrapInt32_of_fits _ (hpre k).1 (hpre k).2]

/-- Witness of C8 (amended): the ratings [-3, 0] on the first scenario document. -/
theorem C8_average_rating_truncates_witness :
    SearchServer.Reachable SearchServer.scenarioStart
    ∧ (SearchServer.AddDocument SearchServer.scenarioStart 1 (bytes "white cat")
        DocumentStatus.ACTUAL [-3, 0]).1 = Except.ok ()
    ∧ (OMap.find? (SearchServer.AddDocument SearchServer.scenarioStart 1 (bytes "white cat")
        DocumentStatus.ACTUAL [-3, 0]).2.documents_ 1).map DocumentData.rating = some (-1) := by
  have hok : (SearchServer.AddDocument SearchServer.scenarioStart 1 (bytes "white cat")
      DocumentStatus.ACTUAL [-3, 0]).1 = Except.ok () := by decide
  have hpre : ∀ k, -2147483648 ≤ (([-3, 0] : List Int).take k).sum
      ∧ (([-3, 0] : List Int).take k).sum < 2147483648 := by
    intro k
    rcases k with _ | _ | k <;> simp
  have h := C8_average_rating_truncates SearchServer.scenarioStart
    SearchServer.reachable_scenarioStart 1 (bytes "white cat") DocumentStatus.ACTUAL [-3, 0]
    hok (by decide) hpre
  exact ⟨SearchServer.reachable_scenarioStart, hok, h.1.trans (by decide)⟩

/-- Witness of C10: the query "fluffy -cat and fluffy" with the scenario stop-words. -/
theorem C10_parse_query_sorted_sets_witness :
    ¬ SearchServer.MalformedQuery (bytes "fluffy -cat and fluffy")
    ∧ ∃ query, SearchServer.ParseQuery SearchServer.scenarioStart
          (bytes "fluffy -cat and fluffy") true = Except.ok query
      ∧ query.plus_words.Sorted (· < ·)
      ∧ query.minus_words.Sorted (· < ·)
      ∧ (∀ w, w ∈ query.plus_words
          ↔ w ∈ SplitIntoWords (bytes "fluffy -cat and fluffy") ∧ w.head? ≠ some DASH
            ∧ w ∉ SearchServer.scenarioStart.stop_words_)
      ∧ (∀ w, w ∈ query.minus_words
          ↔ (DASH :: w) ∈ SplitIntoWords (bytes "fluffy -cat and fluffy")
            ∧ w ∉ SearchServer.scenarioStart.stop_words_) :=
  ⟨by decide, C10_parse_query_sorted_sets SearchServer.scenarioStart
    (bytes "fluffy -cat and fluffy") (by decide)⟩

/-! ## FindAllDocuments in closed form -/

namespace SearchServer

theorem find?_foldl_erase (inner : List (Int × ℚ)) (acc : List (Int × ℚ)) (d : Int) :
    OMap.find? (inner.foldl (fun a p => OMap.erase p.1 a) acc) d
      = if d ∈ OMap.keys inner then none else OMap.find? acc d := by
  induction inner generalizing acc with
  | nil => simp [OMap.keys]
  | cons q rest ih =>
    rw [List.foldl_cons, ih, OMap.find?_erase]
    simp only [OMap.keys, List.map_cons, List.mem_cons]
    by_cases h1 : d ∈ List.map Prod.fst rest
    · simp [h1, OMap.keys]
    · by_cases h2 : d = q.1
      · simp [h2]
      · simp [h1, h2, OMap.keys]

theorem wf_foldl_erase (inner : List (Int × ℚ)) (acc : List (Int × ℚ)) (h : OMap.WF acc) :
    OMap.WF (inner.foldl (fun a p => OMap.erase p.1 a) acc) := by
  induction inner generalizing acc with
  | nil => exact h
  | cons q rest ih => rw [List.foldl_cons]; exact ih _ (OMap.wf_erase _ _ h)

theorem containsWord_eq (s : SearchServer) (d : Int) (w : Str) (inner : List (Int × ℚ))
    (h : OMap.find? s.word_to_document_freqs_ w = some inner) :
    containsWord s d w = (OMap.find? inner d).isSome := by
  simp [containsWord, OMap.find2, h]

theorem containsWord_none (s : SearchServer) (d : Int) (w : Str)
    (h : OMap.find? s.word_to_document_freqs_ w = none) : containsWord s d w = false := by
  simp [containsWord, OMap.find2, h]

theorem tf_eq_zero (s : SearchServer) (d : Int) (w : Str) (h : containsWord s d w = false) :
    tf s w d = 0 := by
  unfold containsWord at h
  unfold tf
  cases hf : OMap.find2 s.word_to_document_freqs_ w d with
  | none => rfl
  | some x => rw [hf] at h; simp at h

theorem termScore_eq_zero (ln : ℚ → ℚ) (s : SearchServer) (d : Int) (w : Str)
    (h : containsWord s d w = false) : termScore ln s w d = 0 := by
  unfold termScore; rw [tf_eq_zero s d w h, zero_mul]

theorem sum_termScore_eq_zero (ln : ℚ → ℚ) (s : SearchServer) (d : Int) (words : List Str)
    (h : words.any (containsWord s d) = false) :
    (words.map (fun w => termScore ln s w d)).sum = 0 := by
  induction words with
  | nil => rfl
  | cons w rest ih =>
    simp only [List.any_cons, Bool.or_eq_false_iff] at h
    simp only [List.map_cons, List.sum_cons, termScore_eq_zero ln s d w h.1, ih h.2, add_zero]

/-- The loop of `FindAllDocuments` over the minus words removes exactly the
documents that contain one of them. -/
theorem eraseMinus_spec (s : SearchServer) (words : List Str) (acc : List (Int × ℚ)) :
    (OMap.WF acc → OMap.WF (eraseMinus s words acc))
    ∧ ∀ d, OMap.find? (eraseMinus s words acc) d
        = if words.any (containsWord s d) then none else OMap.find? acc d := by
  induction words generalizing acc with
  | nil => simp [eraseMinus]
  | cons w rest ih =>
    cases hf : OMap.find? s.word_to_document_freqs_ w with
    | none =>
      simp only [eraseMinus, hf]
      refine ⟨(ih acc).1, fun d => ?_⟩
      rw [(ih acc).2 d]
      simp [containsWord_none s d w hf]
    | some inner =>
      simp only [eraseMinus, hf]
      refine ⟨fun h => (ih _).1 (wf_foldl_erase inner acc h), fun d => ?_⟩
      rw [(ih _).2 d, find?_foldl_erase]
      simp only [List.any_cons, containsWord_eq s d w inner hf, ← OMap.find?_isSome]
      by_cases h1 : List.any rest (containsWord s d) = true
      · simp [h1]
      · by_cases h2 : (OMap.find? inner d).isSome = true
        · simp [h2]
        · simp [h1, h2]

/-- The inner loop of `FindAllDocuments`: every document of the word that passes
the filter gains `tf * idf`. -/
theorem accumulateWord_spec (s : SearchServer) (predicate : Int → DocumentStatus → Int → Bool)
    (idf : ℚ) (inner : List (Int × ℚ)) (acc : List (Int × ℚ))
    (hdoc : ∀ q ∈ inner, (OMap.find? s.documents_ q.1).isSome = true)
    (hwf : OMap.WF inner) :
    ∃ acc1, accumulateWord s predicate idf inner acc = .ok acc1
      ∧ (OMap.WF acc → OMap.WF acc1)
      ∧ ∀ d, OMap.find? acc1 d
          = if (OMap.find? inner d).isSome && passesFilter s predicate d
            then some (OMap.getD acc d 0 + OMap.getD inner d 0 * idf)
            else OMap.find? acc d := by
  induction inner generalizing acc with
  | nil => exact ⟨acc, rfl, id, fun d => by simp [OMap.find?]⟩
  | cons q rest ih =>
    obtain ⟨d0, tf0⟩ := q
    have hwf2 : OMap.WF rest := by
      unfold OMap.WF OMap.keys at hwf ⊢
      exact (List.sorted_cons.1 hwf).2
    have hnot : OMap.find? rest d0 = none := by
      rw [OMap.find?_eq_none]
      intro hmem
      unfold OMap.WF OMap.keys at hwf
      exact absurd ((List.sorted_cons.1 hwf).1 d0 hmem) (lt_irrefl d0)
    have hdoc2 : ∀ q ∈ rest, (OMap.find? s.documents_ q.1).isSome = true :=
      fun q hq => hdoc q (List.mem_cons_of_mem _ hq)
    have hd0 := hdoc (d0, tf0) (List.mem_cons_self _ _)
    cases hf : OMap.find? s.documents_ d0 with
    | none => rw [hf] at hd0; simp at hd0
    | some data =>
      by_cases hp : predicate d0 data.status data.rating = true
      · obtain ⟨acc1, h1, h2, h3⟩ := ih
          (OMap.set d0 (OMap.getD acc d0 0 + tf0 * idf) acc) hdoc2 hwf2
        refine ⟨acc1, by simp only [accumulateWord, hf, hp, if_true]; exact h1,
          fun h => h2 (OMap.wf_set _ _ _ h), fun d => ?_⟩
        rw [h3 d]
        by_cases hd : d = d0
        · subst hd
          simp [hnot, OMap.find?, OMap.find?_set, OMap.getD, passesFilter, hf, hp]
        · simp [OMap.find?, OMap.find?_set, OMap.getD, hd]
      · obtain ⟨acc1, h1, h2, h3⟩ := ih acc hdoc2 hwf2
        refine ⟨acc1, by simp only [accumulateWord, hf, hp]; exact h1, h2, fun d => ?_⟩
        rw [h3 d]
        by_cases hd : d = d0
        · subst hd
          simp [hnot, OMap.find?, passesFilter, hf, hp]
        · simp [OMap.find?, OMap.getD, hd]

end SearchServer

namespace SearchServer

theorem getD_of_find? {K V : Type} [LinearOrder K] (m : List (K × V)) (k : K) (dflt : V) :
    OMap.getD m k dflt = (OMap.find? m k).getD dflt := rfl

/-- Every document listed under a word of the inverted index has metadata. -/
theorem inner_has_documents (s : SearchServer) (hs : Inv s) (w : Str) (inner : List (Int × ℚ))
    (h : OMap.find? s.word_to_document_freqs_ w = some inner) :
    ∀ q ∈ inner, (OMap.find? s.documents_ q.1).isSome = true := by
  intro q hq
  rw [OMap.find?_isSome, hs.docs_keys]
  have hwf : OMap.WF inner := hs.w2d_inner_wf (w, inner) (OMap.mem_of_find? _ _ _ h)
  have hfq : OMap.find? inner q.1 = some q.2 := OMap.find?_of_mem inner hwf q.1 q.2 hq
  have h2 : OMap.find2 s.word_to_document_freqs_ w q.1 = some q.2 := by
    simp [OMap.find2, h, hfq]
  rw [hs.agree] at h2
  apply hs.d2w_keys
  rw [← OMap.find?_isSome]
  unfold OMap.find2 at h2
  cases hf : OMap.find? s.id_to_word_to_document_freqs_ q.1 with
  | none => rw [hf] at h2; simp at h2
  | some x => rfl

/-- The loop of `FindAllDocuments` over the plus words: a document that passes the
filter and contains one of the words holds the sum of its term scores. -/
theorem accumulatePlus_spec (ln : ℚ → ℚ) (s : SearchServer) (hs : Inv s)
    (predicate : Int → DocumentStatus → Int → Bool) (words : List Str)
    (acc : List (Int × ℚ)) :
    ∃ acc1, accumulatePlus ln s predicate words acc = .ok acc1
      ∧ (OMap.WF acc → OMap.WF acc1)
      ∧ ∀ d, OMap.find? acc1 d
          = if passesFilter s predicate d && words.any (containsWord s d)
            then some (OMap.getD acc d 0 + (words.map (fun w => termScore ln s w d)).sum)
            else OMap.find? acc d := by
  induction words generalizing acc with
  | nil => exact ⟨acc, rfl, id, fun d => by simp⟩
  | cons w rest ih =>
    cases hf : OMap.find? s.word_to_document_freqs_ w with
    | none =>
      obtain ⟨acc1, h1, h2, h3⟩ := ih acc
      refine ⟨acc1, by simp only [accumulatePlus, hf]; exact h1, h2, fun d => ?_⟩
      rw [h3 d]
      simp only [List.any_cons, containsWord_none s d w hf, Bool.false_or, List.map_cons,
        List.sum_cons, termScore_eq_zero ln s d w (containsWord_none s d w hf), zero_add]
    | some inner =>
      have hwf : OMap.WF inner := hs.w2d_inner_wf (w, inner) (OMap.mem_of_find? _ _ _ hf)
      obtain ⟨acc0, g1, g2, g3⟩ := accumulateWord_spec s predicate
        (ln ((GetDocumentCount s : ℚ) * 1 / (inner.length : ℚ))) inner acc
        (inner_has_documents s hs w inner hf) hwf
      obtain ⟨acc1, h1, h2, h3⟩ := ih acc0
      refine ⟨acc1, ?_, fun h => h2 (g2 h), fun d => ?_⟩
      · simp only [accumulatePlus, hf, ComputeWordInverseDocumentFreq, g1]
        exact h1
      · rw [h3 d]
        have hts : termScore ln s w d
            = OMap.getD inner d 0 * ln ((GetDocumentCount s : ℚ) * 1 / (inner.length : ℚ)) := by
          simp [termScore, tf, OMap.find2, OMap.getD, hf]
        have hcw := containsWord_eq s d w inner hf
        simp only [List.any_cons, List.map_cons, List.sum_cons, hts, hcw]
        cases hp : passesFilter s predicate d with
        | false => simp [g3 d, hp]
        | true =>
          cases hc : (OMap.find? inner d).isSome with
          | false =>
            have hz : OMap.getD inner d (0 : ℚ) = 0 := by
              rw [getD_of_find?]
              cases hfi : OMap.find? inner d with
              | none => rfl
              | some x => rw [hfi] at hc; simp at hc
            simp [g3 d, hp, hc, hz, getD_of_find?]
          | true =>
            cases hr : rest.any (containsWord s d) with
            | false =>
              simp [g3 d, hp, hc, hr, getD_of_find?,
                sum_termScore_eq_zero ln s d rest hr]
            | true =>
              simp [g3 d, hp, hc, hr, getD_of_find?, add_assoc]

/-- The last loop of `FindAllDocuments` succeeds when every accumulated document
has metadata. -/
theorem materialize_spec (s : SearchServer) (acc : List (Int × ℚ))
    (h : ∀ q ∈ acc, (OMap.find? s.documents_ q.1).isSome = true) :
    materialize s acc = .ok (acc.map (fun q => ⟨q.1, q.2, ratingOf s q.1⟩)) := by
  induction acc with
  | nil => rfl
  | cons q rest ih =>
    obtain ⟨d, r⟩ := q
    have hd := h (d, r) (List.mem_cons_self _ _)
    cases hf : OMap.find? s.documents_ d with
    | none => rw [hf] at hd; simp at hd
    | some data =>
      simp only [materialize, hf, ih (fun q hq => h q (List.mem_cons_of_mem _ hq)),
        List.map_cons, ratingOf]

theorem passesFilter_live (s : SearchServer) (hs : Inv s)
    (predicate : Int → DocumentStatus → Int → Bool) (d : Int)
    (h : passesFilter s predicate d = true) : d ∈ s.document_id_ := by
  rw [← hs.docs_keys, ← OMap.find?_isSome]
  unfold passesFilter at h
  cases hf : OMap.find? s.documents_ d with
  | none => rw [hf] at h; simp at h
  | some x => rfl

theorem find?_map_filter (ids : List Int) (hsorted : ids.Sorted (· < ·)) (q : Int → Bool)
    (f : Int → ℚ) (d : Int) :
    OMap.find? ((ids.filter q).map (fun d => (d, f d))) d
      = if d ∈ ids ∧ q d = true then some (f d) else none := by
  induction ids with
  | nil => simp [OMap.find?]
  | cons a t ih =>
    have ht := (List.sorted_cons.1 hsorted).2
    have ha := (List.sorted_cons.1 hsorted).1
    by_cases hq : q a = true
    · rw [List.filter_cons_of_pos hq]
      simp only [List.map_cons, OMap.find?, ih ht, List.mem_cons]
      by_cases hd : d = a
      · subst hd; simp [hq]
      · simp [hd]
    · rw [List.filter_cons_of_neg hq]
      rw [ih ht]
      simp only [List.mem_cons]
      by_cases hd : d = a
      · subst hd
        have : d ∉ t := fun hm => absurd (ha d hm) (lt_irrefl d)
        simp [hq, this]
      · simp [hd]

theorem wf_map_filter (ids : List Int) (hsorted : ids.Sorted (· < ·)) (q : Int → Bool)
    (f : Int → ℚ) : OMap.WF ((ids.filter q).map (fun d => (d, f d))) := by
  unfold OMap.WF OMap.keys
  rw [List.map_map]
  have : (Prod.fst ∘ fun d => (d, f d)) = id := by funext d; rfl
  rw [this, List.map_id]
  exact List.Pairwise.sublist (List.filter_sublist _) hsorted

/-- Function `FindAllDocuments` in closed form, on a state that satisfies the invariants. -/
theorem findAllDocuments_eq (ln : ℚ → ℚ) (s : SearchServer) (hs : Inv s) (query : Query)
    (predicate : Int → DocumentStatus → Int → Bool) :
    FindAllDocuments ln s query predicate = .ok (candidates ln s query predicate) := by
  obtain ⟨acc1, h1, h2, h3⟩ := accumulatePlus_spec ln s hs predicate query.plus_words []
  have hwf1 : OMap.WF acc1 := h2 OMap.wf_nil
  obtain ⟨e1, e2⟩ := eraseMinus_spec s query.minus_words acc1
  have hfind : ∀ d, OMap.find? (eraseMinus s query.minus_words acc1) d
      = if d ∈ s.document_id_ ∧ (passesFilter s predicate d
            && query.plus_words.any (containsWord s d)
            && !query.minus_words.any (containsWord s d)) = true
        then some ((query.plus_words.map (fun w => termScore ln s w d)).sum) else none := by
    intro d
    rw [e2 d, h3 d]
    cases hm : query.minus_words.any (containsWord s d) with
    | true => simp
    | false =>
      cases hp : passesFilter s predicate d with
      | false => simp [OMap.find?]
      | true =>
        have hl := passesFilter_live s hs predicate d hp
        cases hc : query.plus_words.any (containsWord s d) with
        | false => simp [OMap.find?]
        | true => simp [hl, OMap.getD, OMap.find?]
  have heq : eraseMinus s query.minus_words acc1
      = (s.document_id_.filter (fun d => passesFilter s predicate d
            && query.plus_words.any (containsWord s d)
            && !query.minus_words.any (containsWord s d))).map
          (fun d => (d, (query.plus_words.map (fun w => termScore ln s w d)).sum)) := by
    apply OMap.ext _ _ (e1 hwf1) (wf_map_filter _ hs.ids_sorted _ _)
    intro d
    rw [hfind d, find?_map_filter _ hs.ids_sorted]
  unfold FindAllDocuments
  rw [h1]
  simp only
  rw [materialize_spec]
  · rw [heq]
    simp only [candidates, List.map_map]
    rfl
  · intro q hq
    have hwf2 := e1 hwf1
    have hq2 := OMap.find?_of_mem _ hwf2 q.1 q.2 hq
    rw [hfind q.1] at hq2
    split_ifs at hq2 with hc
    rw [OMap.find?_isSome, hs.docs_keys]
    exact hc.1

end SearchServer

/-! ## FindTopDocuments in closed form -/

namespace SearchServer

theorem parseQuery_ok (s : SearchServer) (text : Str) (hq : ¬ MalformedQuery text) :
    ParseQuery s text true = .ok (parsedQuery s text) := by
  rw [parseQuery_eq, if_neg hq]
  rfl

/-- Function `FindTopDocuments` on a well-formed query and a state that satisfies the
invariants: the candidates are sorted and cut to five. -/
theorem findTopDocuments_eq (ln : ℚ → ℚ) (s : SearchServer) (hs : Inv s) (text : Str)
    (hq : ¬ MalformedQuery text) (predicate : Int → DocumentStatus → Int → Bool) :
    FindTopDocuments ln s text predicate
      = .ok (truncateTop (stdSort compareDocuments
          (candidates ln s (parsedQuery s text) predicate))) := by
  unfold FindTopDocuments
  rw [parseQuery_ok s text hq]
  simp only [findAllDocuments_eq ln s hs]
  unfold truncateTop
  split_ifs <;> rfl

theorem any_plus_words (s : SearchServer) (text : Str) (d : Int) :
    (parsedQuery s text).plus_words.any (containsWord s d) = hasPlusWord s text d := by
  rw [Bool.eq_iff_iff]
  simp only [parsedQuery, hasPlusWord, List.any_eq_true, (sort_unique_spec _).2,
    List.mem_filter, Bool.and_eq_true]
  constructor
  · rintro ⟨w, ⟨h1, h2⟩, h3⟩; exact ⟨w, h1, h2, h3⟩
  · rintro ⟨w, h1, h2, h3⟩; exact ⟨w, ⟨h1, h2⟩, h3⟩

theorem any_minus_words (s : SearchServer) (text : Str) (d : Int) :
    (parsedQuery s text).minus_words.any (containsWord s d) = hasMinusWord s text d := by
  rw [Bool.eq_iff_iff]
  simp only [parsedQuery, hasMinusWord, List.any_eq_true, (sort_unique_spec _).2,
    List.mem_map, List.mem_filter, Bool.and_eq_true]
  constructor
  · rintro ⟨w, ⟨t, ⟨h1, h2⟩, rfl⟩, h3⟩; exact ⟨t, h1, h2, h3⟩
  · rintro ⟨t, h1, h2, h3⟩; exact ⟨t.drop 1, ⟨t, ⟨h1, h2⟩, rfl⟩, h3⟩

/-- The candidates of a parsed text are the qualifying live documents. -/
theorem candidates_ids (ln : ℚ → ℚ) (s : SearchServer) (text : Str)
    (predicate : Int → DocumentStatus → Int → Bool) :
    (candidates ln s (parsedQuery s text) predicate).map Document.id
      = s.document_id_.filter (qualifies s text predicate) := by
  unfold candidates
  rw [List.map_map]
  have : (Document.id ∘ fun d => (⟨d,
      ((parsedQuery s text).plus_words.map (fun w => termScore ln s w d)).sum,
      ratingOf s d⟩ : Document)) = id := by funext d; rfl
  rw [this, List.map_id]
  apply List.filter_congr
  intro d hd
  simp only [any_plus_words, any_minus_words, qualifies, isLive, hd, decide_True, Bool.true_and]

theorem truncateTop_sublist (docs : List Document) : (truncateTop docs).Sublist docs := by
  unfold truncateTop
  split_ifs
  · exact List.take_sublist _ _
  · exact List.Sublist.refl _

theorem truncateTop_of_le (docs : List Document) (h : docs.length ≤ 5) :
    truncateTop docs = docs := by
  unfold truncateTop MAX_RESULT_DOCUMENT_COUNT
  rw [if_neg (not_lt.2 h)]

theorem mem_candidates (ln : ℚ → ℚ) (s : SearchServer) (query : Query)
    (predicate : Int → DocumentStatus → Int → Bool) (doc : Document)
    (h : doc ∈ candidates ln s query predicate) :
    doc.relevance = (query.plus_words.map (fun w => termScore ln s w doc.id)).sum
      ∧ doc.rating = ratingOf s doc.id := by
  unfold candidates at h
  rw [List.mem_map] at h
  obtain ⟨d, _, rfl⟩ := h
  exact ⟨rfl, rfl⟩

end SearchServer

/-- C1: on a reachable server and a well-formed query, `FindTopDocuments` returns a
list; each returned document is live, satisfies the filter, contains a positive
query word that is no stop-word and contains no negative query word that is no
stop-word; no document is returned twice; and when at most 5 live documents meet
the four conditions, the returned documents are exactly those. -/
theorem C1_find_top_documents_selects (ln : ℚ → ℚ) (s : SearchServer)
    (hs : SearchServer.Reachable s) (text : Str) (hq : ¬ SearchServer.MalformedQuery text)
    (predicate : Int → DocumentStatus → Int → Bool) :
    ∃ docs, SearchServer.FindTopDocuments ln s text predicate = Except.ok docs
      ∧ (∀ doc ∈ docs,
          SearchServer.isLive s doc.id = true
          ∧ SearchServer.passesFilter s predicate doc.id = true
          ∧ SearchServer.hasPlusWord s text doc.id = true
          ∧ SearchServer.hasMinusWord s text doc.id = false)
      ∧ (docs.map Document.id).Nodup
      ∧ ((s.document_id_.filter (SearchServer.qualifies s text predicate)).length ≤ 5 →
          ∀ d, (∃ doc ∈ docs, doc.id = d)
            ↔ (SearchServer.isLive s d = true
              ∧ SearchServer.passesFilter s predicate d = true
              ∧ SearchServer.hasPlusWord s text d = true
              ∧ SearchServer.hasMinusWord s text d = false)) := by
  have hinv := SearchServer.inv_of_reachable s hs
  have hids := SearchServer.candidates_ids ln s text predicate
  have hqual : ∀ d, SearchServer.qualifies s text predicate d = true
      ↔ (SearchServer.isLive s d = true ∧ SearchServer.passesFilter s predicate d = true
        ∧ SearchServer.hasPlusWord s text d = true
        ∧ SearchServer.hasMinusWord s text d = false) := by
    intro d
    simp only [SearchServer.qualifies, Bool.and_eq_true, Bool.not_eq_true', and_assoc]
  have hmemc : ∀ d, d ∈ (SearchServer.candidates ln s (SearchServer.parsedQuery s text)
      predicate).map Document.id ↔ SearchServer.qualifies s text predicate d = true := by
    intro d
    rw [hids, List.mem_filter]
    constructor
    · exact fun h => h.2
    · intro h
      refine ⟨?_, h⟩
      have := ((hqual d).1 h).1
      simpa [SearchServer.isLive] using this
  refine ⟨_, SearchServer.findTopDocuments_eq ln s hinv text hq predicate, ?_, ?_, ?_⟩
  · intro doc hdoc
    have h1 := (SearchServer.truncateTop_sublist _).subset hdoc
    rw [mem_stdSort] at h1
    exact (hqual doc.id).1 ((hmemc doc.id).1 (List.mem_map_of_mem _ h1))
  · have hsub := (SearchServer.truncateTop_sublist (stdSort SearchServer.compareDocuments
      (SearchServer.candidates ln s (SearchServer.parsedQuery s text) predicate))).map Document.id
    apply List.Nodup.sublist hsub
    have hperm := (stdSort_perm SearchServer.compareDocuments
      (SearchServer.candidates ln s (SearchServer.parsedQuery s text) predicate)).map Document.id
    rw [hperm.nodup_iff, hids]
    exact (List.Sorted.nodup hinv.ids_sorted).filter _
  · intro hlen d
    have hl : (stdSort SearchServer.compareDocuments
        (SearchServer.candidates ln s (SearchServer.parsedQuery s text) predicate)).length ≤ 5 := by
      rw [length_stdSort, ← List.length_map _ Document.id, hids]
      exact hlen
    rw [SearchServer.truncateTop_of_le _ hl, ← hqual d, ← hmemc d, List.mem_map]
    constructor
    · rintro ⟨doc, h1, h2⟩
      exact ⟨doc, (mem_stdSort _ _ _).1 h1, h2⟩
    · rintro ⟨doc, h1, h2⟩
      exact ⟨doc, (mem_stdSort _ _ _).2 h1, h2⟩

/-! ## The relevance formula -/

namespace SearchServer

theorem getDocumentCount_eq (s : SearchServer) (hs : Inv s) :
    GetDocumentCount s = (s.document_id_.length : Int) := by
  unfold GetDocumentCount
  rw [← hs.docs_keys, OMap.keys, List.length_map]

/-- The size of the inner map of a word is the number of live documents that
contain the word. -/
theorem inner_length_eq_df (s : SearchServer) (hs : Inv s) (w : Str)
    (inner : List (Int × ℚ)) (h : OMap.find? s.word_to_document_freqs_ w = some inner) :
    inner.length = df s w := by
  have hwf : OMap.WF inner := hs.w2d_inner_wf (w, inner) (OMap.mem_of_find? _ _ _ h)
  have hkeys : OMap.keys inner = s.document_id_.filter (fun d => containsWord s d w) := by
    apply List.eq_of_perm_of_sorted (r := (· < ·))
    · rw [List.perm_ext_iff_of_nodup (List.Sorted.nodup hwf)
        ((List.Sorted.nodup hs.ids_sorted).filter _)]
      intro d
      rw [List.mem_filter, containsWord_eq s d w inner h, OMap.find?_isSome]
      constructor
      · intro hd
        refine ⟨?_, hd⟩
        obtain ⟨q, hq, rfl⟩ := List.mem_map.1 hd
        have := inner_has_documents s hs w inner h q hq
        rw [OMap.find?_isSome, hs.docs_keys] at this
        exact this
      · exact fun hd => hd.2
    · exact hwf
    · exact List.Pairwise.sublist (List.filter_sublist _) hs.ids_sorted
  unfold df
  rw [← hkeys, OMap.keys, List.length_map]

/-- The term score of a word the document contains is `tf * ln (N / df)`. -/
theorem termScore_eq (ln : ℚ → ℚ) (s : SearchServer) (hs : Inv s) (w : Str) (d : Int)
    (h : containsWord s d w = true) :
    termScore ln s w d
      = tf s w d * ln ((s.document_id_.length : ℚ) / (df s w : ℚ)) := by
  unfold termScore
  cases hf : OMap.find? s.word_to_document_freqs_ w with
  | none => rw [containsWord_none s d w hf] at h; cases h
  | some inner =>
    have h1 : OMap.getD s.word_to_document_freqs_ w [] = inner := by
      simp [OMap.getD, hf]
    rw [h1, inner_length_eq_df s hs w inner hf, getDocumentCount_eq s hs, mul_one,
      Int.cast_natCast]

end SearchServer

/-- C2: on a reachable server and a well-formed query, the relevance of each
document `d` that `FindTopDocuments` returns is the sum, over the distinct
positive query words `w` that are no stop-words and occur in `d`, of
`tf(w, d) * ln (document_count / df(w))`, in exact rational arithmetic; `df(w)`
counts the live documents of any status that contain `w`, and `document_count`
counts all live documents. -/
theorem C2_relevance_is_tf_idf_sum (ln : ℚ → ℚ) (s : SearchServer)
    (hs : SearchServer.Reachable s) (text : Str) (hq : ¬ SearchServer.MalformedQuery text)
    (predicate : Int → DocumentStatus → Int → Bool) :
    ∃ docs, SearchServer.FindTopDocuments ln s text predicate = Except.ok docs
      ∧ ∀ doc ∈ docs,
          doc.relevance
            = ∑ w in ((SplitIntoWords text).filter (fun w =>
                  SearchServer.isPlusToken s w && SearchServer.containsWord s doc.id w)).toFinset,
                SearchServer.tf s w doc.id
                  * ln ((s.document_id_.length : ℚ) / (SearchServer.df s w : ℚ)) := by
  have hinv := SearchServer.inv_of_reachable s hs
  refine ⟨_, SearchServer.findTopDocuments_eq ln s hinv text hq predicate, ?_⟩
  intro doc hdoc
  have h1 := (SearchServer.truncateTop_sublist _).subset hdoc
  rw [mem_stdSort] at h1
  rw [(SearchServer.mem_candidates ln s _ predicate doc h1).1]
  have hnd : (SearchServer.parsedQuery s text).plus_words.Nodup :=
    List.Sorted.nodup (sort_unique_spec _).1
  rw [← List.sum_toFinset _ hnd]
  have hsplit : ∑ w in (SearchServer.parsedQuery s text).plus_words.toFinset,
        SearchServer.termScore ln s w doc.id
      = ∑ w in ((SearchServer.parsedQuery s text).plus_words.toFinset.filter
          (fun w => SearchServer.containsWord s doc.id w = true)),
        SearchServer.termScore ln s w doc.id := by
    rw [Finset.sum_filter]
    apply Finset.sum_congr rfl
    intro w _
    split_ifs with hc
    · rfl
    · exact SearchServer.termScore_eq_zero ln s doc.id w (by simpa using hc)
  rw [hsplit]
  apply Finset.sum_congr
  · ext w
    simp only [SearchServer.parsedQuery, Finset.mem_filter, List.mem_toFinset,
      (sort_unique_spec _).2, List.mem_filter, Bool.and_eq_true]
    tauto
  · intro w hw
    simp only [List.mem_toFinset, List.mem_filter, Bool.and_eq_true] at hw
    exact SearchServer.termScore_eq ln s hinv w doc.id hw.2.2

/-! ## The order of the results -/

section SortingChain
variable {α : Type}

end SortingChain

namespace SearchServer

theorem epsilon_pos : (0 : ℚ) < epsilon := by
  unfold epsilon; norm_num

end SearchServer

namespace SearchServer

theorem stdSort_three_back {α : Type} (comp : α → α → Bool) (a b c : α)
    (h1 : comp b a = true) (h2 : comp c b = false) (h3 : comp c a = false) :
    stdSort comp [a, b, c] = [b, a, c] := by
  simp [stdSort, insertionStep, unguardedLinearInsert, h1, h2, h3]

end SearchServer

namespace SearchServer

theorem scenario_filter :
    scenario4.document_id_.filter (fun d =>
      passesFilter scenario4 (fun _ status _ => decide (status = DocumentStatus.ACTUAL)) d
        && (parsedQuery scenario4 (bytes "fluffy groomed cat")).plus_words.any
            (containsWord scenario4 d)
        && !(parsedQuery scenario4 (bytes "fluffy groomed cat")).minus_words.any
            (containsWord scenario4 d))
      = [1, 2, 3] := by
  decide!

theorem scenario_facts :
    (parsedQuery scenario4 (bytes "fluffy groomed cat")).plus_words
      = [bytes "cat", bytes "fluffy", bytes "groomed"]
    ∧ GetDocumentCount scenario4 = 4
    ∧ (OMap.getD scenario4.word_to_document_freqs_ (bytes "cat") []).length = 2
    ∧ (OMap.getD scenario4.word_to_document_freqs_ (bytes "fluffy") []).length = 1
    ∧ (OMap.getD scenario4.word_to_document_freqs_ (bytes "groomed") []).length = 2
    ∧ (tf scenario4 (bytes "cat") 1 = 1 / 4 ∧ tf scenario4 (bytes "fluffy") 1 = 0
      ∧ tf scenario4 (bytes "groomed") 1 = 0)
    ∧ (tf scenario4 (bytes "cat") 2 = 1 / 4 ∧ tf scenario4 (bytes "fluffy") 2 = 1 / 2
      ∧ tf scenario4 (bytes "groomed") 2 = 0)
    ∧ (tf scenario4 (bytes "cat") 3 = 0 ∧ tf scenario4 (bytes "fluffy") 3 = 0
      ∧ tf scenario4 (bytes "groomed") 3 = 1 / 4)
    ∧ ratingOf scenario4 1 = 2 ∧ ratingOf scenario4 2 = 5 ∧ ratingOf scenario4 3 = -1 := by
  decide!

/-- The candidates of the scenario query, for every `ln`. -/
theorem scenario_candidates (ln : ℚ → ℚ) :
    candidates ln scenario4 (parsedQuery scenario4 (bytes "fluffy groomed cat"))
        (fun _ status _ => decide (status = DocumentStatus.ACTUAL))
      = [⟨1, 1 / 4 * ln 2, 2⟩, ⟨2, 1 / 4 * ln 2 + 1 / 2 * ln 4, 5⟩, ⟨3, 1 / 4 * ln 2, -1⟩] := by
  unfold candidates
  rw [scenario_filter]
  obtain ⟨h1, h2, h3, h4, h5, ⟨a1, a2, a3⟩, ⟨b1, b2, b3⟩, ⟨c1, c2, c3⟩, r1, r2, r3⟩ :=
    scenario_facts
  simp only [List.map_cons, List.map_nil, h1, List.sum_cons, List.sum_nil, add_zero, termScore,
    h2, h3, h4, h5, a1, a2, a3, b1, b2, b3, c1, c2, c3, r1, r2, r3]
  norm_num

/-- The result of the scenario query whenever `ln 4 > 0`: document 2 first, then
document 1 and document 3, which tie on relevance and are ordered by rating. -/
theorem scenario_result (ln : ℚ → ℚ) (hln : 0 < ln 4) :
    FindTopDocumentsDefault ln scenario4 (bytes "fluffy groomed cat")
      = .ok [⟨2, 1 / 4 * ln 2 + 1 / 2 * ln 4, 5⟩, ⟨1, 1 / 4 * ln 2, 2⟩, ⟨3, 1 / 4 * ln 2, -1⟩] := by
  unfold FindTopDocumentsDefault FindTopDocumentsStatus
  rw [findTopDocuments_eq ln scenario4 (inv_of_reachable _ reachable_scenario4)
    (bytes "fluffy groomed cat") (by decide), scenario_candidates]
  have c21 : compareDocuments ⟨2, 1 / 4 * ln 2 + 1 / 2 * ln 4, 5⟩ ⟨1, 1 / 4 * ln 2, 2⟩
      = true := by
    unfold compareDocuments
    split_ifs with h
    · simp
    · simp only [decide_eq_true_eq, gt_iff_lt]; linarith
  have c32 : compareDocuments ⟨3, 1 / 4 * ln 2, -1⟩ ⟨2, 1 / 4 * ln 2 + 1 / 2 * ln 4, 5⟩
      = false := by
    unfold compareDocuments
    split_ifs with h
    · simp
    · simp only [decide_eq_false_iff_not, gt_iff_lt, not_lt]; linarith
  have c31 : compareDocuments ⟨3, 1 / 4 * ln 2, -1⟩ ⟨1, 1 / 4 * ln 2, 2⟩ = false := by
    unfold compareDocuments
    have : |1 / 4 * ln 2 - 1 / 4 * ln 2| < epsilon := by
      rw [sub_self, abs_zero]; exact epsilon_pos
    rw [if_pos this]
    simp
  rw [stdSort_three_back compareDocuments _ _ _ c21 c32 c31, truncateTop_of_le _ (by simp)]

end SearchServer

/-- C4 (counterexample): for no `ln` with `ln 4 > 0` does the default
`FindTopDocuments("fluffy groomed cat")` on the scenario corpus return the ids in
the order 2, 3, 1. -/
theorem C4_scenario_order_is_not_2_3_1 :
    ¬ ∃ ln : ℚ → ℚ, 0 < ln 4
      ∧ ∃ docs, SearchServer.FindTopDocumentsDefault ln SearchServer.scenario4
            (bytes "fluffy groomed cat") = Except.ok docs
        ∧ docs.map Document.id = [2, 3, 1] := by
  rintro ⟨ln, hln, docs, hdocs, hids⟩
  rw [SearchServer.scenario_result ln hln] at hdocs
  cases hdocs
  simp at hids

/-- C4 (amended): with the stop-words "and in on" and the four documents of the
scenario, the default `FindTopDocuments("fluffy groomed cat")` returns, for every
`ln` with `ln 4 > 0`, the ids 2, 1, 3 in that order: document 2 first, then
documents 1 and 3, whose relevances are equal and whose ratings are 2 and -1; the
`BANNED` document 4 is not returned. -/
theorem C4_scenario_order_is_2_1_3 (ln : ℚ → ℚ) (hln : 0 < ln 4) :
    ∃ docs, SearchServer.FindTopDocumentsDefault ln SearchServer.scenario4
          (bytes "fluffy groomed cat") = Except.ok docs
      ∧ docs.map Document.id = [2, 1, 3]
      ∧ (4 : Int) ∉ docs.map Document.id
      ∧ docs.map Document.rating = [5, 2, -1]
      ∧ docs.map Document.relevance
          = [1 / 4 * ln 2 + 1 / 2 * ln 4, 1 / 4 * ln 2, 1 / 4 * ln 2] := by
  refine ⟨_, SearchServer.scenario_result ln hln, ?_, ?_, ?_, ?_⟩ <;> simp

/-- Witness of C4 (amended): the function `x - 1` in the place of `ln`. -/
theorem C4_scenario_order_is_2_1_3_witness :
    (0 : ℚ) < (fun x : ℚ => x - 1) 4
    ∧ ∃ docs, SearchServer.FindTopDocumentsDefault (fun x : ℚ => x - 1) SearchServer.scenario4
          (bytes "fluffy groomed cat") = Except.ok docs
      ∧ docs.map Document.id = [2, 1, 3]
      ∧ (4 : Int) ∉ docs.map Document.id
      ∧ docs.map Document.rating = [5, 2, -1]
      ∧ docs.map Document.relevance
          = [1 / 4 * (fun x : ℚ => x - 1) 2 + 1 / 2 * (fun x : ℚ => x - 1) 4,
              1 / 4 * (fun x : ℚ => x - 1) 2, 1 / 4 * (fun x : ℚ => x - 1) 2] :=
  ⟨by norm_num, C4_scenario_order_is_2_1_3 (fun x : ℚ => x - 1) (by norm_num)⟩

/-- Witness of C1: the scenario corpus, the query "fluffy groomed cat" and the
filter on status `ACTUAL`. -/
theorem C1_find_top_documents_selects_witness :
    SearchServer.Reachable SearchServer.scenario4
    ∧ ¬ SearchServer.MalformedQuery (bytes "fluffy groomed cat")
    ∧ ∃ docs, SearchServer.FindTopDocuments (fun x : ℚ => x - 1) SearchServer.scenario4
          (bytes "fluffy groomed cat")
          (fun _ status _ => decide (status = DocumentStatus.ACTUAL)) = Except.ok docs
      ∧ (∀ doc ∈ docs,
          SearchServer.isLive SearchServer.scenario4 doc.id = true
          ∧ SearchServer.passesFilter SearchServer.scenario4
              (fun _ status _ => decide (status = DocumentStatus.ACTUAL)) doc.id = true
          ∧ SearchServer.hasPlusWord SearchServer.scenario4 (bytes "fluffy groomed cat") doc.id
              = true
          ∧ SearchServer.hasMinusWord SearchServer.scenario4 (bytes "fluffy groomed cat") doc.id
              = false)
      ∧ (docs.map Document.id).Nodup
      ∧ ((SearchServer.scenario4.document_id_.filter
            (SearchServer.qualifies SearchServer.scenario4 (bytes "fluffy groomed cat")
              (fun _ status _ => decide (status = DocumentStatus.ACTUAL)))).length ≤ 5 →
          ∀ d, (∃ doc ∈ docs, doc.id = d)
            ↔ (SearchServer.isLive SearchServer.scenario4 d = true
              ∧ SearchServer.passesFilter SearchServer.scenario4
                  (fun _ status _ => decide (status = DocumentStatus.ACTUAL)) d = true
              ∧ SearchServer.hasPlusWord SearchServer.scenario4 (bytes "fluffy groomed cat") d
                  = true
              ∧ SearchServer.hasMinusWord SearchServer.scenario4 (bytes "fluffy groomed cat") d
                  = false)) :=
  ⟨SearchServer.reachable_scenario4, by decide,
    C1_find_top_documents_selects (fun x : ℚ => x - 1) SearchServer.scenario4
      SearchServer.reachable_scenario4 (bytes "fluffy groomed cat") (by decide)
      (fun _ status _ => decide (status = DocumentStatus.ACTUAL))⟩

/-- Witness of C2: the scenario corpus and the query "fluffy groomed cat". -/
theorem C2_relevance_is_tf_idf_sum_witness :
    SearchServer.Reachable SearchServer.scenario4
    ∧ ¬ SearchServer.MalformedQuery (bytes "fluffy groomed cat")
    ∧ ∃ docs, SearchServer.FindTopDocuments (fun x : ℚ => x - 1) SearchServer.scenario4
          (bytes "fluffy groomed cat")
          (fun _ status _ => decide (status = DocumentStatus.ACTUAL)) = Except.ok docs
      ∧ ∀ doc ∈ docs,
          doc.relevance
            = ∑ w in ((SplitIntoWords (bytes "fluffy groomed cat")).filter (fun w =>
                  SearchServer.isPlusToken SearchServer.scenario4 w
                    && SearchServer.containsWord SearchServer.scenario4 doc.id w)).toFinset,
                SearchServer.tf SearchServer.scenario4 w doc.id
                  * (fun x : ℚ => x - 1)
                      ((SearchServer.scenario4.document_id_.length : ℚ)
                        / (SearchServer.df SearchServer.scenario4 w : ℚ)) :=
  ⟨SearchServer.reachable_scenario4, by decide,
    C2_relevance_is_tf_idf_sum (fun x : ℚ => x - 1) SearchServer.scenario4
      SearchServer.reachable_scenario4 (bytes "fluffy groomed cat") (by decide)
      (fun _ status _ => decide (status = DocumentStatus.ACTUAL))⟩

theorem length_rest_lt (text : Str) (h : text ≠ []) :
    ((text.dropWhile (fun x => !decide (x = SPACE))).dropWhile
      (fun x => decide (x = SPACE))).length < text.length := by
  cases text with
  | nil => exact absurd rfl h
  | cons b t =>
    by_cases hb : b = SPACE
    · subst hb
      have h1 : (SPACE :: t).dropWhile (fun x => !decide (x = SPACE)) = SPACE :: t := by
        simp [List.dropWhile_cons]
      rw [h1, List.dropWhile_cons]
      simp only [decide_True, if_true, List.length_cons]
      exact Nat.lt_succ_of_le (List.dropWhile_sublist _).length_le
    · have h1 : (b :: t).dropWhile (fun x => !decide (x = SPACE))
          = t.dropWhile (fun x => !decide (x = SPACE)) := by
        simp [List.dropWhile_cons, hb]
      rw [h1, List.length_cons]
      exact Nat.lt_succ_of_le
        (((List.dropWhile_sublist _).trans (List.dropWhile_sublist _)).length_le)

/-- With at least `text.length` turns allowed the loop of `SplitIntoWords` ends
because the text is used up: more fuel does not change its result. -/
theorem splitIntoWordsLoop_fuel (fuel extra : Nat) (text : Str) (h : text.length ≤ fuel) :
    SplitIntoWordsLoop (fuel + extra) text = SplitIntoWordsLoop fuel text := by
  induction fuel generalizing text with
  | zero =>
    have ht : text = [] := List.length_eq_zero.1 (Nat.le_zero.1 h)
    subst ht
    cases extra with
    | zero => rfl
    | succ k => rw [Nat.zero_add, splitIntoWordsLoop_succ]; simp [SplitIntoWordsLoop]
  | succ fuel ih =>
    rw [show fuel + 1 + extra = (fuel + extra) + 1 from by omega, splitIntoWordsLoop_succ,
      splitIntoWordsLoop_succ]
    split_ifs with ht
    · rfl
    · rw [ih]
      have := length_rest_lt text ht
      omega

/-! ## MatchDocument -/

namespace SearchServer

theorem wordHasDocument_eq (s : SearchServer) (document_id : Int) (word : Str) :
    wordHasDocument s document_id word = containsWord s document_id word := by
  unfold wordHasDocument containsWord OMap.find2
  cases OMap.find? s.word_to_document_freqs_ word <;> rfl

theorem matchMinusLoop_eq (s : SearchServer) (document_id : Int) (words : List Str) :
    matchMinusLoop s document_id words = words.any (containsWord s document_id) := by
  induction words with
  | nil => rfl
  | cons w rest ih =>
    cases hf : OMap.find? s.word_to_document_freqs_ w with
    | none =>
      simp only [matchMinusLoop, hf, List.any_cons, containsWord_none s document_id w hf, ih,
        Bool.false_or]
    | some inner =>
      simp only [matchMinusLoop, hf, List.any_cons, containsWord_eq s document_id w inner hf, ih]
      cases (OMap.find? inner document_id).isSome <;> simp

theorem matchPlusLoop_eq (s : SearchServer) (document_id : Int) (words matched : List Str) :
    matchPlusLoop s document_id words matched
      = matched ++ words.filter (containsWord s document_id) := by
  induction words generalizing matched with
  | nil => simp [matchPlusLoop]
  | cons w rest ih =>
    cases hf : OMap.find? s.word_to_document_freqs_ w with
    | none =>
      simp only [matchPlusLoop, hf, List.filter_cons, containsWord_none s document_id w hf, ih]
      simp
    | some inner =>
      simp only [matchPlusLoop, hf, List.filter_cons, containsWord_eq s document_id w inner hf, ih]
      cases (OMap.find? inner document_id).isSome <;> simp

theorem isValidWord_of_wellFormed (text : Str) (hq : ¬ MalformedQuery text) :
    IsValidWord text = true := by
  rcases Bool.eq_false_or_eq_true (IsValidWord text) with h | h
  · exact h
  · exact absurd (Or.inl ((isValidWord_false_iff text).1 h)) hq

/-- The sequential `MatchDocument` in closed form, on a live id and a well-formed
query. -/
theorem matchDocument_eq (s : SearchServer) (text : Str) (hq : ¬ MalformedQuery text)
    (document_id : Int) (hid : document_id ∈ s.document_id_) :
    MatchDocument s text document_id
      = returnWithStatus s document_id
          (if hasMinusWord s text document_id then []
            else (parsedQuery s text).plus_words.filter (containsWord s document_id)) := by
  unfold MatchDocument
  rw [isValidWord_of_wellFormed text hq, parseQuery_ok s text hq]
  simp only [Bool.not_true, Bool.false_eq_true, if_false, hid, decide_True, matchMinusLoop_eq,
    any_minus_words, matchPlusLoop_eq, List.nil_append]
  split_ifs <;> rfl

theorem parseQuery_raw (s : SearchServer) (text : Str) (hq : ¬ MalformedQuery text) :
    ParseQuery s text false
      = .ok ⟨(SplitIntoWords text).filter (isPlusToken s),
          ((SplitIntoWords text).filter (isMinusToken s)).map (List.drop 1)⟩ := by
  rw [parseQuery_eq, if_neg hq]
  rfl

/-- Filtering after the sort and `unique` gives the same list as the sort and
`unique` after filtering. -/
theorem filter_sort_unique (words : List Str) (p : Str → Bool) :
    (stdUnique (stdSort (fun a b => decide (a < b)) words)).filter p
      = stdUnique (stdSort (fun a b => decide (a < b)) (words.filter p)) := by
  apply List.eq_of_perm_of_sorted (r := (· < ·))
  · rw [List.perm_ext_iff_of_nodup
      ((List.Sorted.nodup (sort_unique_spec words).1).filter _)
      (List.Sorted.nodup (sort_unique_spec (words.filter p)).1)]
    intro w
    rw [List.mem_filter, (sort_unique_spec words).2, (sort_unique_spec (words.filter p)).2,
      List.mem_filter]
  · exact List.Pairwise.sublist (List.filter_sublist _) (sort_unique_spec words).1
  · exact (sort_unique_spec (words.filter p)).1

/-- The parallel `MatchDocument` in closed form, on a live id and a well-formed
query: the same as the sequential one. -/
theorem matchDocumentPar_eq (s : SearchServer) (text : Str) (hq : ¬ MalformedQuery text)
    (document_id : Int) (hid : document_id ∈ s.document_id_) :
    MatchDocumentPar s text document_id
      = returnWithStatus s document_id
          (if hasMinusWord s text document_id then []
            else (parsedQuery s text).plus_words.filter (containsWord s document_id)) := by
  unfold MatchDocumentPar
  rw [parseQuery_raw s text hq]
  have hfun : wordHasDocument s document_id = containsWord s document_id :=
    funext (wordHasDocument_eq s document_id)
  have hminus : (((SplitIntoWords text).filter (isMinusToken s)).map (List.drop 1)).any
      (containsWord s document_id) = hasMinusWord s text document_id := by
    rw [← any_minus_words, Bool.eq_iff_iff]
    simp only [parsedQuery, List.any_eq_true, (sort_unique_spec _).2]
  simp only [hid, decide_True, Bool.not_true, Bool.false_eq_true, if_false, hfun, hminus]
  split_ifs with h
  · rfl
  · rw [← filter_sort_unique]
    rfl

theorem returnWithStatus_live (s : SearchServer) (hs : Inv s) (document_id : Int)
    (hid : document_id ∈ s.document_id_) (words : List Str) :
    ∃ data, OMap.find? s.documents_ document_id = some data
      ∧ returnWithStatus s document_id words = .ok (words, data.status) := by
  have h : (OMap.find? s.documents_ document_id).isSome = true := by
    rw [OMap.find?_isSome, hs.docs_keys]; exact hid
  cases hf : OMap.find? s.documents_ document_id with
  | none => rw [hf] at h; simp at h
  | some data => exact ⟨data, rfl, by simp [returnWithStatus, hf]⟩

end SearchServer

/-- C11: on a reachable server, a live id and a well-formed query, the sequential
`MatchDocument` returns the status of the document together with the empty list
when the document contains a negative query word that is no stop-word, and
otherwise with the positive query words (no stop-words) that the document
contains, in the order of the parsed query, which is strictly ascending and so
free of repetitions. In the scenario the query "cat -collar" on id 1 gives
`([], ACTUAL)`. -/
theorem C11_match_document_sequential (s : SearchServer) (hs : SearchServer.Reachable s)
    (document_id : Int) (hid : document_id ∈ s.document_id_) (text : Str)
    (hq : ¬ SearchServer.MalformedQuery text) :
    (∃ data words query,
      OMap.find? s.documents_ document_id = some data
      ∧ SearchServer.ParseQuery s text true = Except.ok query
      ∧ SearchServer.MatchDocument s text document_id = Except.ok (words, data.status)
      ∧ (SearchServer.hasMinusWord s text document_id = true → words = [])
      ∧ (SearchServer.hasMinusWord s text document_id = false →
          words = query.plus_words.filter (SearchServer.containsWord s document_id)
          ∧ words.Sorted (· < ·)
          ∧ ∀ w, w ∈ words
              ↔ (w ∈ SplitIntoWords text ∧ w.head? ≠ some DASH ∧ w ∉ s.stop_words_
                ∧ SearchServer.containsWord s document_id w = true)))
    ∧ SearchServer.MatchDocument SearchServer.scenario4 (bytes "cat -collar") 1
        = Except.ok ([], DocumentStatus.ACTUAL) := by
  refine ⟨?_, by decide!⟩
  have hinv := SearchServer.inv_of_reachable s hs
  obtain ⟨data, hdata, hret⟩ := SearchServer.returnWithStatus_live s hinv document_id hid
    (if SearchServer.hasMinusWord s text document_id then []
      else (SearchServer.parsedQuery s text).plus_words.filter
        (SearchServer.containsWord s document_id))
  refine ⟨data, _, SearchServer.parsedQuery s text, hdata, SearchServer.parseQuery_ok s text hq,
    (SearchServer.matchDocument_eq s text hq document_id hid).trans hret, ?_, ?_⟩
  · intro h; rw [if_pos h]
  · intro h
    have hne : ¬ SearchServer.hasMinusWord s text document_id = true := by rw [h]; simp
    rw [if_neg hne]
    refine ⟨rfl, ?_, ?_⟩
    · exact List.Pairwise.sublist (List.filter_sublist _) (sort_unique_spec _).1
    · intro w
      rw [List.mem_filter]
      simp only [SearchServer.parsedQuery, (sort_unique_spec _).2, SearchServer.mem_plus_filter]
      tauto

/-- Witness of C11: the scenario corpus, id 2 and the query "fluffy cat -dog". -/
theorem C11_match_document_sequential_witness :
    SearchServer.Reachable SearchServer.scenario4
    ∧ (2 : Int) ∈ SearchServer.scenario4.document_id_
    ∧ ¬ SearchServer.MalformedQuery (bytes "fluffy cat -dog")
    ∧ ∃ data words query,
      OMap.find? SearchServer.scenario4.documents_ 2 = some data
      ∧ SearchServer.ParseQuery SearchServer.scenario4 (bytes "fluffy cat -dog") true
          = Except.ok query
      ∧ SearchServer.MatchDocument SearchServer.scenario4 (bytes "fluffy cat -dog") 2
          = Except.ok (words, data.status)
      ∧ (SearchServer.hasMinusWord SearchServer.scenario4 (bytes "fluffy cat -dog") 2 = true →
          words = [])
      ∧ (SearchServer.hasMinusWord SearchServer.scenario4 (bytes "fluffy cat -dog") 2 = false →
          words = query.plus_words.filter (SearchServer.containsWord SearchServer.scenario4 2)
          ∧ words.Sorted (· < ·)
          ∧ ∀ w, w ∈ words
              ↔ (w ∈ SplitIntoWords (bytes "fluffy cat -dog") ∧ w.head? ≠ some DASH
                ∧ w ∉ SearchServer.scenario4.stop_words_
                ∧ SearchServer.containsWord SearchServer.scenario4 2 w = true)) :=
  ⟨SearchServer.reachable_scenario4, by decide, by decide,
    (C11_match_document_sequential SearchServer.scenario4 SearchServer.reachable_scenario4 2
      (by decide) (bytes "fluffy cat -dog") (by decide)).1⟩

/-- C12 (counterexample): the query "--x" is malformed and 999 is no live id of the
scenario corpus; both overloads of `MatchDocument` fail with `OutOfRange`, not
with `InvalidArgument`. -/
theorem C12_malformed_query_unknown_id_out_of_range :
    SearchServer.MalformedQuery (bytes "--x")
    ∧ (999 : Int) ∉ SearchServer.scenario4.document_id_
    ∧ SearchServer.MatchDocument SearchServer.scenario4 (bytes "--x") 999
        = Except.error Error.OutOfRange
    ∧ SearchServer.MatchDocumentPar SearchServer.scenario4 (bytes "--x") 999
        = Except.error Error.OutOfRange := by
  decide!

/-- C12 (amended): under both overloads of `MatchDocument`, on a reachable server:
a malformed query on a live id fails with `InvalidArgument`; a query without a byte
below 0x20 on an id that is not live fails with `OutOfRange`, also when one of its
words is "-" or begins with "--"; the sequential overload fails with
`InvalidArgument` on every query that holds a byte below 0x20; and a well-formed
query on a live id succeeds. -/
theorem C12_match_document_failures (s : SearchServer) (hs : SearchServer.Reachable s)
    (text : Str) (document_id : Int) :
    (document_id ∈ s.document_id_ → SearchServer.MalformedQuery text →
        SearchServer.MatchDocument s text document_id = Except.error Error.InvalidArgument
        ∧ SearchServer.MatchDocumentPar s text document_id = Except.error Error.InvalidArgument)
    ∧ (document_id ∉ s.document_id_ → (∀ b ∈ text, ¬ b < 32) →
        SearchServer.MatchDocument s text document_id = Except.error Error.OutOfRange
        ∧ SearchServer.MatchDocumentPar s text document_id = Except.error Error.OutOfRange)
    ∧ ((∃ b ∈ text, b < 32) →
        SearchServer.MatchDocument s text document_id = Except.error Error.InvalidArgument)
    ∧ (document_id ∈ s.document_id_ → ¬ SearchServer.MalformedQuery text →
        ∃ result, SearchServer.MatchDocument s text document_id = Except.ok result
          ∧ SearchServer.MatchDocumentPar s text document_id = Except.ok result) := by
  have hinv := SearchServer.inv_of_reachable s hs
  refine ⟨?_, ?_, ?_, ?_⟩
  · intro hid hm
    have hp1 : SearchServer.ParseQuery s text true = Except.error Error.InvalidArgument := by
      rw [SearchServer.parseQuery_eq, if_pos hm]
    have hp2 : SearchServer.ParseQuery s text false = Except.error Error.InvalidArgument := by
      rw [SearchServer.parseQuery_eq, if_pos hm]
    constructor
    · unfold SearchServer.MatchDocument
      rcases Bool.eq_false_or_eq_true (SearchServer.IsValidWord text) with hv | hv
      · simp [hv, hid, hp1]
      · simp [hv]
    · unfold SearchServer.MatchDocumentPar
      simp [hid, hp2]
  · intro hid hv
    have hv2 := (SearchServer.isValidWord_iff text).2 hv
    constructor
    · unfold SearchServer.MatchDocument
      simp [hv2, hid]
    · unfold SearchServer.MatchDocumentPar
      simp [hid]
  · intro hb
    have hv := (SearchServer.isValidWord_false_iff text).2 hb
    unfold SearchServer.MatchDocument
    simp [hv]
  · intro hid hq
    obtain ⟨data, _, hret⟩ := SearchServer.returnWithStatus_live s hinv document_id hid
      (if SearchServer.hasMinusWord s text document_id then []
        else (SearchServer.parsedQuery s text).plus_words.filter
          (SearchServer.containsWord s document_id))
    exact ⟨_, (SearchServer.matchDocument_eq s text hq document_id hid).trans hret,
      (SearchServer.matchDocumentPar_eq s text hq document_id hid).trans hret⟩

/-- Witness of C12 (amended): the query "--x" and the id 999 on the scenario
corpus. -/
theorem C12_match_document_failures_witness :
    SearchServer.Reachable SearchServer.scenario4
    ∧ (999 : Int) ∉ SearchServer.scenario4.document_id_
    ∧ (∀ b ∈ bytes "--x", ¬ b < 32)
    ∧ SearchServer.MatchDocument SearchServer.scenario4 (bytes "--x") 999
        = Except.error Error.OutOfRange
    ∧ SearchServer.MatchDocumentPar SearchServer.scenario4 (bytes "--x") 999
        = Except.error Error.OutOfRange :=
  ⟨SearchServer.reachable_scenario4, by decide, by decide,
    (C12_match_document_failures SearchServer.scenario4 SearchServer.reachable_scenario4
      (bytes "--x") 999).2.1 (by decide) (by decide)⟩

/-- C13: on a reachable server, a live id and a well-formed query, the parallel
`MatchDocument` (parse without deduplication, filter, then sort and `unique`)
returns the same word list and status as the sequential one (parse with sort and
deduplication, then filter), and both succeed. -/
theorem C13_match_document_parallel_agrees (s : SearchServer)
    (hs : SearchServer.Reachable s) (document_id : Int)
    (hid : document_id ∈ s.document_id_) (text : Str)
    (hq : ¬ SearchServer.MalformedQuery text) :
    SearchServer.MatchDocumentPar s text document_id
      = SearchServer.MatchDocument s text document_id
    ∧ ∃ words status,
        SearchServer.MatchDocument s text document_id = Except.ok (words, status)
        ∧ SearchServer.MatchDocumentPar s text document_id = Except.ok (words, status) := by
  have hinv := SearchServer.inv_of_reachable s hs
  obtain ⟨data, _, hret⟩ := SearchServer.returnWithStatus_live s hinv document_id hid
    (if SearchServer.hasMinusWord s text document_id then []
      else (SearchServer.parsedQuery s text).plus_words.filter
        (SearchServer.containsWord s document_id))
  have h1 := SearchServer.matchDocument_eq s text hq document_id hid
  have h2 := SearchServer.matchDocumentPar_eq s text hq document_id hid
  exact ⟨h2.trans h1.symm, _, _, h1.trans hret, h2.trans hret⟩

/-- Witness of C13: the scenario corpus, id 2 and the query "fluffy cat fluffy". -/
theorem C13_match_document_parallel_agrees_witness :
    SearchServer.Reachable SearchServer.scenario4
    ∧ (2 : Int) ∈ SearchServer.scenario4.document_id_
    ∧ ¬ SearchServer.MalformedQuery (bytes "fluffy cat fluffy")
    ∧ SearchServer.MatchDocumentPar SearchServer.scenario4 (bytes "fluffy cat fluffy") 2
      = SearchServer.MatchDocument SearchServer.scenario4 (bytes "fluffy cat fluffy") 2
    ∧ ∃ words status,
        SearchServer.MatchDocument SearchServer.scenario4 (bytes "fluffy cat fluffy") 2
          = Except.ok (words, status)
        ∧ SearchServer.MatchDocumentPar SearchServer.scenario4 (bytes "fluffy cat fluffy") 2
          = Except.ok (words, status) :=
  ⟨SearchServer.reachable_scenario4, by decide, by decide,
    C13_match_document_parallel_agrees SearchServer.scenario4 SearchServer.reachable_scenario4 2
      (by decide) (bytes "fluffy cat fluffy") (by decide)⟩

/-! ## The two indices agree -/

namespace OMap
variable {K1 K2 V : Type} [LinearOrder K1] [LinearOrder K2]

theorem mem_iff_find? {K : Type} [LinearOrder K] (m : List (K × V)) (hm : WF m) (k : K) (v : V) :
    (k, v) ∈ m ↔ find? m k = some v :=
  ⟨find?_of_mem m hm k v, mem_of_find? m k v⟩

/-- Membership of a triple in a well-formed map of maps is a lookup. -/
theorem mem2_iff_find2 (m : List (K1 × List (K2 × V))) (hm : WF m) (hi : ∀ p ∈ m, WF p.2)
    (k1 : K1) (k2 : K2) (v : V) :
    (∃ inner, (k1, inner) ∈ m ∧ (k2, v) ∈ inner) ↔ find2 m k1 k2 = some v := by
  unfold find2
  constructor
  · rintro ⟨inner, h1, h2⟩
    rw [find?_of_mem m hm k1 inner h1]
    exact find?_of_mem inner (hi _ h1) k2 v h2
  · intro h
    cases hf : find? m k1 with
    | none => rw [hf] at h; cases h
    | some inner =>
      rw [hf] at h
      exact ⟨inner, mem_of_find? m k1 inner hf, mem_of_find? inner k2 v h⟩

end OMap

/-- C15: in every reachable state, for every word `w`, id `d` and frequency `f`,
`word_to_document_freqs_[w]` contains `(d, f)` if and only if
`id_to_word_to_document_freqs_[d]` contains `(w, f)`. -/
theorem C15_indices_agree (s : SearchServer) (hs : SearchServer.Reachable s)
    (w : Str) (d : Int) (f : ℚ) :
    (∃ inner, (w, inner) ∈ s.word_to_document_freqs_ ∧ (d, f) ∈ inner)
      ↔ (∃ inner, (d, inner) ∈ s.id_to_word_to_document_freqs_ ∧ (w, f) ∈ inner) := by
  have hinv := SearchServer.inv_of_reachable s hs
  rw [OMap.mem2_iff_find2 _ hinv.w2d_wf hinv.w2d_inner_wf,
    OMap.mem2_iff_find2 _ hinv.d2w_wf hinv.d2w_inner_wf, hinv.agree]

/-- Witness of C15: the word "cat", the id 2 and the frequency 1/4 in the scenario
corpus, present in both indices. -/
theorem C15_indices_agree_witness :
    SearchServer.Reachable SearchServer.scenario4
    ∧ ((∃ inner, (bytes "cat", inner) ∈ SearchServer.scenario4.word_to_document_freqs_
          ∧ ((2 : Int), (1 / 4 : ℚ)) ∈ inner)
      ↔ (∃ inner, ((2 : Int), inner) ∈ SearchServer.scenario4.id_to_word_to_document_freqs_
          ∧ (bytes "cat", (1 / 4 : ℚ)) ∈ inner))
    ∧ OMap.find2 SearchServer.scenario4.word_to_document_freqs_ (bytes "cat") 2 = some (1 / 4) :=
  ⟨SearchServer.reachable_scenario4,
    C15_indices_agree SearchServer.scenario4 SearchServer.reachable_scenario4 (bytes "cat") 2
      (1 / 4), by decide!⟩

/-! ## The forward index: stored maps are non-empty and sum to 1 -/

namespace OMap
variable {K : Type} [LinearOrder K]

theorem set_ne_nil {V : Type} (k : K) (v : V) (m : List (K × V)) : set k v m ≠ [] := by
  cases m with
  | nil => simp [set]
  | cons a t =>
    obtain ⟨a, w⟩ := a
    simp only [set]
    split_ifs <;> simp

/-- Assigning a value changes the sum of the values by the difference to the old
one. -/
theorem sum_set (k : K) (v : ℚ) (m : List (K × ℚ)) (hm : WF m) :
    ((set k v m).map Prod.snd).sum = (m.map Prod.snd).sum - getD m k 0 + v := by
  induction m with
  | nil => simp [set, getD, find?]
  | cons a t ih =>
    obtain ⟨a, w⟩ := a
    have hsorted : ∀ b ∈ keys t, a < b := by
      unfold WF keys at hm
      exact (List.sorted_cons.1 hm).1
    have ht : WF t := by
      unfold WF keys at hm ⊢
      exact (List.sorted_cons.1 hm).2
    simp only [set]
    split_ifs with h1 h2
    · have hnone : find? t k = none := by
        rw [find?_eq_none]
        intro hk
        exact absurd (lt_trans h1 (hsorted k hk)) (lt_irrefl k)
      simp [getD, find?, ne_of_lt h1, hnone]
      ring
    · subst h2
      simp [getD, find?]
      ring
    · have hg : getD ((a, w) :: t) k 0 = getD t k 0 := by
        simp [getD, find?, h2]
      rw [List.map_cons, List.sum_cons, ih ht, hg, List.map_cons, List.sum_cons]
      ring

theorem sum_foldl_increment (words : List K) (x : ℚ) (inner : List (K × ℚ)) (hm : WF inner) :
    WF (words.foldl (fun inner w => set w (getD inner w 0 + x) inner) inner)
    ∧ ((words.foldl (fun inner w => set w (getD inner w 0 + x) inner) inner).map Prod.snd).sum
        = (inner.map Prod.snd).sum + (words.length : ℚ) * x := by
  induction words generalizing inner with
  | nil => simp [hm]
  | cons w t ih =>
    rw [List.foldl_cons]
    obtain ⟨h1, h2⟩ := ih _ (wf_set w (getD inner w 0 + x) inner hm)
    refine ⟨h1, ?_⟩
    rw [h2, sum_set _ _ _ hm, List.length_cons]
    push_cast
    ring

theorem foldl_increment_ne_nil (words : List K) (x : ℚ) (inner : List (K × ℚ))
    (h : inner ≠ [] ∨ words ≠ []) :
    words.foldl (fun inner w => set w (getD inner w 0 + x) inner) inner ≠ [] := by
  induction words generalizing inner with
  | nil =>
    rcases h with h | h
    · exact h
    · exact absurd rfl h
  | cons w t ih =>
    rw [List.foldl_cons]
    exact ih _ (Or.inl (set_ne_nil _ _ _))

end OMap

namespace SearchServer

theorem find?_addFreq {K1 K2 : Type} [LinearOrder K1] [LinearOrder K2]
    (m : List (K1 × List (K2 × ℚ))) (k1 j : K1) (k2 : K2) (x : ℚ) :
    OMap.find? (addFreq m k1 k2 x) j
      = if j = k1 then
          some (OMap.set k2 (OMap.getD (OMap.getD m k1 []) k2 0 + x) (OMap.getD m k1 []))
        else OMap.find? m j := by
  unfold addFreq
  rw [OMap.find?_set]

/-- The forward-index entry of the document after the `+=` statements of
`AddDocument`, one for each word. -/
theorem find?_foldl_addFreq_row {K1 K2 : Type} [LinearOrder K1] [LinearOrder K2]
    (k : K1) (words : List K2) (x : ℚ) (m : List (K1 × List (K2 × ℚ))) (j : K1) :
    OMap.find? (words.foldl (fun m w => addFreq m k w x) m) j
      = if j = k ∧ words ≠ [] then
          some (words.foldl (fun inner w => OMap.set w (OMap.getD inner w 0 + x) inner)
            (OMap.getD m k []))
        else OMap.find? m j := by
  induction words generalizing m with
  | nil => simp
  | cons w t ih =>
    rw [List.foldl_cons, ih, find?_addFreq]
    by_cases hj : j = k
    · subst hj
      have hg : OMap.getD (addFreq m j w x) j []
          = OMap.set w (OMap.getD (OMap.getD m j []) w 0 + x) (OMap.getD m j []) := by
        unfold OMap.getD
        rw [find?_addFreq, if_pos rfl]
        rfl
      by_cases ht : t = []
      · subst ht; simp
      · simp [ht, hg]
    · simp [hj]

theorem afterAdd_d2w_row (s : SearchServer) (document_id : Int) (document : Str)
    (status : DocumentStatus) (ratings : List Int) (j : Int) :
    OMap.find? (afterAdd s document_id document status ratings).id_to_word_to_document_freqs_ j
      = if j = document_id ∧ SplitIntoWordsNoStop s document ≠ [] then
          some ((SplitIntoWordsNoStop s document).foldl
            (fun inner w => OMap.set w
              (OMap.getD inner w 0 + 1 / ((SplitIntoWordsNoStop s document).length : ℚ)) inner)
            (OMap.getD s.id_to_word_to_document_freqs_ document_id []))
        else OMap.find? s.id_to_word_to_document_freqs_ j := by
  show OMap.find? (List.foldl _ _ _) j = _
  rw [List.foldl_map]
  convert find?_foldl_addFreq_row document_id (SplitIntoWordsNoStop s document)
    (1 / ((SplitIntoWordsNoStop s document).length : ℚ)) s.id_to_word_to_document_freqs_ j

theorem inv2_afterAdd (s : SearchServer) (document_id : Int) (document : Str)
    (status : DocumentStatus) (ratings : List Int) (hs : Inv s) (hs2 : Inv2 s)
    (h2 : document_id ∉ s.document_id_) :
    Inv2 (afterAdd s document_id document status ratings) := by
  have hnokey : OMap.find? s.id_to_word_to_document_freqs_ document_id = none := by
    rw [OMap.find?_eq_none]
    exact fun hk => h2 (hs.d2w_keys _ hk)
  have hg : OMap.getD s.id_to_word_to_document_freqs_ document_id ([] : List (Str × ℚ)) = [] := by
    unfold OMap.getD; rw [hnokey]; rfl
  constructor
  · intro d inner hf
    rw [afterAdd_d2w_row] at hf
    split_ifs at hf with hc
    · cases hf
      exact OMap.foldl_increment_ne_nil _ _ _ (Or.inr hc.2)
    · exact hs2.d2w_nonempty d inner hf
  · intro d inner hf
    rw [afterAdd_d2w_row] at hf
    split_ifs at hf with hc
    · cases hf
      rw [hg, (OMap.sum_foldl_increment _ _ [] OMap.wf_nil).2]
      have hlen : ((SplitIntoWordsNoStop s document).length : ℚ) ≠ 0 := by
        have := List.length_pos.2 hc.2
        exact_mod_cast (Nat.pos_iff_ne_zero.1 this)
      simp only [List.map_nil, List.sum_nil, zero_add]
      field_simp
    · exact hs2.d2w_sum d inner hf

theorem inv2_removeDocument (s : SearchServer) (document_id : Int) (hs2 : Inv2 s) :
    Inv2 (RemoveDocument s document_id) := by
  by_cases h : document_id ∈ s.document_id_
  swap
  · rw [removeDocument_not_live s document_id h]; exact hs2
  rw [removeDocument_live s document_id h]
  constructor
  · intro d inner hf
    have hf2 : OMap.find? (OMap.erase document_id s.id_to_word_to_document_freqs_) d
        = some inner := hf
    rw [OMap.find?_erase] at hf2
    split_ifs at hf2
    exact hs2.d2w_nonempty d inner hf2
  · intro d inner hf
    have hf2 : OMap.find? (OMap.erase document_id s.id_to_word_to_document_freqs_) d
        = some inner := hf
    rw [OMap.find?_erase] at hf2
    split_ifs at hf2
    exact hs2.d2w_sum d inner hf2

theorem inv2_empty_stop (st : List Str) : Inv2 { empty with stop_words_ := st } := by
  constructor <;> intro d inner hf <;> simp [empty, OMap.find?] at hf

/-- Every reachable state satisfies the further invariants of the forward index. -/
theorem inv2_of_reachable (s : SearchServer) (h : Reachable s) : Inv2 s := by
  induction h with
  | ofString stop_words s hs =>
    unfold ofString at hs
    split_ifs at hs
    cases hs
    exact inv2_empty_stop _
  | ofCollection stop_words s hs =>
    unfold ofCollection at hs
    cases hf : List.foldlM
      (fun st word =>
        if !IsValidWord word then (Except.error Error.InvalidArgument : Except Error (List Str))
        else Except.ok (OSet.insert word st)) [] stop_words with
    | error e => rw [hf] at hs; cases hs
    | ok st =>
      rw [hf] at hs
      cases hs
      exact inv2_empty_stop _
  | add s document_id document status ratings hr ih =>
    rcases addDocument_cases s document_id document status ratings with ⟨h, _⟩ | ⟨h, _, h2, _⟩
    · rw [h]; exact ih
    · rw [h]
      exact inv2_afterAdd s document_id document status ratings (inv_of_reachable s hr) ih h2
  | remove s document_id _ ih => exact inv2_removeDocument s document_id ih
  | removePar s document_id _ ih =>
    rcases removeDocumentPar_cases s document_id with ⟨h, _⟩ | h
    · rw [h]; exact ih
    · rw [h]; exact inv2_removeDocument s document_id ih

theorem reachable_wordless : Reachable wordless :=
  Reachable.add _ _ _ _ _ reachable_empty

theorem getWordFrequencies_ne_nil_iff (s : SearchServer) (hs2 : Inv2 s) (d : Int) :
    GetWordFrequencies s d ≠ [] ↔ d ∈ OMap.keys s.id_to_word_to_document_freqs_ := by
  rw [← OMap.find?_isSome]
  unfold GetWordFrequencies
  cases hf : OMap.find? s.id_to_word_to_document_freqs_ d with
  | none => simp
  | some inner => simpa using hs2.d2w_nonempty d inner hf

end SearchServer

/-- C16 (counterexample): after `AddDocument(0, "", ACTUAL, {})` on the empty
server the id 0 is in the id set and is a key of the metadata map, but it is no key
of the forward index. -/
theorem C16_wordless_document_has_no_forward_entry :
    SearchServer.Reachable SearchServer.wordless
    ∧ (0 : Int) ∈ SearchServer.wordless.document_id_
    ∧ (0 : Int) ∈ OMap.keys SearchServer.wordless.documents_
    ∧ (0 : Int) ∉ OMap.keys SearchServer.wordless.id_to_word_to_document_freqs_ :=
  ⟨SearchServer.reachable_wordless, by decide, by decide, by decide⟩

/-- C16 (amended): in every reachable state and for every integer id, the id is in
the id set if and only if it is a key of the metadata map; a key of the forward
index is in the id set; and the id is a key of the forward index exactly when
`GetWordFrequencies(id)` is not empty. -/
theorem C16_id_set_and_metadata_keys_agree (s : SearchServer)
    (hs : SearchServer.Reachable s) (document_id : Int) :
    (document_id ∈ s.document_id_ ↔ document_id ∈ OMap.keys s.documents_)
    ∧ (document_id ∈ OMap.keys s.id_to_word_to_document_freqs_ →
        document_id ∈ s.document_id_)
    ∧ (document_id ∈ OMap.keys s.id_to_word_to_document_freqs_
        ↔ SearchServer.GetWordFrequencies s document_id ≠ []) := by
  have hinv := SearchServer.inv_of_reachable s hs
  have hinv2 := SearchServer.inv2_of_reachable s hs
  refine ⟨by rw [hinv.docs_keys], hinv.d2w_keys document_id, ?_⟩
  exact (SearchServer.getWordFrequencies_ne_nil_iff s hinv2 document_id).symm

/-- Witness of C16 (amended): the id 2 of the scenario corpus. -/
theorem C16_id_set_and_metadata_keys_agree_witness :
    SearchServer.Reachable SearchServer.scenario4
    ∧ ((2 : Int) ∈ SearchServer.scenario4.document_id_
        ↔ (2 : Int) ∈ OMap.keys SearchServer.scenario4.documents_)
    ∧ ((2 : Int) ∈ OMap.keys SearchServer.scenario4.id_to_word_to_document_freqs_ →
        (2 : Int) ∈ SearchServer.scenario4.document_id_)
    ∧ ((2 : Int) ∈ OMap.keys SearchServer.scenario4.id_to_word_to_document_freqs_
        ↔ SearchServer.GetWordFrequencies SearchServer.scenario4 2 ≠ []) :=
  ⟨SearchServer.reachable_scenario4,
    C16_id_set_and_metadata_keys_agree SearchServer.scenario4
      SearchServer.reachable_scenario4 2⟩

/-- C17 (counterexample): the document 0 of the server `wordless` is live, and its
`GetWordFrequencies` is empty, so that its frequencies sum to 0 and not to 1. -/
theorem C17_wordless_document_sums_to_zero :
    SearchServer.Reachable SearchServer.wordless
    ∧ (0 : Int) ∈ SearchServer.wordless.document_id_
    ∧ ((SearchServer.GetWordFrequencies SearchServer.wordless 0).map Prod.snd).sum = 0
    ∧ ((SearchServer.GetWordFrequencies SearchServer.wordless 0).map Prod.snd).sum ≠ 1 :=
  ⟨SearchServer.reachable_wordless, by decide, by decide!, by decide!⟩

/-- C17 (amended): in every reachable state, for every live document id whose
`GetWordFrequencies(id)` is not empty the stored term frequencies sum to exactly 1
in rational arithmetic; for a live document with an empty `GetWordFrequencies(id)`
the sum is 0. -/
theorem C17_frequencies_sum_to_one (s : SearchServer) (hs : SearchServer.Reachable s)
    (document_id : Int) (_hid : document_id ∈ s.document_id_) :
    (SearchServer.GetWordFrequencies s document_id ≠ [] →
        ((SearchServer.GetWordFrequencies s document_id).map Prod.snd).sum = 1)
    ∧ (SearchServer.GetWordFrequencies s document_id = [] →
        ((SearchServer.GetWordFrequencies s document_id).map Prod.snd).sum = 0) := by
  have hinv2 := SearchServer.inv2_of_reachable s hs
  constructor
  · intro hne
    unfold SearchServer.GetWordFrequencies at hne ⊢
    cases hf : OMap.find? s.id_to_word_to_document_freqs_ document_id with
    | none => rw [hf] at hne; exact absurd rfl hne
    | some inner => exact hinv2.d2w_sum document_id inner hf
  · intro he
    rw [he]; rfl

/-- Witness of C17 (amended): the document 2 of the scenario corpus, whose
frequencies 1/4, 1/2 and 1/4 sum to 1. -/
theorem C17_frequencies_sum_to_one_witness :
    SearchServer.Reachable SearchServer.scenario4
    ∧ (2 : Int) ∈ SearchServer.scenario4.document_id_
    ∧ SearchServer.GetWordFrequencies SearchServer.scenario4 2 ≠ []
    ∧ ((SearchServer.GetWordFrequencies SearchServer.scenario4 2).map Prod.snd).sum = 1 :=
  ⟨SearchServer.reachable_scenario4, by decide, by decide!,
    (C17_frequencies_sum_to_one SearchServer.scenario4 SearchServer.reachable_scenario4 2
      (by decide)).1 (by decide!)⟩

/-! ## RemoveDocument -/

namespace OSet
variable {K : Type} [LinearOrder K]

theorem oset_erase_of_not_mem (k : K) (m : List K) (h : k ∉ m) : erase k m = m := by
  unfold erase
  rw [List.filter_eq_self]
  intro a ha
  simp only [decide_eq_true_eq]
  exact fun hak => h (hak ▸ ha)

theorem oset_erase_insert (k : K) (m : List K) (h : k ∉ m) : erase k (insert k m) = m := by
  induction m with
  | nil => simp [insert, erase]
  | cons a t ih =>
    have hne : k ≠ a := fun hka => h (hka ▸ List.mem_cons_self _ _)
    have ht : k ∉ t := fun hk => h (List.mem_cons_of_mem _ hk)
    simp only [insert]
    split_ifs with h1
    · have : erase k (k :: a :: t) = erase k (a :: t) := by simp [erase]
      rw [this, oset_erase_of_not_mem k (a :: t) h]
    · have : erase k (a :: insert k t) = a :: erase k (insert k t) := by
        simp [erase, List.filter_cons, Ne.symm hne]
      rw [this, ih ht]

end OSet

namespace OMap
variable {K V : Type} [LinearOrder K]

theorem erase_of_not_mem (k : K) (m : List (K × V)) (h : k ∉ keys m) : erase k m = m := by
  unfold erase
  rw [List.filter_eq_self]
  intro p hp
  simp only [decide_eq_true_eq]
  intro hpk
  exact h (hpk ▸ List.mem_map_of_mem Prod.fst hp)

theorem erase_set_same (k : K) (v : V) (m : List (K × V)) : erase k (set k v m) = erase k m := by
  induction m with
  | nil => simp [set, erase]
  | cons a t ih =>
    obtain ⟨a, w⟩ := a
    simp only [set]
    split_ifs with h1 h2
    · simp [erase]
    · subst h2; simp [erase]
    · have h3 : a ≠ k := fun h => h2 h.symm
      unfold erase at ih ⊢
      simp only [List.filter_cons, ih]

theorem erase_erase (k : K) (m : List (K × V)) : erase k (erase k m) = erase k m := by
  unfold erase
  rw [List.filter_filter]
  congr 1
  funext p
  simp

theorem length_erase (k : K) (m : List (K × V)) (hm : WF m) (hk : k ∈ keys m) :
    (erase k m).length + 1 = m.length := by
  induction m with
  | nil => simp [keys] at hk
  | cons a t ih =>
    obtain ⟨a, w⟩ := a
    have hsorted : ∀ b ∈ keys t, a < b := by
      unfold WF keys at hm
      exact (List.sorted_cons.1 hm).1
    have ht : WF t := by
      unfold WF keys at hm ⊢
      exact (List.sorted_cons.1 hm).2
    by_cases hak : a = k
    · subst hak
      have hnot : a ∉ keys t := fun h => absurd (hsorted a h) (lt_irrefl a)
      have : erase a ((a, w) :: t) = erase a t := by simp [erase]
      rw [this, erase_of_not_mem a t hnot, List.length_cons]
    · have hkt : k ∈ keys t := by
        simp only [keys, List.map_cons, List.mem_cons] at hk
        rcases hk with h | h
        · exact absurd h.symm hak
        · exact h
      have : erase k ((a, w) :: t) = (a, w) :: erase k t := by
        simp [erase, List.filter_cons, hak]
      rw [this, List.length_cons, ih ht hkt, List.length_cons]

end OMap

namespace SearchServer

theorem wf_documents (s : SearchServer) (hs : Inv s) : OMap.WF s.documents_ := by
  unfold OMap.WF
  rw [hs.docs_keys]
  exact hs.ids_sorted

/-- What the sequential `RemoveDocument` does to a state that satisfies the
invariants when the document is live. -/
theorem removeDocument_spec (s : SearchServer) (hs : Inv s) (document_id : Int)
    (hid : document_id ∈ s.document_id_) :
    document_id ∉ (RemoveDocument s document_id).document_id_
    ∧ GetDocumentCount (RemoveDocument s document_id) = GetDocumentCount s - 1
    ∧ GetWordFrequencies (RemoveDocument s document_id) document_id = []
    ∧ (∀ p ∈ (RemoveDocument s document_id).word_to_document_freqs_,
        document_id ∉ OMap.keys p.2)
    ∧ (∀ d, d ≠ document_id →
        (d ∈ (RemoveDocument s document_id).document_id_ ↔ d ∈ s.document_id_)
        ∧ OMap.find? (RemoveDocument s document_id).documents_ d = OMap.find? s.documents_ d
        ∧ GetWordFrequencies (RemoveDocument s document_id) d = GetWordFrequencies s d) := by
  have hinv' := inv_removeDocument s document_id hs
  have hids : (RemoveDocument s document_id).document_id_
      = OSet.erase document_id s.document_id_ := by
    rw [removeDocument_live s document_id hid]
  have hdocs : (RemoveDocument s document_id).documents_
      = OMap.erase document_id s.documents_ := by
    rw [removeDocument_live s document_id hid]
  have hd2w : (RemoveDocument s document_id).id_to_word_to_document_freqs_
      = OMap.erase document_id s.id_to_word_to_document_freqs_ := by
    rw [removeDocument_live s document_id hid]
  have hnot : document_id ∉ (RemoveDocument s document_id).document_id_ := by
    rw [hids, OSet.oset_mem_erase]
    exact fun h => h.1 rfl
  refine ⟨hnot, ?_, ?_, ?_, ?_⟩
  · unfold GetDocumentCount
    rw [hdocs]
    have := OMap.length_erase document_id s.documents_ (wf_documents s hs)
      (by rw [hs.docs_keys]; exact hid)
    omega
  · unfold GetWordFrequencies
    rw [hd2w, OMap.find?_erase, if_pos rfl]
  · intro p hp hk
    have hf := OMap.find?_of_mem _ hinv'.w2d_wf p.1 p.2 hp
    have h2 := (find2_none_of_not_live _ hinv' document_id hnot p.1).2
    unfold OMap.find2 at h2
    rw [hf] at h2
    exact (OMap.find?_eq_none p.2 document_id).1 h2 hk
  · intro d hd
    refine ⟨?_, ?_, ?_⟩
    · rw [hids, OSet.oset_mem_erase]
      exact ⟨fun h => h.2, fun h => ⟨hd, h⟩⟩
    · rw [hdocs, OMap.find?_erase, if_neg hd]
    · unfold GetWordFrequencies
      rw [hd2w, OMap.find?_erase, if_neg hd]

end SearchServer

/-- C14 (the code at the failing input): on the server `wordless`, whose document 0
has no word, the parallel `RemoveDocument` throws `OutOfRange` and leaves the
document live, while the sequential `RemoveDocument` removes it. -/
theorem C14_parallel_remove_throws_on_wordless_document :
    SearchServer.Reachable SearchServer.wordless
    ∧ (0 : Int) ∈ SearchServer.wordless.document_id_
    ∧ SearchServer.RemoveDocumentPar SearchServer.wordless 0
        = (Except.error Error.OutOfRange, SearchServer.wordless)
    ∧ (0 : Int) ∈ (SearchServer.RemoveDocumentPar SearchServer.wordless 0).2.document_id_
    ∧ SearchServer.GetDocumentCount (SearchServer.RemoveDocumentPar SearchServer.wordless 0).2
        = SearchServer.GetDocumentCount SearchServer.wordless
    ∧ (0 : Int) ∉ (SearchServer.RemoveDocument SearchServer.wordless 0).document_id_ :=
  ⟨SearchServer.reachable_wordless, by decide, by decide, by decide, by decide, by decide⟩

/-! ## Adding a document and removing it again -/

namespace SearchServer

theorem find?_eraseFromWords (document_id : Int) (words : List Str)
    (m : List (Str × List (Int × ℚ))) (w : Str) :
    OMap.find? (eraseFromWords document_id words m) w
      = if w ∈ words then some (OMap.erase document_id (OMap.getD m w []))
        else OMap.find? m w := by
  induction words generalizing m with
  | nil => simp [eraseFromWords]
  | cons a t ih =>
    rw [eraseFromWords, ih]
    have hg : OMap.getD (OMap.set a (OMap.erase document_id (OMap.getD m a [])) m) w []
        = if w = a then OMap.erase document_id (OMap.getD m a []) else OMap.getD m w [] := by
      unfold OMap.getD
      rw [OMap.find?_set]
      split_ifs <;> rfl
    rw [hg, OMap.find?_set]
    by_cases hw : w = a
    · subst hw
      simp [OMap.erase_erase]
    · simp [hw]

/-- The `+=` statements of `AddDocument` on the inverted index change, in the inner
map of a word, only the entry of the new document. -/
theorem erase_getD_foldl_addFreq (document_id : Int) (words : List Str) (x : ℚ)
    (m : List (Str × List (Int × ℚ))) (w : Str) :
    OMap.erase document_id
        (OMap.getD (words.foldl (fun m v => addFreq m v document_id x) m) w [])
      = OMap.erase document_id (OMap.getD m w []) := by
  induction words generalizing m with
  | nil => rfl
  | cons a t ih =>
    rw [List.foldl_cons, ih]
    unfold OMap.getD
    rw [find?_addFreq]
    by_cases hw : w = a
    · subst hw
      simp only [if_true, Option.getD_some]
      rw [OMap.erase_set_same]
      rfl
    · rw [if_neg hw]

theorem find?_foldl_addFreq_other (document_id : Int) (words : List Str) (x : ℚ)
    (m : List (Str × List (Int × ℚ))) (w : Str) (hw : w ∉ words) :
    OMap.find? (words.foldl (fun m v => addFreq m v document_id x) m) w = OMap.find? m w := by
  induction words generalizing m with
  | nil => rfl
  | cons a t ih =>
    have hwa : w ≠ a := fun h => hw (h ▸ List.mem_cons_self _ _)
    rw [List.foldl_cons, ih _ (fun h => hw (List.mem_cons_of_mem _ h)), find?_addFreq,
      if_neg hwa]

/-- The inverted index after a successful `AddDocument` followed by `RemoveDocument`
of the same id: every word of the document is a key, with the inner map it had
before (the empty one when it was no key); the other keys are untouched. -/
theorem find?_w2d_add_remove (s : SearchServer) (hs : Inv s) (document_id : Int)
    (document : Str) (status : DocumentStatus) (ratings : List Int)
    (hid : document_id ∉ s.document_id_) (w : Str) :
    OMap.find? (RemoveDocument (afterAdd s document_id document status ratings)
        document_id).word_to_document_freqs_ w
      = if w ∈ SplitIntoWordsNoStop s document then
          some (OMap.getD s.word_to_document_freqs_ w [])
        else OMap.find? s.word_to_document_freqs_ w := by
  have hlive : document_id ∈ (afterAdd s document_id document status ratings).document_id_ := by
    show document_id ∈ OSet.insert document_id s.document_id_
    rw [OSet.oset_mem_insert]
    exact Or.inl rfl
  have hkeys : w ∈ (GetWordFrequencies (afterAdd s document_id document status ratings)
      document_id).map Prod.fst ↔ w ∈ SplitIntoWordsNoStop s document := by
    have h1 := OMap.find?_isSome
      (GetWordFrequencies (afterAdd s document_id document status ratings) document_id) w
    unfold OMap.keys at h1
    rw [← h1, find?_getWordFrequencies, afterAdd_d2w,
      (find2_none_of_not_live s hs document_id hid w).1]
    by_cases hw : w ∈ SplitIntoWordsNoStop s document
    · simp [hw]
    · simp [hw]
  have hfold : (afterAdd s document_id document status ratings).word_to_document_freqs_
      = (SplitIntoWordsNoStop s document).foldl
          (fun m v => addFreq m v document_id
            (1 / ((SplitIntoWordsNoStop s document).length : ℚ)))
          s.word_to_document_freqs_ := by
    show List.foldl _ _ _ = _
    rw [List.foldl_map]
  have hnot : OMap.erase document_id (OMap.getD s.word_to_document_freqs_ w [])
      = OMap.getD s.word_to_document_freqs_ w [] := by
    apply OMap.erase_of_not_mem
    rw [← OMap.find?_eq_none]
    have h2 := (find2_none_of_not_live s hs document_id hid w).2
    have h3 : OMap.find? (OMap.getD s.word_to_document_freqs_ w []) document_id
        = OMap.find2 s.word_to_document_freqs_ w document_id := by
      unfold OMap.find2 OMap.getD
      cases OMap.find? s.word_to_document_freqs_ w <;> simp [OMap.find?]
    rw [h3, h2]
  rw [removeDocument_live _ _ hlive]
  show OMap.find? (eraseFromWords _ _ _) w = _
  rw [find?_eraseFromWords]
  by_cases hw : w ∈ SplitIntoWordsNoStop s document
  · rw [if_pos (hkeys.2 hw), if_pos hw, hfold, erase_getD_foldl_addFreq, hnot]
  · rw [if_neg (fun h => hw (hkeys.1 h)), if_neg hw, hfold,
      find?_foldl_addFreq_other _ _ _ _ _ hw]

end SearchServer

namespace SearchServer

/-- The forward index, the metadata map and the id set after a successful
`AddDocument` followed by `RemoveDocument` of the same id. -/
theorem add_remove_frame (s : SearchServer) (hs : Inv s) (document_id : Int)
    (document : Str) (status : DocumentStatus) (ratings : List Int)
    (hid : document_id ∉ s.document_id_) :
    (RemoveDocument (afterAdd s document_id document status ratings)
        document_id).id_to_word_to_document_freqs_ = s.id_to_word_to_document_freqs_
    ∧ (RemoveDocument (afterAdd s document_id document status ratings)
        document_id).documents_ = s.documents_
    ∧ (RemoveDocument (afterAdd s document_id document status ratings)
        document_id).document_id_ = s.document_id_
    ∧ (RemoveDocument (afterAdd s document_id document status ratings)
        document_id).stop_words_ = s.stop_words_ := by
  have hlive : document_id ∈ (afterAdd s document_id document status ratings).document_id_ := by
    show document_id ∈ OSet.insert document_id s.document_id_
    rw [OSet.oset_mem_insert]
    exact Or.inl rfl
  have hinv := inv_afterAdd s document_id document status ratings hs hid
  rw [removeDocument_live _ _ hlive]
  refine ⟨?_, ?_, ?_, rfl⟩
  · show OMap.erase document_id
      (afterAdd s document_id document status ratings).id_to_word_to_document_freqs_ = _
    apply OMap.ext _ _ (OMap.wf_erase _ _ hinv.d2w_wf) hs.d2w_wf
    intro j
    rw [OMap.find?_erase]
    by_cases hj : j = document_id
    · subst hj
      rw [if_pos rfl]
      symm
      rw [OMap.find?_eq_none]
      exact fun hk => hid (hs.d2w_keys _ hk)
    · rw [if_neg hj, afterAdd_d2w_row, if_neg (fun h => hj h.1)]
  · show OMap.erase document_id (OMap.emplace _ _ _) = _
    unfold OMap.emplace
    have hnone : (OMap.find? s.documents_ document_id).isSome = false := by
      rw [Bool.eq_false_iff, Ne, OMap.find?_isSome, hs.docs_keys]; exact hid
    rw [hnone]
    simp only [Bool.false_eq_true, if_false]
    rw [OMap.erase_set_same, OMap.erase_of_not_mem]
    rw [hs.docs_keys]; exact hid
  · show OSet.erase document_id (OSet.insert document_id s.document_id_) = _
    exact OSet.oset_erase_insert _ _ hid

end SearchServer

/-- C18 (counterexample): on the empty server, adding document 0 with the text "cat"
succeeds, and removing it again leaves the word "cat" as a key of the inverted
index, with an empty inner map; the inverted index of the empty server has no
key. -/
theorem C18_add_then_remove_leaves_word_key :
    SearchServer.Reachable SearchServer.empty
    ∧ (SearchServer.AddDocument SearchServer.empty 0 (bytes "cat")
        DocumentStatus.ACTUAL []).1 = Except.ok ()
    ∧ (SearchServer.RemoveDocument (SearchServer.AddDocument SearchServer.empty 0 (bytes "cat")
        DocumentStatus.ACTUAL []).2 0).word_to_document_freqs_ = [(bytes "cat", [])]
    ∧ SearchServer.empty.word_to_document_freqs_ = []
    ∧ (SearchServer.RemoveDocument (SearchServer.AddDocument SearchServer.empty 0 (bytes "cat")
        DocumentStatus.ACTUAL []).2 0).word_to_document_freqs_
        ≠ SearchServer.empty.word_to_document_freqs_ :=
  ⟨SearchServer.reachable_empty, by decide, by decide!, by decide, by decide!⟩

/-- C18 (amended): for every reachable server and every successful `AddDocument`,
following it with `RemoveDocument` of the same id gives back the forward index,
the metadata map, the id set and the stop-words of the start state, and an
inverted index that stores the same frequency for every word and document; every
non-stop word of the text is then a key of the inverted index, with the inner map
it had before or the empty one when it was no key, and the other keys are
untouched; so the inverted index itself is given back when every non-stop word of
the text was a key already. -/
theorem C18_add_then_remove_restores (s : SearchServer) (hs : SearchServer.Reachable s)
    (document_id : Int) (document : Str) (status : DocumentStatus) (ratings : List Int)
    (hok : (SearchServer.AddDocument s document_id document status ratings).1 = Except.ok ()) :
    (SearchServer.RemoveDocument (SearchServer.AddDocument s document_id document status
        ratings).2 document_id).id_to_word_to_document_freqs_ = s.id_to_word_to_document_freqs_
    ∧ (SearchServer.RemoveDocument (SearchServer.AddDocument s document_id document status
        ratings).2 document_id).documents_ = s.documents_
    ∧ (SearchServer.RemoveDocument (SearchServer.AddDocument s document_id document status
        ratings).2 document_id).document_id_ = s.document_id_
    ∧ (SearchServer.RemoveDocument (SearchServer.AddDocument s document_id document status
        ratings).2 document_id).stop_words_ = s.stop_words_
    ∧ (∀ w d, OMap.find2 (SearchServer.RemoveDocument (SearchServer.AddDocument s document_id
          document status ratings).2 document_id).word_to_document_freqs_ w d
        = OMap.find2 s.word_to_document_freqs_ w d)
    ∧ (∀ w, OMap.find? (SearchServer.RemoveDocument (SearchServer.AddDocument s document_id
          document status ratings).2 document_id).word_to_document_freqs_ w
        = if w ∈ SplitIntoWords document ∧ w ∉ s.stop_words_ then
            some (OMap.getD s.word_to_document_freqs_ w [])
          else OMap.find? s.word_to_document_freqs_ w)
    ∧ ((∀ w ∈ SplitIntoWords document, w ∉ s.stop_words_ →
          w ∈ OMap.keys s.word_to_document_freqs_) →
        (SearchServer.RemoveDocument (SearchServer.AddDocument s document_id document status
          ratings).2 document_id).word_to_document_freqs_ = s.word_to_document_freqs_) := by
  have hinv := SearchServer.inv_of_reachable s hs
  obtain ⟨h1, h2, h3⟩ := (SearchServer.addDocument_ok_iff s document_id document status
    ratings).1 hok
  rw [SearchServer.addDocument_ok s document_id document status ratings h1 h2 h3]
  have hframe := SearchServer.add_remove_frame s hinv document_id document status ratings h2
  have hfind : ∀ w, OMap.find? (SearchServer.RemoveDocument (SearchServer.afterAdd s document_id
        document status ratings) document_id).word_to_document_freqs_ w
      = if w ∈ SplitIntoWords document ∧ w ∉ s.stop_words_ then
          some (OMap.getD s.word_to_document_freqs_ w [])
        else OMap.find? s.word_to_document_freqs_ w := by
    intro w
    rw [SearchServer.find?_w2d_add_remove s hinv document_id document status ratings h2 w]
    by_cases hw : w ∈ SearchServer.SplitIntoWordsNoStop s document
    · rw [if_pos hw, if_pos ((SearchServer.mem_splitIntoWordsNoStop s document w).1 hw)]
    · rw [if_neg hw,
        if_neg (fun h => hw ((SearchServer.mem_splitIntoWordsNoStop s document w).2 h))]
  have hinv' : SearchServer.Inv (SearchServer.RemoveDocument (SearchServer.afterAdd s
      document_id document status ratings) document_id) :=
    SearchServer.inv_removeDocument _ _
      (SearchServer.inv_afterAdd s document_id document status ratings hinv h2)
  refine ⟨hframe.1, hframe.2.1, hframe.2.2.1, hframe.2.2.2, ?_, hfind, ?_⟩
  · intro w d
    rw [hinv'.agree, hframe.1, ← hinv.agree]
  · intro hall
    apply OMap.ext _ _ hinv'.w2d_wf hinv.w2d_wf
    intro w
    rw [hfind w]
    split_ifs with hw
    · have hk := hall w hw.1 hw.2
      rw [← OMap.find?_isSome] at hk
      unfold OMap.getD
      cases hf : OMap.find? s.word_to_document_freqs_ w with
      | none => rw [hf] at hk; cases hk
      | some inner => rfl
    · rfl

theorem C18_add_then_remove_restores_witness :
    (SearchServer.RemoveDocument (SearchServer.AddDocument SearchServer.scenario1 2
        (bytes "fluffy cat") DocumentStatus.ACTUAL [7]).2 2).id_to_word_to_document_freqs_
      = SearchServer.scenario1.id_to_word_to_document_freqs_
    ∧ OMap.find? (SearchServer.RemoveDocument (SearchServer.AddDocument SearchServer.scenario1 2
        (bytes "fluffy cat") DocumentStatus.ACTUAL [7]).2 2).word_to_document_freqs_
        (bytes "fluffy") = some [] :=
  have h := C18_add_then_remove_restores SearchServer.scenario1
    SearchServer.reachable_scenario1 2 (bytes "fluffy cat") DocumentStatus.ACTUAL [7]
    (by decide)
  ⟨h.1, (h.2.2.2.2.2.1 (bytes "fluffy")).trans (by decide)⟩

/-! ## Status filter against the filter that accepts everything -/

/-- A range in which no element compares before an earlier one is left as it is. -/
theorem foldl_insertionStep_of_sorted {α : Type} (comp : α → α → Bool) (l rpre : List α)
    (h1 : ∀ x ∈ rpre, ∀ y ∈ l, comp y x = false)
    (h2 : l.Pairwise (fun a b => comp b a = false)) :
    l.foldl (insertionStep comp) rpre = l.reverse ++ rpre := by
  induction l generalizing rpre with
  | nil => rfl
  | cons a t ih =>
    have hstep : insertionStep comp rpre a = a :: rpre := by
      unfold insertionStep
      cases rpre with
      | nil => rfl
      | cons x r =>
        have hlast : ∃ first, (x :: r).getLast? = some first ∧ first ∈ x :: r := by
          refine ⟨(x :: r).getLast (List.cons_ne_nil _ _), ?_, List.getLast_mem _⟩
          exact List.getLast?_eq_getLast _ _
        obtain ⟨first, hf, hmem⟩ := hlast
        rw [hf]
        simp only
        rw [h1 first hmem a (List.mem_cons_self _ _)]
        simp only [Bool.false_eq_true, if_false]
        unfold unguardedLinearInsert
        rw [h1 x (List.mem_cons_self _ _) a (List.mem_cons_self _ _)]
        simp
    rw [List.foldl_cons, hstep, ih]
    · simp
    · intro x hx y hy
      rcases List.mem_cons.1 hx with rfl | hx
      · exact (List.pairwise_cons.1 h2).1 y hy
      · exact h1 x hx y (List.mem_cons_of_mem _ hy)
    · exact (List.pairwise_cons.1 h2).2

theorem stdSort_of_sorted {α : Type} (comp : α → α → Bool) (l : List α)
    (h : l.Pairwise (fun a b => comp b a = false)) : stdSort comp l = l := by
  unfold stdSort
  rw [foldl_insertionStep_of_sorted comp l [] (by simp) h]
  simp

namespace SearchServer

theorem reachable_crowd : Reachable crowd :=
  Reachable.add _ _ _ _ _ (Reachable.add _ _ _ _ _ (Reachable.add _ _ _ _ _
    (Reachable.add _ _ _ _ _ (Reachable.add _ _ _ _ _ (Reachable.add _ _ _ _ _
      reachable_empty)))))

theorem crowd_facts :
    (parsedQuery crowd (bytes "cat")).plus_words = [bytes "cat"]
    ∧ crowd.document_id_.filter (fun d =>
        passesFilter crowd (fun _ _ _ => true) d
          && (parsedQuery crowd (bytes "cat")).plus_words.any (containsWord crowd d)
          && !(parsedQuery crowd (bytes "cat")).minus_words.any (containsWord crowd d))
        = [1, 2, 3, 4, 5, 6]
    ∧ crowd.document_id_.filter (fun d =>
        passesFilter crowd (fun _ status _ => decide (status = DocumentStatus.BANNED)) d
          && (parsedQuery crowd (bytes "cat")).plus_words.any (containsWord crowd d)
          && !(parsedQuery crowd (bytes "cat")).minus_words.any (containsWord crowd d))
        = [6]
    ∧ GetDocumentCount crowd = 6
    ∧ (OMap.getD crowd.word_to_document_freqs_ (bytes "cat") []).length = 6
    ∧ (∀ d ∈ [1, 2, 3, 4, 5, 6], tf crowd (bytes "cat") d = 1)
    ∧ (∀ d ∈ [1, 2, 3, 4, 5], ratingOf crowd d = 1)
    ∧ ratingOf crowd 6 = 0 := by
  decide!

/-- The two result lists on the six-document corpus, for every `ln`: the first
five documents under the filter that accepts everything, document 6 under the
status `BANNED`. -/
theorem crowd_results (ln : ℚ → ℚ) :
    FindTopDocuments ln crowd (bytes "cat") (fun _ _ _ => true)
      = .ok [⟨1, ln 1, 1⟩, ⟨2, ln 1, 1⟩, ⟨3, ln 1, 1⟩, ⟨4, ln 1, 1⟩, ⟨5, ln 1, 1⟩]
    ∧ FindTopDocumentsStatus ln crowd (bytes "cat") DocumentStatus.BANNED
      = .ok [⟨6, ln 1, 0⟩] := by
  obtain ⟨h1, h2, h3, h4, h5, h6, h7, h8⟩ := crowd_facts
  have hinv := inv_of_reachable _ reachable_crowd
  have hcmp : ∀ (i j : Int) (a b : Int), a ≤ b →
      compareDocuments ⟨i, ln 1, a⟩ ⟨j, ln 1, b⟩ = false := by
    intro i j a b hab
    unfold compareDocuments
    simp only [sub_self, abs_zero, epsilon_pos, if_true, gt_iff_lt, decide_eq_false_iff_not,
      not_lt]
    exact hab
  constructor
  · rw [findTopDocuments_eq ln crowd hinv (bytes "cat") (by decide)]
    unfold candidates
    rw [h2]
    simp only [List.map_cons, List.map_nil, h1, List.sum_cons, List.sum_nil, add_zero, termScore,
      h4, h5, h6 1 (by decide), h6 2 (by decide), h6 3 (by decide), h6 4 (by decide),
      h6 5 (by decide), h6 6 (by decide), h7 1 (by decide), h7 2 (by decide), h7 3 (by decide),
      h7 4 (by decide), h7 5 (by decide), h8]
    norm_num
    rw [stdSort_of_sorted]
    · rfl
    · simp [hcmp]
  · unfold FindTopDocumentsStatus
    rw [findTopDocuments_eq ln crowd hinv (bytes "cat") (by decide)]
    unfold candidates
    rw [h3]
    simp only [List.map_cons, List.map_nil, h1, List.sum_cons, List.sum_nil, add_zero, termScore,
      h4, h5, h6 6 (by decide), h8]
    norm_num
    rfl

theorem passesFilter_accept_all (s : SearchServer)
    (predicate : Int → DocumentStatus → Int → Bool) (d : Int)
    (h : passesFilter s predicate d = true) : passesFilter s (fun _ _ _ => true) d = true := by
  unfold passesFilter at h ⊢
  cases hf : OMap.find? s.documents_ d with
  | none => rw [hf] at h; exact h
  | some data => rfl

theorem candidates_accept_all (ln : ℚ → ℚ) (s : SearchServer) (query : Query)
    (predicate : Int → DocumentStatus → Int → Bool) (doc : Document)
    (h : doc ∈ candidates ln s query predicate) :
    doc ∈ candidates ln s query (fun _ _ _ => true) := by
  unfold candidates at h ⊢
  rw [List.mem_map] at h ⊢
  obtain ⟨d, hd, rfl⟩ := h
  refine ⟨d, ?_, rfl⟩
  rw [List.mem_filter] at hd ⊢
  refine ⟨hd.1, ?_⟩
  have h2 := hd.2
  simp only [Bool.and_eq_true] at h2 ⊢
  exact ⟨⟨passesFilter_accept_all s predicate d h2.1.1, h2.1.2⟩, h2.2⟩

end SearchServer

/-- C19 (counterexample): on the reachable six-document corpus and for every `ln`,
the well-formed query "cat" with the status `BANNED` returns document 6, while
the same query with the filter that accepts every document returns documents 1 to
5 only. -/
theorem C19_banned_document_cut_off :
    SearchServer.Reachable SearchServer.crowd
    ∧ ¬ SearchServer.MalformedQuery (bytes "cat")
    ∧ ¬ ∃ ln : ℚ → ℚ, ∃ docsSt docsAll,
        SearchServer.FindTopDocumentsStatus ln SearchServer.crowd (bytes "cat")
          DocumentStatus.BANNED = Except.ok docsSt
        ∧ SearchServer.FindTopDocuments ln SearchServer.crowd (bytes "cat")
          (fun _ _ _ => true) = Except.ok docsAll
        ∧ ∀ doc ∈ docsSt, doc ∈ docsAll := by
  refine ⟨SearchServer.reachable_crowd, by decide, ?_⟩
  rintro ⟨ln, docsSt, docsAll, h1, h2, h3⟩
  rw [(SearchServer.crowd_results ln).2] at h1
  rw [(SearchServer.crowd_results ln).1] at h2
  cases h1
  cases h2
  have := h3 ⟨6, ln 1, 0⟩ (by simp)
  simp at this

/-- C19 (amended): on a reachable server and a well-formed query, both
`FindTopDocuments` with a status and `FindTopDocuments` with the filter that
accepts every document return a list; every document the status query returns is
among the documents `FindAllDocuments` matches under the accepting filter, which
the accepting query sorts and cuts to five; and it is returned by the accepting
query when at most five live documents qualify under the accepting filter. -/
theorem C19_status_results_within_unfiltered (ln : ℚ → ℚ) (s : SearchServer)
    (hs : SearchServer.Reachable s) (text : Str) (hq : ¬ SearchServer.MalformedQuery text)
    (set_status : DocumentStatus) :
    ∃ docsSt docsAll query matched,
      SearchServer.FindTopDocumentsStatus ln s text set_status = Except.ok docsSt
      ∧ SearchServer.FindTopDocuments ln s text (fun _ _ _ => true) = Except.ok docsAll
      ∧ SearchServer.ParseQuery s text true = Except.ok query
      ∧ SearchServer.FindAllDocuments ln s query (fun _ _ _ => true) = Except.ok matched
      ∧ docsAll = SearchServer.truncateTop (stdSort SearchServer.compareDocuments matched)
      ∧ (∀ doc ∈ docsSt, doc ∈ matched)
      ∧ ((s.document_id_.filter
            (SearchServer.qualifies s text (fun _ _ _ => true))).length ≤ 5 →
          ∀ doc ∈ docsSt, doc ∈ docsAll) := by
  have hinv := SearchServer.inv_of_reachable s hs
  refine ⟨_, _, _, _, SearchServer.findTopDocuments_eq ln s hinv text hq _,
    SearchServer.findTopDocuments_eq ln s hinv text hq _, SearchServer.parseQuery_ok s text hq,
    SearchServer.findAllDocuments_eq ln s hinv _ _, rfl, ?_, ?_⟩
  · intro doc hdoc
    have h1 := (SearchServer.truncateTop_sublist _).subset hdoc
    rw [mem_stdSort] at h1
    exact SearchServer.candidates_accept_all ln s _ _ doc h1
  · intro hlen doc hdoc
    have h1 := (SearchServer.truncateTop_sublist _).subset hdoc
    rw [mem_stdSort] at h1
    have h2 := SearchServer.candidates_accept_all ln s _ _ doc h1
    have hl : (SearchServer.candidates ln s (SearchServer.parsedQuery s text)
        (fun _ _ _ => true)).length ≤ 5 := by
      have := congrArg List.length (SearchServer.candidates_ids ln s text (fun _ _ _ => true))
      rw [List.length_map] at this
      rw [this]
      exact hlen
    rw [SearchServer.truncateTop_of_le _ (by rw [length_stdSort]; exact hl), mem_stdSort]
    exact h2

theorem C19_status_results_within_unfiltered_witness :
    ∃ docsSt docsAll query matched,
      SearchServer.FindTopDocumentsStatus (fun _ => 1) SearchServer.scenario4
        (bytes "groomed -dog") DocumentStatus.BANNED = Except.ok docsSt
      ∧ SearchServer.FindTopDocuments (fun _ => 1) SearchServer.scenario4
        (bytes "groomed -dog") (fun _ _ _ => true) = Except.ok docsAll
      ∧ SearchServer.ParseQuery SearchServer.scenario4 (bytes "groomed -dog") true
        = Except.ok query
      ∧ SearchServer.FindAllDocuments (fun _ => 1) SearchServer.scenario4 query
        (fun _ _ _ => true) = Except.ok matched
      ∧ docsAll = SearchServer.truncateTop (stdSort SearchServer.compareDocuments matched)
      ∧ (∀ doc ∈ docsSt, doc ∈ matched)
      ∧ ((SearchServer.scenario4.document_id_.filter
            (SearchServer.qualifies SearchServer.scenario4 (bytes "groomed -dog")
              (fun _ _ _ => true))).length ≤ 5 →
          ∀ doc ∈ docsSt, doc ∈ docsAll) :=
  C19_status_results_within_unfiltered (fun _ => 1) SearchServer.scenario4
    SearchServer.reachable_scenario4 (bytes "groomed -dog") (by decide) DocumentStatus.BANNED

/-! ## ConcurrentMap against one ordered map -/

namespace OMap
variable {K V : Type} [LinearOrder K]

theorem find?_emplace (k j : K) (v : V) (m : List (K × V)) :
    find? (emplace k v m) j
      = if j = k ∧ (find? m k).isSome = false then some v else find? m j := by
  unfold emplace
  cases hf : find? m k with
  | none =>
    simp only [Option.isSome_none, Bool.false_eq_true, if_false, and_true]
    rw [find?_set]
  | some x =>
    simp only [Option.isSome_some, if_true]
    rw [if_neg (by simp)]

theorem wf_emplace (k : K) (v : V) (m : List (K × V)) (h : WF m) : WF (emplace k v m) := by
  unfold emplace
  split_ifs
  · exact h
  · exact wf_set k v m h

theorem wf_merge (result source : List (K × V)) (h : WF result) : WF (merge result source) := by
  unfold merge
  induction source generalizing result with
  | nil => exact h
  | cons p t ih => rw [List.foldl_cons]; exact ih _ (wf_emplace _ _ _ h)

theorem find?_merge (result source : List (K × V)) (j : K) :
    find? (merge result source) j
      = if (find? result j).isSome then find? result j else find? source j := by
  unfold merge
  induction source generalizing result with
  | nil =>
    simp only [List.foldl_nil, find?]
    cases hf : find? result j <;> simp
  | cons p t ih =>
    obtain ⟨a, v⟩ := p
    rw [List.foldl_cons, ih, find?_emplace]
    simp only [find?]
    by_cases hj : j = a
    · subst hj
      cases hf : find? result j <;> simp
    · simp [hj]

end OMap

namespace ConcurrentMap
variable {V : Type}

theorem getD_set_shard (l : List (List (Int × V))) (i j : Nat) (x : List (Int × V))
    (hi : i < l.length) :
    (l.set i x).getD j [] = if j = i then x else l.getD j [] := by
  simp only [List.getD_eq_getElem?_getD, List.getElem?_set]
  by_cases h : i = j
  · subst h; simp [hi]
  · simp [h, Ne.symm h]

theorem findSome?_shard (l : List (List (Int × V))) (i0 : Nat) (j : Int)
    (h : ∀ i, i ≠ i0 → OMap.find? (l.getD i []) j = none) :
    l.findSome? (fun sh => OMap.find? sh j) = OMap.find? (l.getD i0 []) j := by
  induction l generalizing i0 with
  | nil => simp [OMap.find?]
  | cons a t ih =>
    cases i0 with
    | zero =>
      rw [List.findSome?_cons]
      cases hf : OMap.find? a j with
      | some v => simp [hf]
      | none =>
        simp only [List.getD_cons_zero, hf]
        rw [ih t.length]
        · simp [OMap.find?]
        · intro i hi
          have := h (i + 1) (by omega)
          simpa using this
    | succ n =>
      rw [List.findSome?_cons]
      have h0 := h 0 (by omega)
      simp only [List.getD_cons_zero] at h0
      rw [h0]
      simp only [List.getD_cons_succ]
      apply ih
      intro i hi
      have := h (i + 1) (by omega)
      simpa using this

theorem find?_foldl_merge (shards : List (List (Int × V))) (result : List (Int × V)) (j : Int) :
    OMap.find? (shards.foldl OMap.merge result) j
      = if (OMap.find? result j).isSome then OMap.find? result j
        else shards.findSome? (fun sh => OMap.find? sh j) := by
  induction shards generalizing result with
  | nil =>
    simp only [List.foldl_nil, List.findSome?_nil]
    cases hf : OMap.find? result j <;> simp
  | cons sh t ih =>
    rw [List.foldl_cons, ih, OMap.find?_merge, List.findSome?_cons]
    cases hr : OMap.find? result j with
    | some v => simp
    | none =>
      cases hs : OMap.find? sh j with
      | some v => simp
      | none => simp

theorem wf_foldl_merge (shards : List (List (Int × V))) (result : List (Int × V))
    (h : OMap.WF result) : OMap.WF (shards.foldl OMap.merge result) := by
  induction shards generalizing result with
  | nil => exact h
  | cons sh t ih => rw [List.foldl_cons]; exact ih _ (OMap.wf_merge _ _ h)

theorem wf_buildOrdinaryMap (cm : ConcurrentMap V) : OMap.WF (BuildOrdinaryMap cm) :=
  wf_foldl_merge _ _ OMap.wf_nil

/-- A key is found in the merged map exactly as in its shard. -/
theorem find?_buildOrdinaryMap (cm : ConcurrentMap V) (h : Sharded cm) (j : Int) :
    OMap.find? (BuildOrdinaryMap cm) j
      = OMap.find? (cm.all_maps_.getD (cm.slot j) []) j := by
  unfold BuildOrdinaryMap
  rw [find?_foldl_merge]
  simp only [OMap.find?, Option.isSome_none, Bool.false_eq_true, if_false]
  apply findSome?_shard
  intro i hi
  rw [OMap.find?_eq_none]
  exact fun hk => hi (h.shard_keys i j hk).symm

/-- With at most 2^31 shards the narrowing to `int` changes nothing: the subscript
is the key modulo 2^64, modulo the number of shards. -/
theorem slot_eq (cm : ConcurrentMap V) (h : 0 < cm.all_maps_.length)
    (hle : cm.all_maps_.length ≤ 2147483648) (key : Int) :
    cm.slot key = (key % 18446744073709551616).toNat % cm.all_maps_.length := by
  unfold slot index
  have hpos : (0 : Int) < (cm.all_maps_.length : Int) := by exact_mod_cast h
  have h0 : 0 ≤ key % 18446744073709551616 := Int.emod_nonneg _ (by norm_num)
  have h1 : 0 ≤ (key % 18446744073709551616) % (cm.all_maps_.length : Int) :=
    Int.emod_nonneg _ (ne_of_gt hpos)
  have h2 : (key % 18446744073709551616) % (cm.all_maps_.length : Int)
      < (cm.all_maps_.length : Int) := Int.emod_lt_of_pos _ hpos
  have hle2 : (cm.all_maps_.length : Int) ≤ 2147483648 := by exact_mod_cast hle
  rw [SearchServer.wrapInt32_of_fits _ (by omega) (by omega),
    Int.emod_eq_of_lt h1 (by omega)]
  apply Int.ofNat.inj
  simp only [Int.ofNat_eq_coe]
  rw [Int.toNat_of_nonneg h1, Int.natCast_mod, Int.toNat_of_nonneg h0]

theorem slot_lt (cm : ConcurrentMap V) (h : 0 < cm.all_maps_.length)
    (hle : cm.all_maps_.length ≤ 2147483648) (key : Int) :
    cm.slot key < cm.all_maps_.length := by
  rw [slot_eq cm h hle]
  exact Nat.mod_lt _ h

theorem sharded_create (bucket_count : Nat) (h : 0 < bucket_count)
    (hle : bucket_count ≤ 2147483648) : Sharded (create V bucket_count) := by
  have hg : ∀ i, (List.replicate bucket_count ([] : List (Int × V))).getD i [] = [] := by
    intro i
    rw [List.getD_eq_getElem?_getD, List.getElem?_replicate]
    split_ifs <;> rfl
  constructor
  · simp [create, h]
  · simp [create, hle]
  · intro i
    show OMap.WF ((List.replicate bucket_count []).getD i [])
    rw [hg]; exact OMap.wf_nil
  · intro i key hk
    change key ∈ OMap.keys ((List.replicate bucket_count ([] : List (Int × V))).getD i []) at hk
    rw [hg] at hk
    simp [OMap.keys] at hk

theorem buildOrdinaryMap_create (bucket_count : Nat) :
    BuildOrdinaryMap (create V bucket_count) = [] := by
  unfold BuildOrdinaryMap create
  show List.foldl OMap.merge [] (List.replicate bucket_count []) = []
  induction bucket_count with
  | zero => rfl
  | succ n ih => rw [List.replicate_succ, List.foldl_cons]; exact ih

theorem slot_Access (cm : ConcurrentMap V) (key : Int) (dflt : V) (update : V → V)
    (j : Int) : (Access cm key dflt update).slot j = cm.slot j := by
  unfold slot index Access
  simp

theorem slot_Erase (cm : ConcurrentMap V) (key : Int) (j : Int) :
    (Erase cm key).2.slot j = cm.slot j := by
  unfold slot index Erase
  simp

theorem sharded_Access (cm : ConcurrentMap V) (h : Sharded cm) (key : Int) (dflt : V)
    (update : V → V) : Sharded (Access cm key dflt update) := by
  have hlt := slot_lt cm h.size_pos h.size_le key
  have hg : ∀ i, (Access cm key dflt update).all_maps_.getD i []
      = if i = cm.slot key then
          OMap.set key (update (OMap.getD (cm.all_maps_.getD (cm.slot key) []) key dflt))
            (cm.all_maps_.getD (cm.slot key) [])
        else cm.all_maps_.getD i [] := fun i => getD_set_shard _ _ _ _ hlt
  constructor
  · show 0 < (cm.all_maps_.set _ _).length
    rw [List.length_set]; exact h.size_pos
  · show (cm.all_maps_.set _ _).length ≤ 2147483648
    rw [List.length_set]; exact h.size_le
  · intro i
    rw [hg]
    split_ifs
    · exact OMap.wf_set _ _ _ (h.shard_wf _)
    · exact h.shard_wf i
  · intro i k hk
    rw [slot_Access]
    rw [hg] at hk
    split_ifs at hk with hi
    · rw [OMap.keys_set, OSet.oset_mem_insert] at hk
      rcases hk with rfl | hk
      · exact hi.symm
      · exact h.shard_keys _ _ (hi ▸ hk)
    · exact h.shard_keys i k hk

theorem sharded_Erase (cm : ConcurrentMap V) (h : Sharded cm) (key : Int) :
    Sharded (Erase cm key).2 := by
  have hlt := slot_lt cm h.size_pos h.size_le key
  have hg : ∀ i, (Erase cm key).2.all_maps_.getD i []
      = if i = cm.slot key then OMap.erase key (cm.all_maps_.getD (cm.slot key) [])
        else cm.all_maps_.getD i [] := fun i => getD_set_shard _ _ _ _ hlt
  constructor
  · show 0 < (cm.all_maps_.set _ _).length
    rw [List.length_set]; exact h.size_pos
  · show (cm.all_maps_.set _ _).length ≤ 2147483648
    rw [List.length_set]; exact h.size_le
  · intro i
    rw [hg]
    split_ifs
    · exact OMap.wf_erase _ _ (h.shard_wf _)
    · exact h.shard_wf i
  · intro i k hk
    rw [slot_Erase]
    rw [hg] at hk
    split_ifs at hk with hi
    · have hk2 : k ∈ OMap.keys (cm.all_maps_.getD (cm.slot key) []) := by
        unfold OMap.keys at hk ⊢
        rw [List.mem_map] at hk ⊢
        obtain ⟨p, hp, rfl⟩ := hk
        exact ⟨p, OMap.mem_erase _ _ _ hp, rfl⟩
      exact h.shard_keys _ _ (hi ▸ hk2)
    · exact h.shard_keys i k hk

/-- An update through `operator[]` is the same update on the merged map. -/
theorem buildOrdinaryMap_Access (cm : ConcurrentMap V) (h : Sharded cm) (key : Int) (dflt : V)
    (update : V → V) :
    BuildOrdinaryMap (Access cm key dflt update)
      = OMap.set key (update (OMap.getD (BuildOrdinaryMap cm) key dflt)) (BuildOrdinaryMap cm) := by
  have hlt := slot_lt cm h.size_pos h.size_le key
  apply OMap.ext _ _ (wf_buildOrdinaryMap _) (OMap.wf_set _ _ _ (wf_buildOrdinaryMap _))
  intro j
  rw [find?_buildOrdinaryMap _ (sharded_Access cm h key dflt update), slot_Access,
    OMap.find?_set, find?_buildOrdinaryMap cm h j]
  have hg : (Access cm key dflt update).all_maps_.getD (cm.slot j) []
      = if cm.slot j = cm.slot key then
          OMap.set key (update (OMap.getD (cm.all_maps_.getD (cm.slot key) []) key dflt))
            (cm.all_maps_.getD (cm.slot key) [])
        else cm.all_maps_.getD (cm.slot j) [] := getD_set_shard _ _ _ _ hlt
  rw [hg]
  have hd : OMap.getD (BuildOrdinaryMap cm) key dflt
      = OMap.getD (cm.all_maps_.getD (cm.slot key) []) key dflt := by
    unfold OMap.getD
    rw [find?_buildOrdinaryMap cm h key]
  rw [hd]
  by_cases hj : j = key
  · subst hj
    rw [if_pos rfl, if_pos rfl, OMap.find?_set, if_pos rfl]
  · rw [if_neg hj]
    split_ifs with hi
    · rw [OMap.find?_set, if_neg hj, hi]
    · rfl

/-- Member `Erase` is `erase` on the merged map. -/
theorem buildOrdinaryMap_Erase (cm : ConcurrentMap V) (h : Sharded cm) (key : Int) :
    BuildOrdinaryMap (Erase cm key).2 = OMap.erase key (BuildOrdinaryMap cm) := by
  have hlt := slot_lt cm h.size_pos h.size_le key
  apply OMap.ext _ _ (wf_buildOrdinaryMap _) (OMap.wf_erase _ _ (wf_buildOrdinaryMap _))
  intro j
  rw [find?_buildOrdinaryMap _ (sharded_Erase cm h key), slot_Erase,
    OMap.find?_erase, find?_buildOrdinaryMap cm h j]
  have hg : (Erase cm key).2.all_maps_.getD (cm.slot j) []
      = if cm.slot j = cm.slot key then OMap.erase key (cm.all_maps_.getD (cm.slot key) [])
        else cm.all_maps_.getD (cm.slot j) [] := getD_set_shard _ _ _ _ hlt
  rw [hg]
  by_cases hj : j = key
  · subst hj
    rw [if_pos rfl, if_pos rfl, OMap.find?_erase, if_pos rfl]
  · rw [if_neg hj]
    split_ifs with hi
    · rw [OMap.find?_erase, if_neg hj, hi]
    · rfl

end ConcurrentMap

/-! ## The overloads with an execution policy against the sequential ones -/

namespace SearchServer

theorem accumulateWordPolicy_sim (s : SearchServer)
    (predicate : Int → DocumentStatus → Int → Bool) (idf : ℚ) (inner : List (Int × ℚ))
    (cm : ConcurrentMap ℚ) (h : ConcurrentMap.Sharded cm) :
    (∀ e, accumulateWordPolicy s predicate idf inner cm = .error e →
      accumulateWord s predicate idf inner (ConcurrentMap.BuildOrdinaryMap cm) = .error e)
    ∧ ∀ cm1, accumulateWordPolicy s predicate idf inner cm = .ok cm1 →
      ConcurrentMap.Sharded cm1
      ∧ accumulateWord s predicate idf inner (ConcurrentMap.BuildOrdinaryMap cm)
          = .ok (ConcurrentMap.BuildOrdinaryMap cm1) := by
  induction inner generalizing cm with
  | nil =>
    constructor
    · intro e he; cases he
    · intro cm1 h1
      simp only [accumulateWordPolicy, Except.ok.injEq] at h1
      subst h1
      exact ⟨h, rfl⟩
  | cons p rest ih =>
    obtain ⟨document_id, term_freq⟩ := p
    unfold accumulateWordPolicy accumulateWord
    cases hf : OMap.find? s.documents_ document_id with
    | none =>
      simp only
      constructor
      · intro e he; cases he; rfl
      · intro cm1 h1; cases h1
    | some document =>
      simp only
      split_ifs with hp
      · have hb : ConcurrentMap.BuildOrdinaryMap (ConcurrentMap.Access cm document_id 0
              (fun ref_to_value => ref_to_value + term_freq * idf))
            = OMap.set document_id
                (OMap.getD (ConcurrentMap.BuildOrdinaryMap cm) document_id 0 + term_freq * idf)
                (ConcurrentMap.BuildOrdinaryMap cm) :=
          ConcurrentMap.buildOrdinaryMap_Access cm h document_id 0 _
        rw [← hb]
        exact ih _ (ConcurrentMap.sharded_Access cm h _ _ _)
      · exact ih cm h

theorem accumulatePlusPolicy_sim (ln : ℚ → ℚ) (s : SearchServer)
    (predicate : Int → DocumentStatus → Int → Bool) (words : List Str)
    (cm : ConcurrentMap ℚ) (h : ConcurrentMap.Sharded cm) :
    (∀ e, accumulatePlusPolicy ln s predicate words cm = .error e →
      accumulatePlus ln s predicate words (ConcurrentMap.BuildOrdinaryMap cm) = .error e)
    ∧ ∀ cm1, accumulatePlusPolicy ln s predicate words cm = .ok cm1 →
      ConcurrentMap.Sharded cm1
      ∧ accumulatePlus ln s predicate words (ConcurrentMap.BuildOrdinaryMap cm)
          = .ok (ConcurrentMap.BuildOrdinaryMap cm1) := by
  induction words generalizing cm with
  | nil =>
    constructor
    · intro e he; cases he
    · intro cm1 h1
      simp only [accumulatePlusPolicy, Except.ok.injEq] at h1
      subst h1
      exact ⟨h, rfl⟩
  | cons word rest ih =>
    unfold accumulatePlusPolicy accumulatePlus
    cases hf : OMap.find? s.word_to_document_freqs_ word with
    | none => exact ih cm h
    | some inner =>
      simp only
      cases hidf : ComputeWordInverseDocumentFreq ln s word with
      | error e0 =>
        simp only
        constructor
        · intro e he; cases he; rfl
        · intro cm1 h1; cases h1
      | ok idf =>
        simp only
        obtain ⟨he, hok⟩ := accumulateWordPolicy_sim s predicate idf inner cm h
        cases hw : accumulateWordPolicy s predicate idf inner cm with
        | error e0 =>
          rw [he e0 hw]
          simp only
          constructor
          · intro e he2; cases he2; rfl
          · intro cm1 h1; cases h1
        | ok cm2 =>
          obtain ⟨hs2, hacc⟩ := hok cm2 hw
          rw [hacc]
          exact ih cm2 hs2

theorem foldl_Erase_sim (inner : List (Int × ℚ)) (cm : ConcurrentMap ℚ)
    (h : ConcurrentMap.Sharded cm) :
    ConcurrentMap.Sharded (inner.foldl (fun a p => (ConcurrentMap.Erase a p.1).2) cm)
    ∧ ConcurrentMap.BuildOrdinaryMap (inner.foldl (fun a p => (ConcurrentMap.Erase a p.1).2) cm)
        = inner.foldl (fun a p => OMap.erase p.1 a) (ConcurrentMap.BuildOrdinaryMap cm) := by
  induction inner generalizing cm with
  | nil => exact ⟨h, rfl⟩
  | cons p rest ih =>
    rw [List.foldl_cons, List.foldl_cons, ← ConcurrentMap.buildOrdinaryMap_Erase cm h]
    exact ih _ (ConcurrentMap.sharded_Erase cm h _)

theorem eraseMinusPolicy_sim (s : SearchServer) (words : List Str) (cm : ConcurrentMap ℚ)
    (h : ConcurrentMap.Sharded cm) :
    ConcurrentMap.Sharded (eraseMinusPolicy s words cm)
    ∧ ConcurrentMap.BuildOrdinaryMap (eraseMinusPolicy s words cm)
        = eraseMinus s words (ConcurrentMap.BuildOrdinaryMap cm) := by
  induction words generalizing cm with
  | nil => exact ⟨h, rfl⟩
  | cons word rest ih =>
    unfold eraseMinusPolicy eraseMinus
    cases hf : OMap.find? s.word_to_document_freqs_ word with
    | none => exact ih cm h
    | some inner =>
      simp only
      obtain ⟨h1, h2⟩ := foldl_Erase_sim inner cm h
      rw [← h2]
      exact ih _ h1

/-- The policy overload of `FindAllDocuments` returns what the sequential one
returns whenever no function object of its `for_each` calls throws, as on every
state that satisfies the invariants. -/
theorem findAllDocumentsPolicy_eq (ln : ℚ → ℚ) (s : SearchServer) (hs : Inv s) (query : Query)
    (predicate : Int → DocumentStatus → Int → Bool) :
    FindAllDocumentsPolicy ln s query predicate
      = some (FindAllDocuments ln s query predicate) := by
  obtain ⟨acc1, hacc, -, -⟩ := accumulatePlus_spec ln s hs predicate query.plus_words []
  have hsh : ConcurrentMap.Sharded (ConcurrentMap.create ℚ 100) :=
    ConcurrentMap.sharded_create 100 (by decide) (by decide)
  obtain ⟨he, hok⟩ := accumulatePlusPolicy_sim ln s predicate query.plus_words _ hsh
  rw [ConcurrentMap.buildOrdinaryMap_create] at he hok
  unfold FindAllDocumentsPolicy FindAllDocuments
  cases hp : accumulatePlusPolicy ln s predicate query.plus_words (ConcurrentMap.create ℚ 100) with
  | error e =>
    have := he e hp
    rw [hacc] at this
    cases this
  | ok cm1 =>
    obtain ⟨hs1, h1⟩ := hok cm1 hp
    rw [h1]
    simp only
    rw [(eraseMinusPolicy_sim s query.minus_words cm1 hs1).2]

end SearchServer

/-- C20: on a reachable server, for every query text (malformed ones included) and
every filter, the policy overload of `FindTopDocuments`, which accumulates in the
100-shard `ConcurrentMap` with its loops taken in sequence order, returns, and its
outcome is that of the sequential `FindTopDocuments`: the same list of documents in
the same order, or the same failure. -/
theorem C20_policy_search_agrees (ln : ℚ → ℚ) (s : SearchServer)
    (hs : SearchServer.Reachable s) (raw_query : Str)
    (predicate : Int → DocumentStatus → Int → Bool) :
    SearchServer.FindTopDocumentsPolicy ln s raw_query predicate
      = some (SearchServer.FindTopDocuments ln s raw_query predicate) := by
  have hinv := SearchServer.inv_of_reachable s hs
  unfold SearchServer.FindTopDocumentsPolicy SearchServer.FindTopDocuments
  cases hq : SearchServer.ParseQuery s raw_query true with
  | error e => rfl
  | ok query =>
    simp only
    rw [SearchServer.findAllDocumentsPolicy_eq ln s hinv query predicate]
    cases SearchServer.FindAllDocuments ln s query predicate with
    | error e => rfl
    | ok matched =>
      simp only
      split_ifs <;> rfl

theorem C20_policy_search_agrees_witness :
    SearchServer.FindTopDocumentsPolicy (fun _ => 1) SearchServer.scenario4
        (bytes "fluffy groomed cat -collar")
        (fun _ status _ => decide (status = DocumentStatus.ACTUAL))
      = some (SearchServer.FindTopDocuments (fun _ => 1) SearchServer.scenario4
        (bytes "fluffy groomed cat -collar")
        (fun _ status _ => decide (status = DocumentStatus.ACTUAL))) :=
  C20_policy_search_agrees (fun _ => 1) SearchServer.scenario4
    SearchServer.reachable_scenario4 (bytes "fluffy groomed cat -collar")
    (fun _ status _ => decide (status = DocumentStatus.ACTUAL))

/-! ## RemoveDuplicates -/

namespace SearchServer

theorem wordSet_spec (s : SearchServer) (d : Int) :
    (wordSet s d).Sorted (· < ·)
    ∧ ∀ w, w ∈ wordSet s d ↔ w ∈ OMap.keys (GetWordFrequencies s d) := by
  unfold wordSet
  have key : ∀ (l : List (Str × ℚ)) (acc : List Str), acc.Sorted (· < ·) →
      (l.foldl (fun words pair => OSet.insert pair.1 words) acc).Sorted (· < ·)
      ∧ ∀ w, w ∈ l.foldl (fun words pair => OSet.insert pair.1 words) acc
          ↔ w ∈ acc ∨ w ∈ OMap.keys l := by
    intro l
    induction l with
    | nil => intro acc h; exact ⟨h, fun w => by simp [OMap.keys]⟩
    | cons p t ih =>
      intro acc h
      rw [List.foldl_cons]
      obtain ⟨h1, h2⟩ := ih (OSet.insert p.1 acc) (OSet.oset_sorted_insert _ _ h)
      refine ⟨h1, fun w => ?_⟩
      rw [h2, OSet.oset_mem_insert]
      simp only [OMap.keys, List.map_cons, List.mem_cons]
      tauto
  obtain ⟨h1, h2⟩ := key (GetWordFrequencies s d) [] (List.sorted_nil)
  exact ⟨h1, fun w => by rw [h2]; simp⟩

/-- Two documents have the same `wordSet` exactly when they have the same indexed
words. -/
theorem wordSet_eq_iff (s : SearchServer) (d e : Int) :
    wordSet s e = wordSet s d
      ↔ ∀ w, w ∈ OMap.keys (GetWordFrequencies s e) ↔ w ∈ OMap.keys (GetWordFrequencies s d) := by
  obtain ⟨h1, h2⟩ := wordSet_spec s d
  obtain ⟨h3, h4⟩ := wordSet_spec s e
  constructor
  · intro h w
    rw [← h2, ← h4, h]
  · intro h
    apply List.eq_of_perm_of_sorted _ h3 h1
    rw [List.perm_ext_iff_of_nodup h3.nodup h1.nodup]
    intro w
    rw [h2, h4, h]

/-- The first loop of `RemoveDuplicates` on an ascending id list. -/
theorem findDuplicates_spec (s : SearchServer) (l pre : List Int) (set_words : List (List Str))
    (duplicates_id : List Int) (hsorted : (pre ++ l).Sorted (· < ·))
    (hseen : ∀ ws, ws ∈ set_words ↔ ∃ e ∈ pre, wordSet s e = ws)
    (hd : duplicates_id.Sorted (· < ·)) :
    (findDuplicates s l set_words duplicates_id).Sorted (· < ·)
    ∧ ∀ d, d ∈ findDuplicates s l set_words duplicates_id
        ↔ d ∈ duplicates_id
          ∨ (d ∈ l ∧ ∃ e ∈ pre ++ l, e < d ∧ wordSet s e = wordSet s d) := by
  induction l generalizing pre set_words duplicates_id with
  | nil => exact ⟨hd, fun d => by simp [findDuplicates]⟩
  | cons a t ih =>
    have hsorted2 : ((pre ++ [a]) ++ t).Sorted (· < ·) := by
      rw [List.append_assoc]; exact hsorted
    have hpw := List.pairwise_append.1 hsorted
    have hpre_lt : ∀ e ∈ pre, e < a := fun e he => hpw.2.2 e he a (List.mem_cons_self _ _)
    have ht_gt : ∀ e ∈ t, a < e := fun e he => (List.pairwise_cons.1 hpw.2.1).1 e he
    have hbefore : ∀ e, e ∈ pre ++ a :: t → e < a → e ∈ pre := by
      intro e he hlt
      rcases List.mem_append.1 he with h | h
      · exact h
      · rcases List.mem_cons.1 h with rfl | h
        · exact absurd hlt (lt_irrefl _)
        · exact absurd (lt_trans hlt (ht_gt e h)) (lt_irrefl _)
    have hmem2 : ∀ e, e ∈ (pre ++ [a]) ++ t ↔ e ∈ pre ++ a :: t := by
      intro e; rw [List.append_assoc]; rfl
    unfold findDuplicates
    by_cases hin : wordSet s a ∈ set_words
    · simp only [hin, decide_True, if_true]
      have hseen2 : ∀ ws, ws ∈ set_words ↔ ∃ e ∈ pre ++ [a], wordSet s e = ws := by
        intro ws
        rw [hseen ws]
        constructor
        · rintro ⟨e, he, rfl⟩; exact ⟨e, List.mem_append_left _ he, rfl⟩
        · rintro ⟨e, he, rfl⟩
          rcases List.mem_append.1 he with h | h
          · exact ⟨e, h, rfl⟩
          · rw [List.mem_singleton] at h
            subst h
            exact (hseen _).1 hin
      obtain ⟨h1, h2⟩ := ih (pre ++ [a]) set_words (OSet.insert a duplicates_id) hsorted2 hseen2
        (OSet.oset_sorted_insert _ _ hd)
      refine ⟨h1, fun d => ?_⟩
      rw [h2, OSet.oset_mem_insert]
      simp only [hmem2, List.mem_cons]
      constructor
      · rintro ((rfl | h) | ⟨h, hex⟩)
        · obtain ⟨e, he, hw⟩ := (hseen _).1 hin
          exact Or.inr ⟨Or.inl rfl, e, List.mem_append_left _ he, hpre_lt e he, hw⟩
        · exact Or.inl h
        · exact Or.inr ⟨Or.inr h, hex⟩
      · rintro (h | ⟨rfl | h, hex⟩)
        · exact Or.inl (Or.inr h)
        · exact Or.inl (Or.inl rfl)
        · exact Or.inr ⟨h, hex⟩
    · simp only [hin, decide_False, Bool.false_eq_true, if_false]
      have hseen2 : ∀ ws, ws ∈ OSet.insert (wordSet s a) set_words
          ↔ ∃ e ∈ pre ++ [a], wordSet s e = ws := by
        intro ws
        rw [OSet.oset_mem_insert, hseen ws]
        constructor
        · rintro (rfl | ⟨e, he, rfl⟩)
          · exact ⟨a, by simp, rfl⟩
          · exact ⟨e, List.mem_append_left _ he, rfl⟩
        · rintro ⟨e, he, rfl⟩
          rcases List.mem_append.1 he with h | h
          · exact Or.inr ⟨e, h, rfl⟩
          · rw [List.mem_singleton] at h
            subst h
            exact Or.inl rfl
      obtain ⟨h1, h2⟩ := ih (pre ++ [a]) (OSet.insert (wordSet s a) set_words) duplicates_id
        hsorted2 hseen2 hd
      refine ⟨h1, fun d => ?_⟩
      rw [h2]
      simp only [hmem2, List.mem_cons]
      constructor
      · rintro (h | ⟨h, hex⟩)
        · exact Or.inl h
        · exact Or.inr ⟨Or.inr h, hex⟩
      · rintro (h | ⟨rfl | h, hex⟩)
        · exact Or.inl h
        · exfalso
          obtain ⟨e, he, hlt, hw⟩ := hex
          exact hin ((hseen _).2 ⟨e, hbefore e he hlt, hw⟩)
        · exact Or.inr ⟨h, hex⟩

/-- The ids that `RemoveDuplicates` finds: ascending, and exactly the live ids with an
earlier twin. -/
theorem findDuplicates_ids (s : SearchServer) (hs : Inv s) :
    (findDuplicates s s.document_id_ [] []).Sorted (· < ·)
    ∧ ∀ d, d ∈ findDuplicates s s.document_id_ [] []
        ↔ d ∈ s.document_id_ ∧ hasEarlierTwin s d = true := by
  obtain ⟨h1, h2⟩ := findDuplicates_spec s s.document_id_ [] [] []
    (by simpa using hs.ids_sorted) (by simp) List.sorted_nil
  refine ⟨h1, fun d => ?_⟩
  rw [h2]
  simp only [List.not_mem_nil, false_or, List.nil_append, hasEarlierTwin, List.any_eq_true,
    Bool.and_eq_true, decide_eq_true_eq]

end SearchServer

namespace SearchServer

/-- What one call of `RemoveDocument` leaves of the id set, the metadata and the
word frequencies, on a state that satisfies the invariants. -/
theorem removeDocument_frame (s : SearchServer) (hs : Inv s) (document_id : Int) :
    (∀ d, d ∈ (RemoveDocument s document_id).document_id_
        ↔ d ∈ s.document_id_ ∧ d ≠ document_id)
    ∧ (∀ d, OMap.find? (RemoveDocument s document_id).documents_ d
        = if d = document_id then none else OMap.find? s.documents_ d)
    ∧ (∀ d, GetWordFrequencies (RemoveDocument s document_id) d
        = if d = document_id then [] else GetWordFrequencies s d) := by
  by_cases hid : document_id ∈ s.document_id_
  · obtain ⟨h1, -, h3, -, h5⟩ := removeDocument_spec s hs document_id hid
    refine ⟨fun d => ?_, fun d => ?_, fun d => ?_⟩
    · by_cases hd : d = document_id
      · subst hd; simp [h1]
      · rw [(h5 d hd).1]; simp [hd]
    · by_cases hd : d = document_id
      · subst hd
        rw [if_pos rfl, OMap.find?_eq_none, (inv_removeDocument s d hs).docs_keys]
        exact h1
      · rw [if_neg hd, (h5 d hd).2.1]
    · by_cases hd : d = document_id
      · subst hd; rw [if_pos rfl, h3]
      · rw [if_neg hd, (h5 d hd).2.2]
  · rw [removeDocument_not_live s document_id hid]
    refine ⟨fun d => ?_, fun d => ?_, fun d => ?_⟩
    · constructor
      · intro h; exact ⟨h, fun hd => hid (hd ▸ h)⟩
      · exact fun h => h.1
    · split_ifs with hd
      · subst hd
        rw [OMap.find?_eq_none, hs.docs_keys]; exact hid
      · rfl
    · split_ifs with hd
      · subst hd
        unfold GetWordFrequencies
        rw [(OMap.find?_eq_none _ d).2 (fun hk => hid (hs.d2w_keys d hk))]
      · rfl

/-- The second loop of `RemoveDuplicates`. -/
theorem removeFound_spec (ids : List Int) (printed : List Int) (s : SearchServer) (hs : Inv s) :
    (removeFound ids (printed, s)).1 = printed ++ ids
    ∧ Inv (removeFound ids (printed, s)).2
    ∧ (∀ d, d ∈ (removeFound ids (printed, s)).2.document_id_
        ↔ d ∈ s.document_id_ ∧ d ∉ ids)
    ∧ (∀ d, OMap.find? (removeFound ids (printed, s)).2.documents_ d
        = if d ∈ ids then none else OMap.find? s.documents_ d)
    ∧ (∀ d, GetWordFrequencies (removeFound ids (printed, s)).2 d
        = if d ∈ ids then [] else GetWordFrequencies s d) := by
  induction ids generalizing printed s with
  | nil => exact ⟨by simp [removeFound], hs, by simp [removeFound], by simp [removeFound],
      by simp [removeFound]⟩
  | cons a t ih =>
    obtain ⟨f1, f2, f3⟩ := removeDocument_frame s hs a
    obtain ⟨h1, h2, h3, h4, h5⟩ := ih (printed ++ [a]) (RemoveDocument s a)
      (inv_removeDocument s a hs)
    rw [removeFound]
    refine ⟨by rw [h1]; simp, h2, fun d => ?_, fun d => ?_, fun d => ?_⟩
    · rw [h3, f1]; simp only [List.mem_cons]; tauto
    · rw [h4, f2]
      by_cases hd : d = a
      · subst hd; simp
      · simp [hd]
    · rw [h5, f3]
      by_cases hd : d = a
      · subst hd; simp
      · simp [hd]

theorem reachable_scenario5 : Reachable scenario5 :=
  Reachable.add _ _ _ _ _ reachable_scenario4

end SearchServer

/-- C21: on a reachable server `RemoveDuplicates` prints the ids it removes in
strictly ascending order, one line each; a document is live afterwards exactly when
it was live and no live document with a smaller id has the same set of indexed
words; the printed ids are exactly the live ids with such a twin; every document
that is not printed keeps its status, rating and word frequencies, and a printed
one has no metadata and no word frequencies left. Two documents have the same word
set exactly when the same words are keys of their `GetWordFrequencies`. After
id 5 "fluffy cat fluffy tail" is added to the scenario corpus, exactly id 5 is
printed and removed. -/
theorem C21_remove_duplicates (s : SearchServer) (hs : SearchServer.Reachable s) :
    (SearchServer.RemoveDuplicates s).1.Sorted (· < ·)
    ∧ (∀ d, d ∈ (SearchServer.RemoveDuplicates s).1
        ↔ d ∈ s.document_id_ ∧ ∃ e ∈ s.document_id_, e < d
            ∧ ∀ w, w ∈ OMap.keys (SearchServer.GetWordFrequencies s e)
                ↔ w ∈ OMap.keys (SearchServer.GetWordFrequencies s d))
    ∧ (∀ d, d ∈ (SearchServer.RemoveDuplicates s).2.document_id_
        ↔ d ∈ s.document_id_ ∧ d ∉ (SearchServer.RemoveDuplicates s).1)
    ∧ (∀ d, d ∉ (SearchServer.RemoveDuplicates s).1 →
        OMap.find? (SearchServer.RemoveDuplicates s).2.documents_ d = OMap.find? s.documents_ d
        ∧ SearchServer.GetWordFrequencies (SearchServer.RemoveDuplicates s).2 d
            = SearchServer.GetWordFrequencies s d)
    ∧ (∀ d, d ∈ (SearchServer.RemoveDuplicates s).1 →
        OMap.find? (SearchServer.RemoveDuplicates s).2.documents_ d = none
        ∧ SearchServer.GetWordFrequencies (SearchServer.RemoveDuplicates s).2 d = [])
    ∧ (SearchServer.RemoveDuplicates SearchServer.scenario5).1 = [5]
    ∧ (SearchServer.RemoveDuplicates SearchServer.scenario5).2.document_id_ = [1, 2, 3, 4] := by
  have hinv := SearchServer.inv_of_reachable s hs
  obtain ⟨d1, d2⟩ := SearchServer.findDuplicates_ids s hinv
  obtain ⟨r1, -, r3, r4, r5⟩ := SearchServer.removeFound_spec
    (SearchServer.findDuplicates s s.document_id_ [] []) [] s hinv
  have hout : (SearchServer.RemoveDuplicates s).1
      = SearchServer.findDuplicates s s.document_id_ [] [] := by
    unfold SearchServer.RemoveDuplicates
    rw [r1]; rfl
  refine ⟨by rw [hout]; exact d1, fun d => ?_, fun d => ?_, fun d hd => ?_, fun d hd => ?_,
    by decide!, by decide!⟩
  · rw [hout, d2]
    simp only [SearchServer.hasEarlierTwin, List.any_eq_true, Bool.and_eq_true,
      decide_eq_true_eq, SearchServer.wordSet_eq_iff]
  · rw [hout]; exact r3 d
  · rw [hout] at hd
    constructor
    · show OMap.find? (SearchServer.removeFound _ _).2.documents_ d = _
      rw [r4, if_neg hd]
    · show SearchServer.GetWordFrequencies (SearchServer.removeFound _ _).2 d = _
      rw [r5, if_neg hd]
  · rw [hout] at hd
    constructor
    · show OMap.find? (SearchServer.removeFound _ _).2.documents_ d = _
      rw [r4, if_pos hd]
    · show SearchServer.GetWordFrequencies (SearchServer.removeFound _ _).2 d = _
      rw [r5, if_pos hd]

/-- Witness of C21: the scenario corpus with the fifth document. -/
theorem C21_remove_duplicates_witness :
    (SearchServer.RemoveDuplicates SearchServer.scenario5).1.Sorted (· < ·)
    ∧ (∀ d, d ∈ (SearchServer.RemoveDuplicates SearchServer.scenario5).1
        ↔ d ∈ SearchServer.scenario5.document_id_ ∧ ∃ e ∈ SearchServer.scenario5.document_id_,
            e < d
            ∧ ∀ w, w ∈ OMap.keys (SearchServer.GetWordFrequencies SearchServer.scenario5 e)
                ↔ w ∈ OMap.keys (SearchServer.GetWordFrequencies SearchServer.scenario5 d)) :=
  have h := C21_remove_duplicates SearchServer.scenario5 SearchServer.reachable_scenario5
  ⟨h.1, h.2.1⟩

/-! ## SplitIntoWords returns the maximal runs of non-space bytes -/

theorem takeWhile_not_space (text : Str) :
    ∀ b ∈ text.takeWhile (fun x => !decide (x = SPACE)), ¬ ((b == SPACE) = true) := by
  intro b hb
  have := List.mem_takeWhile_imp hb
  simpa using this

theorem filter_splitOn_dropWhile (text : Str) :
    ((text.dropWhile (fun x => decide (x = SPACE))).splitOn SPACE).filter (fun w => decide (w ≠ []))
      = (text.splitOn SPACE).filter (fun w => decide (w ≠ [])) := by
  induction text with
  | nil => rfl
  | cons b t ih =>
    by_cases hb : b = SPACE
    · subst hb
      rw [List.dropWhile_cons]
      simp only [decide_True, if_true, ih]
      unfold List.splitOn
      rw [List.splitOnP_cons]
      simp
    · rw [List.dropWhile_cons]
      simp [hb]

theorem dropWhile_not_space_cases (text : Str) :
    text.dropWhile (fun x => !decide (x = SPACE)) = []
    ∨ ∃ r, text.dropWhile (fun x => !decide (x = SPACE)) = SPACE :: r := by
  cases h : text.dropWhile (fun x => !decide (x = SPACE)) with
  | nil => exact Or.inl rfl
  | cons c r =>
    right
    have := List.head?_dropWhile_not (fun x => !decide (x = SPACE)) text
    rw [h] at this
    simp at this
    exact ⟨r, by rw [this]⟩

/-- The loop of `SplitIntoWords`, with enough fuel, on a text that does not begin
with a space. -/
theorem loop_eq_splitOn (fuel : Nat) (text : Str) (hfuel : text.length ≤ fuel)
    (hstart : text.head? ≠ some SPACE) :
    SplitIntoWordsLoop fuel text = (text.splitOn SPACE).filter (fun w => decide (w ≠ [])) := by
  induction fuel generalizing text with
  | zero =>
    have ht : text = [] := List.length_eq_zero.1 (Nat.le_zero.1 hfuel)
    subst ht
    rfl
  | succ fuel ih =>
    rw [splitIntoWordsLoop_succ]
    split_ifs with ht
    · subst ht; rfl
    · have hlt := length_rest_lt text ht
      have hrest := ih ((text.dropWhile (fun x => !decide (x = SPACE))).dropWhile
        (fun x => decide (x = SPACE))) (by omega) (head?_dropWhile_space _)
      rw [hrest, filter_splitOn_dropWhile]
      have hw : text.takeWhile (fun x => !decide (x = SPACE)) ≠ [] := by
        cases text with
        | nil => exact absurd rfl ht
        | cons b t =>
          have hb : b ≠ SPACE := by simpa using hstart
          simp [List.takeWhile_cons, hb]
      have hsplit := List.takeWhile_append_dropWhile (fun x => !decide (x = SPACE)) text
      rcases dropWhile_not_space_cases text with h0 | ⟨r, hr⟩
      · rw [h0] at hsplit ⊢
        rw [List.append_nil] at hsplit
        rw [hsplit] at hw
        have hall : ∀ b ∈ text, ¬ ((b == SPACE) = true) := by
          intro b hb
          rw [← hsplit] at hb
          exact takeWhile_not_space text b hb
        rw [hsplit]
        unfold List.splitOn
        rw [List.splitOnP_eq_single _ _ hall]
        simp [hw]
      · rw [hr] at hsplit ⊢
        conv_rhs => rw [← hsplit]
        unfold List.splitOn
        rw [List.splitOnP_first _ _ (takeWhile_not_space text) SPACE (by simp) r,
          List.splitOnP_cons]
        simp [hw]

/-- Function `SplitIntoWords` returns the non-empty pieces between the spaces. -/
theorem splitIntoWords_eq_splitOn (text : Str) :
    SplitIntoWords text = (text.splitOn SPACE).filter (fun w => decide (w ≠ [])) := by
  rw [splitIntoWords_eq, loop_eq_splitOn _ _ (le_refl _) (head?_dropWhile_space text),
    filter_splitOn_dropWhile]

theorem squeezeSpaces_cons_of_ne (b : Nat) (t : Str) (hb : b ≠ SPACE) :
    squeezeSpaces (b :: t) = b :: squeezeSpaces t := by
  cases t with
  | nil => simp [squeezeSpaces, hb]
  | cons c t => simp [squeezeSpaces, hb]

theorem squeezeSpaces_append (w r : Str) (hw : ∀ b ∈ w, b ≠ SPACE) :
    squeezeSpaces (w ++ r) = w ++ squeezeSpaces r := by
  induction w with
  | nil => rfl
  | cons b t ih =>
    rw [List.cons_append, squeezeSpaces_cons_of_ne b _ (hw b (List.mem_cons_self _ _)),
      ih (fun c hc => hw c (List.mem_cons_of_mem _ hc)), List.cons_append]

theorem squeezeSpaces_space (r : Str) :
    squeezeSpaces (SPACE :: r)
      = if r.dropWhile (fun x => decide (x = SPACE)) = [] then []
        else SPACE :: squeezeSpaces (r.dropWhile (fun x => decide (x = SPACE))) := by
  induction r with
  | nil => simp [squeezeSpaces]
  | cons c t ih =>
    by_cases hc : c = SPACE
    · subst hc
      have h1 : squeezeSpaces (SPACE :: SPACE :: t) = squeezeSpaces (SPACE :: t) := by
        simp [squeezeSpaces]
      rw [h1, ih, List.dropWhile_cons]
      simp
    · have h1 : squeezeSpaces (SPACE :: c :: t) = SPACE :: squeezeSpaces (c :: t) := by
        simp [squeezeSpaces, hc]
      rw [h1, List.dropWhile_cons]
      simp [hc]

theorem joinWords_cons (w : Str) (words : List Str) :
    joinWords (w :: words) = if words = [] then w else w ++ SPACE :: joinWords words := by
  cases words with
  | nil => simp [joinWords, List.intercalate, List.intersperse]
  | cons v t => simp [joinWords, List.intercalate, List.intersperse]

/-- The words of the loop joined with single spaces, on a text that does not begin
with a space. -/
theorem joinWords_loop (fuel : Nat) (text : Str) (hfuel : text.length ≤ fuel)
    (hstart : text.head? ≠ some SPACE) :
    joinWords (SplitIntoWordsLoop fuel text) = squeezeSpaces text := by
  induction fuel generalizing text with
  | zero =>
    have ht : text = [] := List.length_eq_zero.1 (Nat.le_zero.1 hfuel)
    subst ht
    rfl
  | succ fuel ih =>
    rw [splitIntoWordsLoop_succ]
    split_ifs with ht
    · subst ht; rfl
    · have hlt := length_rest_lt text ht
      have hrest := ih ((text.dropWhile (fun x => !decide (x = SPACE))).dropWhile
        (fun x => decide (x = SPACE))) (by omega) (head?_dropWhile_space _)
      have hwsp : ∀ b ∈ text.takeWhile (fun x => !decide (x = SPACE)), b ≠ SPACE := by
        intro b hb
        simpa using takeWhile_not_space text b hb
      have hsplit := List.takeWhile_append_dropWhile (fun x => !decide (x = SPACE)) text
      have hsq : squeezeSpaces text
          = text.takeWhile (fun x => !decide (x = SPACE))
            ++ squeezeSpaces (text.dropWhile (fun x => !decide (x = SPACE))) := by
        conv_lhs => rw [← hsplit]
        exact squeezeSpaces_append _ _ hwsp
      rw [joinWords_cons, hrest, hsq]
      rcases dropWhile_not_space_cases text with h0 | ⟨r, hr⟩
      · rw [h0]
        cases fuel <;> simp [SplitIntoWordsLoop, squeezeSpaces]
      · rw [hr, squeezeSpaces_space, List.dropWhile_cons]
        simp only [decide_True, if_true]
        by_cases hnil : r.dropWhile (fun x => decide (x = SPACE)) = []
        · rw [hnil]
          cases fuel <;> simp [SplitIntoWordsLoop, squeezeSpaces]
        · have hne : SplitIntoWordsLoop fuel (r.dropWhile (fun x => decide (x = SPACE))) ≠ [] := by
            cases fuel with
            | zero =>
              rw [hr, List.dropWhile_cons] at hlt
              simp only [decide_True, if_true] at hlt
              have : (r.dropWhile (fun x => decide (x = SPACE))).length = 0 := by omega
              exact absurd (List.length_eq_zero.1 this) hnil
            | succ n =>
              rw [splitIntoWordsLoop_succ, if_neg hnil]
              exact List.cons_ne_nil _ _
          rw [if_neg hne, if_neg hnil]

theorem joinWords_splitIntoWords (text : Str) :
    joinWords (SplitIntoWords text) = collapseSpaces text := by
  rw [splitIntoWords_eq]
  exact joinWords_loop _ _ (le_refl _) (head?_dropWhile_space text)

theorem splitIntoWords_joinWords (ws : List Str) (h : ∀ w ∈ ws, w ≠ [] ∧ SPACE ∉ w) :
    SplitIntoWords (joinWords ws) = ws := by
  rw [splitIntoWords_eq_splitOn]
  by_cases hws : ws = []
  · subst hws; rfl
  · unfold joinWords
    rw [List.splitOn_intercalate _ SPACE (fun l hl => (h l hl).2) hws, List.filter_eq_self]
    intro w hw
    simpa using (h w hw).1

/-- C22: for every byte string the loop of `SplitIntoWords` ends within the fuel
the function gives it (more fuel changes nothing); the result lists, in order, the
non-empty pieces of the text between its spaces, that is its maximal runs of
non-space bytes; every word is non-empty and holds no byte 0x20; the words joined
with single spaces are the text with leading and trailing spaces removed and inner
runs of spaces collapsed to one; and every list of non-empty space-free words is
returned unchanged from its join. -/
theorem C22_split_into_words (text : Str) :
    (∀ extra, SplitIntoWordsLoop
        ((removePrefix text (svFindFirstNotOf text SPACE 0)).length + extra)
        (removePrefix text (svFindFirstNotOf text SPACE 0)) = SplitIntoWords text)
    ∧ SplitIntoWords text = (text.splitOn SPACE).filter (fun w => decide (w ≠ []))
    ∧ (∀ w ∈ SplitIntoWords text, w ≠ [] ∧ SPACE ∉ w)
    ∧ joinWords (SplitIntoWords text) = collapseSpaces text
    ∧ (∀ ws : List Str, (∀ w ∈ ws, w ≠ [] ∧ SPACE ∉ w) → SplitIntoWords (joinWords ws) = ws) := by
  refine ⟨fun extra => ?_, splitIntoWords_eq_splitOn text, fun w hw => ?_,
    joinWords_splitIntoWords text, splitIntoWords_joinWords⟩
  · exact splitIntoWordsLoop_fuel _ extra _ (le_refl _)
  · obtain ⟨h1, h2⟩ := splitIntoWords_words text w hw
    exact ⟨h1, fun hmem => (h2 SPACE hmem).2 rfl⟩

/-- Witness of C22: the text "  fluffy   cat " splits into "fluffy" and "cat", and
joining them gives "fluffy cat". -/
theorem C22_split_into_words_witness :
    SplitIntoWords (bytes "  fluffy   cat ") = [bytes "fluffy", bytes "cat"]
    ∧ collapseSpaces (bytes "  fluffy   cat ") = bytes "fluffy cat"
    ∧ joinWords (SplitIntoWords (bytes "  fluffy   cat ")) = bytes "fluffy cat"
    ∧ SplitIntoWords (joinWords [bytes "fluffy", bytes "cat"]) = [bytes "fluffy", bytes "cat"] :=
  ⟨by decide, by decide,
    ((C22_split_into_words (bytes "  fluffy   cat ")).2.2.2.1).trans (by decide),
    (C22_split_into_words []).2.2.2.2 [bytes "fluffy", bytes "cat"] (by decide)⟩

/-! ## Sequences of operations on a ConcurrentMap -/

namespace ConcurrentMap
variable {V : Type}

theorem length_create (bucket_count : Nat) :
    (create V bucket_count).all_maps_.length = bucket_count := by
  simp [create]

theorem length_apply (dflt : V) (cm : ConcurrentMap V) (op : MapOp V) :
    (apply dflt cm op).all_maps_.length = cm.all_maps_.length := by
  cases op <;> simp [apply, Access, Erase]

theorem sharded_apply (dflt : V) (cm : ConcurrentMap V) (h : Sharded cm) (op : MapOp V) :
    Sharded (apply dflt cm op) := by
  cases op with
  | access key update => exact sharded_Access cm h key dflt update
  | erase key => exact sharded_Erase cm h key

theorem buildOrdinaryMap_apply (dflt : V) (cm : ConcurrentMap V) (h : Sharded cm)
    (op : MapOp V) :
    BuildOrdinaryMap (apply dflt cm op) = applyOrdinary dflt (BuildOrdinaryMap cm) op := by
  cases op with
  | access key update => exact buildOrdinaryMap_Access cm h key dflt update
  | erase key => exact buildOrdinaryMap_Erase cm h key

/-- The count that `Erase` returns: 1 when the key is in the map, 0 otherwise. -/
theorem erase_count (cm : ConcurrentMap V) (h : Sharded cm) (key : Int) :
    (Erase cm key).1 = if key ∈ OMap.keys (BuildOrdinaryMap cm) then 1 else 0 := by
  have h1 : (Erase cm key).1
      = if (OMap.find? (cm.all_maps_.getD (cm.slot key) []) key).isSome then 1 else 0 := rfl
  rw [h1, ← find?_buildOrdinaryMap cm h key]
  by_cases hk : key ∈ OMap.keys (BuildOrdinaryMap cm)
  · rw [if_pos hk, if_pos ((OMap.find?_isSome _ _).2 hk)]
  · rw [if_neg hk, if_neg (fun hh => hk ((OMap.find?_isSome _ _).1 hh))]

/-- With between 1 and 2^31 shards, every sequence of operations executed one at a
time keeps each key in the shard of its remainder and builds the ordinary map that
the same operations build. -/
theorem foldl_apply_spec (dflt : V) (bucket_count : Nat) (h0 : 0 < bucket_count)
    (hle : bucket_count ≤ 2147483648) (ops : List (MapOp V)) :
    Sharded (ops.foldl (apply dflt) (create V bucket_count))
    ∧ (ops.foldl (apply dflt) (create V bucket_count)).all_maps_.length = bucket_count
    ∧ BuildOrdinaryMap (ops.foldl (apply dflt) (create V bucket_count))
        = ops.foldl (applyOrdinary dflt) [] := by
  have key : ∀ (ops : List (MapOp V)) (cm : ConcurrentMap V), Sharded cm →
      Sharded (ops.foldl (apply dflt) cm)
      ∧ (ops.foldl (apply dflt) cm).all_maps_.length = cm.all_maps_.length
      ∧ BuildOrdinaryMap (ops.foldl (apply dflt) cm)
          = ops.foldl (applyOrdinary dflt) (BuildOrdinaryMap cm) := by
    intro ops
    induction ops with
    | nil => intro cm h; exact ⟨h, rfl, rfl⟩
    | cons op rest ih =>
      intro cm h
      obtain ⟨i1, i2, i3⟩ := ih (apply dflt cm op) (sharded_apply dflt cm h op)
      rw [List.foldl_cons, List.foldl_cons]
      refine ⟨i1, ?_, ?_⟩
      · rw [i2, length_apply]
      · rw [i3, buildOrdinaryMap_apply dflt cm h op]
  obtain ⟨k1, k2, k3⟩ := key ops (create V bucket_count) (sharded_create bucket_count h0 hle)
  rw [buildOrdinaryMap_create] at k3
  rw [length_create] at k2
  exact ⟨k1, k2, k3⟩

/-- The bucket-count bound cannot be dropped: with 2^32 shards the `int` index of
the key -1 is -1, and the subscript it becomes lies past the end of the vector. -/
theorem slot_create_overflow :
    (create V 4294967296).index (-1) = -1
    ∧ (create V 4294967296).slot (-1) = 18446744073709551615 := by
  have hi : (create V 4294967296).index (-1) = -1 := by
    unfold index
    rw [length_create]
    decide
  refine ⟨hi, ?_⟩
  unfold slot
  rw [hi]
  decide

end ConcurrentMap

/-- C23 (counterexample): in a `ConcurrentMap` with 2^32 shards the key -1, whose
remainder as an unsigned 64-bit number is 4294967295, gets the `int` index -1, so
`operator[]` and `Erase` subscript the vector at 18446744073709551615, past its
end, and not at shard 4294967295; with 2^31 shards the subscript of the key -1 is
its remainder 2147483647. -/
theorem C23_index_narrowing_leaves_vector :
    (ConcurrentMap.create ℚ 4294967296).all_maps_.length = 4294967296
    ∧ ((-1 : Int) % 18446744073709551616).toNat % 4294967296 = 4294967295
    ∧ (ConcurrentMap.create ℚ 4294967296).index (-1) = -1
    ∧ (ConcurrentMap.create ℚ 4294967296).slot (-1) = 18446744073709551615
    ∧ ¬ (ConcurrentMap.create ℚ 4294967296).slot (-1)
        < (ConcurrentMap.create ℚ 4294967296).all_maps_.length
    ∧ (ConcurrentMap.create ℚ 2147483648).slot (-1) = 2147483647 := by
  obtain ⟨h1, h2⟩ := ConcurrentMap.slot_create_overflow (V := ℚ)
  have h3 := ConcurrentMap.slot_eq (ConcurrentMap.create ℚ 2147483648)
    (by rw [ConcurrentMap.length_create]; decide) (by rw [ConcurrentMap.length_create]) (-1)
  rw [ConcurrentMap.length_create] at h3
  refine ⟨ConcurrentMap.length_create _, by decide, h1, h2, ?_, h3.trans (by decide)⟩
  rw [h2, ConcurrentMap.length_create]
  decide

/-! ## States that the read operations cannot tell apart -/

namespace SearchServer

theorem find?_getD_eq_find2 (m : List (Str × List (Int × ℚ))) (w : Str) (d : Int) :
    OMap.find? (OMap.getD m w []) d = OMap.find2 m w d := by
  unfold OMap.find2 OMap.getD
  cases OMap.find? m w <;> simp [OMap.find?]

theorem parseQuery_congr (s1 s2 : SearchServer) (hstop : s1.stop_words_ = s2.stop_words_)
    (text : Str) (delete_copy : Bool) :
    ParseQuery s1 text delete_copy = ParseQuery s2 text delete_copy := by
  have hp : isPlusToken s1 = isPlusToken s2 := by
    funext w; unfold isPlusToken IsStopWord; rw [hstop]
  have hm : isMinusToken s1 = isMinusToken s2 := by
    funext w; unfold isMinusToken IsStopWord; rw [hstop]
  rw [parseQuery_eq, parseQuery_eq, hp, hm]

theorem containsWord_congr (s1 s2 : SearchServer)
    (hw : ∀ w, OMap.getD s1.word_to_document_freqs_ w []
      = OMap.getD s2.word_to_document_freqs_ w []) :
    containsWord s1 = containsWord s2 := by
  funext d w
  unfold containsWord
  rw [← find?_getD_eq_find2, ← find?_getD_eq_find2, hw]

theorem returnWithStatus_congr (s1 s2 : SearchServer) (hdocs : s1.documents_ = s2.documents_)
    (d : Int) (words : List Str) : returnWithStatus s1 d words = returnWithStatus s2 d words := by
  unfold returnWithStatus
  rw [hdocs]

/-- Both overloads of `MatchDocument` read the state only through the stop-words,
the id set, the metadata and the inner maps of the inverted index. -/
theorem matchDocument_congr (s1 s2 : SearchServer) (hstop : s1.stop_words_ = s2.stop_words_)
    (hids : s1.document_id_ = s2.document_id_) (hdocs : s1.documents_ = s2.documents_)
    (hw : ∀ w, OMap.getD s1.word_to_document_freqs_ w []
      = OMap.getD s2.word_to_document_freqs_ w [])
    (text : Str) (d : Int) :
    MatchDocument s1 text d = MatchDocument s2 text d
    ∧ MatchDocumentPar s1 text d = MatchDocumentPar s2 text d := by
  have hc := containsWord_congr s1 s2 hw
  have hwd : ∀ s : SearchServer, wordHasDocument s d = containsWord s d :=
    fun s => funext (wordHasDocument_eq s d)
  constructor
  · unfold MatchDocument
    rw [parseQuery_congr s1 s2 hstop, hids]
    simp only [matchMinusLoop_eq, matchPlusLoop_eq, hc, returnWithStatus_congr s1 s2 hdocs]
  · unfold MatchDocumentPar
    rw [parseQuery_congr s1 s2 hstop, hids]
    simp only [hwd, hc, returnWithStatus_congr s1 s2 hdocs]

theorem candidates_congr (ln : ℚ → ℚ) (s1 s2 : SearchServer)
    (hids : s1.document_id_ = s2.document_id_) (hdocs : s1.documents_ = s2.documents_)
    (hw : ∀ w, OMap.getD s1.word_to_document_freqs_ w []
      = OMap.getD s2.word_to_document_freqs_ w [])
    (query : Query) (predicate : Int → DocumentStatus → Int → Bool) :
    candidates ln s1 query predicate = candidates ln s2 query predicate := by
  have hc := containsWord_congr s1 s2 hw
  have hp : passesFilter s1 predicate = passesFilter s2 predicate := by
    funext d; unfold passesFilter; rw [hdocs]
  have hr : ratingOf s1 = ratingOf s2 := by
    funext d; unfold ratingOf; rw [hdocs]
  have ht : termScore ln s1 = termScore ln s2 := by
    funext w d
    unfold termScore tf GetDocumentCount
    rw [← find?_getD_eq_find2, ← find?_getD_eq_find2, hw, hdocs]
  unfold candidates
  rw [hids, hc, hp, hr, ht]

/-- Function `FindTopDocuments` reads a state that satisfies the invariants only
through the stop-words, the id set, the metadata and the inner maps of the
inverted index. -/
theorem findTopDocuments_congr (ln : ℚ → ℚ) (s1 s2 : SearchServer) (h1 : Inv s1) (h2 : Inv s2)
    (hstop : s1.stop_words_ = s2.stop_words_)
    (hids : s1.document_id_ = s2.document_id_) (hdocs : s1.documents_ = s2.documents_)
    (hw : ∀ w, OMap.getD s1.word_to_document_freqs_ w []
      = OMap.getD s2.word_to_document_freqs_ w [])
    (text : Str) (predicate : Int → DocumentStatus → Int → Bool) :
    FindTopDocuments ln s1 text predicate = FindTopDocuments ln s2 text predicate := by
  unfold FindTopDocuments
  rw [parseQuery_congr s1 s2 hstop]
  cases ParseQuery s2 text true with
  | error e => rfl
  | ok query =>
    simp only
    rw [findAllDocuments_eq ln s1 h1, findAllDocuments_eq ln s2 h2,
      candidates_congr ln s1 s2 hids hdocs hw]

/-- After a successful `AddDocument` and `RemoveDocument` of the same id every word
has the inner map it had before, the empty one when it is no key. -/
theorem getD_w2d_add_remove (s : SearchServer) (hs : Inv s) (document_id : Int)
    (document : Str) (status : DocumentStatus) (ratings : List Int)
    (hid : document_id ∉ s.document_id_) (w : Str) :
    OMap.getD (RemoveDocument (afterAdd s document_id document status ratings)
        document_id).word_to_document_freqs_ w []
      = OMap.getD s.word_to_document_freqs_ w [] := by
  unfold OMap.getD
  rw [find?_w2d_add_remove s hs document_id document status ratings hid w]
  split_ifs
  · rfl
  · rfl

end SearchServer

/-- C24: on a reachable server, a successful `AddDocument` followed by
`RemoveDocument` of the same id gives a state on which `GetDocumentCount`, the
iteration over the ids, `GetWordFrequencies` of every id, both overloads of
`MatchDocument` on every query and id, and `FindTopDocuments` on every query and
filter return what they return on the start state, failures included; the
inverted index itself may differ by keys with an empty inner map. -/
theorem C24_add_then_remove_unobservable (s : SearchServer) (hs : SearchServer.Reachable s)
    (document_id : Int) (document : Str) (status : DocumentStatus) (ratings : List Int)
    (hok : (SearchServer.AddDocument s document_id document status ratings).1 = Except.ok ()) :
    SearchServer.GetDocumentCount (SearchServer.RemoveDocument
        (SearchServer.AddDocument s document_id document status ratings).2 document_id)
      = SearchServer.GetDocumentCount s
    ∧ (SearchServer.RemoveDocument
        (SearchServer.AddDocument s document_id document status ratings).2
        document_id).document_id_ = s.document_id_
    ∧ (∀ i, SearchServer.GetWordFrequencies (SearchServer.RemoveDocument
          (SearchServer.AddDocument s document_id document status ratings).2 document_id) i
        = SearchServer.GetWordFrequencies s i)
    ∧ (∀ q i, SearchServer.MatchDocument (SearchServer.RemoveDocument
          (SearchServer.AddDocument s document_id document status ratings).2 document_id) q i
        = SearchServer.MatchDocument s q i)
    ∧ (∀ q i, SearchServer.MatchDocumentPar (SearchServer.RemoveDocument
          (SearchServer.AddDocument s document_id document status ratings).2 document_id) q i
        = SearchServer.MatchDocumentPar s q i)
    ∧ (∀ ln q predicate, SearchServer.FindTopDocuments ln (SearchServer.RemoveDocument
          (SearchServer.AddDocument s document_id document status ratings).2 document_id)
          q predicate
        = SearchServer.FindTopDocuments ln s q predicate) := by
  have hinv := SearchServer.inv_of_reachable s hs
  obtain ⟨h1, h2, h3⟩ := (SearchServer.addDocument_ok_iff s document_id document status
    ratings).1 hok
  rw [SearchServer.addDocument_ok s document_id document status ratings h1 h2 h3]
  obtain ⟨f1, f2, f3, f4⟩ :=
    SearchServer.add_remove_frame s hinv document_id document status ratings h2
  have hw := SearchServer.getD_w2d_add_remove s hinv document_id document status ratings h2
  have hinv' : SearchServer.Inv (SearchServer.RemoveDocument (SearchServer.afterAdd s
      document_id document status ratings) document_id) :=
    SearchServer.inv_removeDocument _ _
      (SearchServer.inv_afterAdd s document_id document status ratings hinv h2)
  refine ⟨?_, f3, fun i => ?_, fun q i => ?_, fun q i => ?_, fun ln q predicate => ?_⟩
  · unfold SearchServer.GetDocumentCount; rw [f2]
  · unfold SearchServer.GetWordFrequencies; rw [f1]
  · exact (SearchServer.matchDocument_congr _ s f4 f3 f2 hw q i).1
  · exact (SearchServer.matchDocument_congr _ s f4 f3 f2 hw q i).2
  · exact SearchServer.findTopDocuments_congr ln _ s hinv' hinv f4 f3 f2 hw q predicate

/-- Witness of C24: document 0 "parrot" added to the scenario corpus and removed
again; the word "parrot" stays a key of the inverted index. -/
theorem C24_add_then_remove_unobservable_witness :
    OMap.find? (SearchServer.RemoveDocument (SearchServer.AddDocument SearchServer.scenario4 0
        (bytes "parrot") DocumentStatus.ACTUAL [3]).2 0).word_to_document_freqs_ (bytes "parrot")
      = some []
    ∧ OMap.find? SearchServer.scenario4.word_to_document_freqs_ (bytes "parrot") = none
    ∧ ∀ ln q predicate, SearchServer.FindTopDocuments ln (SearchServer.RemoveDocument
          (SearchServer.AddDocument SearchServer.scenario4 0 (bytes "parrot")
            DocumentStatus.ACTUAL [3]).2 0) q predicate
        = SearchServer.FindTopDocuments ln SearchServer.scenario4 q predicate :=
  ⟨by decide!, by decide,
    (C24_add_then_remove_unobservable SearchServer.scenario4 SearchServer.reachable_scenario4 0
      (bytes "parrot") DocumentStatus.ACTUAL [3] (by decide)).2.2.2.2.2⟩

/-! ## The lookups and divisions of FindTopDocuments are safe -/

namespace SearchServer

/-- Induction over the reachable states: a property of the empty servers that every
successful `AddDocument` and every `RemoveDocument` keeps holds in every reachable
state. -/
theorem reachable_induction (P : SearchServer → Prop)
    (h0 : ∀ st : List Str, P { empty with stop_words_ := st })
    (hadd : ∀ s document_id document status ratings, Reachable s → P s →
      document_id ∉ s.document_id_ → P (afterAdd s document_id document status ratings))
    (hrem : ∀ s document_id, Reachable s → P s → P (RemoveDocument s document_id))
    (s : SearchServer) (h : Reachable s) : P s := by
  induction h with
  | ofString stop_words s hs =>
    unfold ofString at hs
    split_ifs at hs
    cases hs
    exact h0 _
  | ofCollection stop_words s hs =>
    unfold ofCollection at hs
    cases hf : List.foldlM
      (fun st word =>
        if !IsValidWord word then (Except.error Error.InvalidArgument : Except Error (List Str))
        else Except.ok (OSet.insert word st)) [] stop_words with
    | error e => rw [hf] at hs; cases hs
    | ok st =>
      rw [hf] at hs
      cases hs
      exact h0 _
  | add s document_id document status ratings hr ih =>
    rcases addDocument_cases s document_id document status ratings with ⟨h, _⟩ | ⟨h, _, h2, _⟩
    · rw [h]; exact ih
    · rw [h]; exact hadd s document_id document status ratings hr ih h2
  | remove s document_id hr ih => exact hrem s document_id hr ih
  | removePar s document_id hr ih =>
    rcases removeDocumentPar_cases s document_id with ⟨h, _⟩ | h
    · rw [h]; exact ih
    · rw [h]; exact hrem s document_id hr ih

/-- Every stored term frequency is non-negative. -/
theorem tf_nonneg (s : SearchServer) (h : Reachable s) (w : Str) (d : Int) : 0 ≤ tf s w d := by
  revert w d
  apply reachable_induction (fun s => ∀ w d, 0 ≤ tf s w d) _ _ _ s h
  · intro st w d
    simp [tf, empty, OMap.find2, OMap.find?]
  · intro s document_id document status ratings _ ih _ w d
    unfold tf
    rw [afterAdd_w2d]
    split_ifs with hc
    · simp only [Option.getD_some]
      have h1 := ih w d
      unfold tf at h1
      have h2 : (0 : ℚ) ≤ ((SplitIntoWordsNoStop s document).count w : ℚ)
          * (1 / ((SplitIntoWordsNoStop s document).length : ℚ)) := by positivity
      linarith
    · exact ih w d
  · intro s document_id _ ih w d
    by_cases hid : document_id ∈ s.document_id_
    · rw [removeDocument_live s document_id hid]
      unfold tf
      show 0 ≤ (OMap.find2 (eraseFromWords _ _ _) w d).getD 0
      rw [find2_eraseFromWords]
      split_ifs
      · simp
      · exact ih w d
    · rw [removeDocument_not_live s document_id hid]
      exact ih w d

/-- The divisor of the inverse document frequency of a word that some document
contains: at least 1 and at most the number of documents. -/
theorem inner_length_bounds (s : SearchServer) (hs : Inv s) (w : Str) (inner : List (Int × ℚ))
    (h : OMap.find? s.word_to_document_freqs_ w = some inner) (hne : inner ≠ []) :
    1 ≤ inner.length ∧ (inner.length : Int) ≤ GetDocumentCount s := by
  constructor
  · cases inner with
    | nil => exact absurd rfl hne
    | cons p t => simp
  · rw [inner_length_eq_df s hs w inner h, getDocumentCount_eq s hs]
    unfold df
    exact_mod_cast List.length_filter_le _ _

theorem termScore_nonneg (ln : ℚ → ℚ) (hln : ∀ x : ℚ, 1 ≤ x → 0 ≤ ln x) (s : SearchServer)
    (h : Reachable s) (w : Str) (d : Int) : 0 ≤ termScore ln s w d := by
  have hs := inv_of_reachable s h
  rcases Bool.eq_false_or_eq_true (containsWord s d w) with hc | hc
  · cases hf : OMap.find? s.word_to_document_freqs_ w with
    | none => rw [containsWord_none s d w hf] at hc; cases hc
    | some inner =>
      have hin : inner ≠ [] := by
        intro hnil
        rw [containsWord_eq s d w inner hf, hnil] at hc
        simp [OMap.find?] at hc
      obtain ⟨b1, b2⟩ := inner_length_bounds s hs w inner hf hin
      unfold termScore
      have hg : OMap.getD s.word_to_document_freqs_ w [] = inner := by
        simp [OMap.getD, hf]
      rw [hg]
      apply mul_nonneg (tf_nonneg s h w d)
      apply hln
      have hpos : (0 : ℚ) < (inner.length : ℚ) := by exact_mod_cast b1
      have hle : ((inner.length : Int) : ℚ) ≤ ((GetDocumentCount s : Int) : ℚ) := by
        exact_mod_cast b2
      rw [mul_one, le_div_iff₀ hpos, one_mul]
      exact_mod_cast hle
  · rw [termScore_eq_zero ln s d w hc]

end SearchServer

/-- C25: in every reachable state, every document id in an inner map of the inverted
index is a key of the metadata map, and the inner map it is in has at least 1 and at
most `GetDocumentCount` entries, so the divisor of every added term is not zero;
`FindAllDocuments` never fails, so `FindTopDocuments` fails only on a malformed
query, with `InvalidArgument`; and when `ln x >= 0` for every `x >= 1`, as for the
natural logarithm, every returned relevance is at least 0. -/
theorem C25_lookups_and_divisions_safe (s : SearchServer) (hs : SearchServer.Reachable s) :
    (∀ w inner d x, (w, inner) ∈ s.word_to_document_freqs_ → (d, x) ∈ inner →
        d ∈ OMap.keys s.documents_
        ∧ (∃ data, OMap.find? s.documents_ d = some data)
        ∧ 1 ≤ inner.length ∧ (inner.length : Int) ≤ SearchServer.GetDocumentCount s)
    ∧ (∀ ln query predicate, ∃ docs,
        SearchServer.FindAllDocuments ln s query predicate = Except.ok docs)
    ∧ (∀ ln q predicate,
        (SearchServer.MalformedQuery q ∧
          SearchServer.FindTopDocuments ln s q predicate = Except.error Error.InvalidArgument)
        ∨ ∃ docs, SearchServer.FindTopDocuments ln s q predicate = Except.ok docs)
    ∧ (∀ ln : ℚ → ℚ, (∀ x : ℚ, 1 ≤ x → 0 ≤ ln x) → ∀ q predicate docs,
        SearchServer.FindTopDocuments ln s q predicate = Except.ok docs →
        ∀ doc ∈ docs, 0 ≤ doc.relevance) := by
  have hinv := SearchServer.inv_of_reachable s hs
  refine ⟨?_, ?_, ?_, ?_⟩
  · intro w inner d x hw hd
    have hf := OMap.find?_of_mem _ hinv.w2d_wf w inner hw
    have hsome := SearchServer.inner_has_documents s hinv w inner hf (d, x) hd
    have hne : inner ≠ [] := List.ne_nil_of_mem hd
    refine ⟨(OMap.find?_isSome _ _).1 hsome, Option.isSome_iff_exists.1 hsome,
      SearchServer.inner_length_bounds s hinv w inner hf hne⟩
  · intro ln query predicate
    exact ⟨_, SearchServer.findAllDocuments_eq ln s hinv query predicate⟩
  · intro ln q predicate
    by_cases hq : SearchServer.MalformedQuery q
    · left
      refine ⟨hq, ?_⟩
      unfold SearchServer.FindTopDocuments
      rw [SearchServer.parseQuery_eq, if_pos hq]
    · right
      exact ⟨_, SearchServer.findTopDocuments_eq ln s hinv q hq predicate⟩
  · intro ln hln q predicate docs hdocs doc hdoc
    by_cases hq : SearchServer.MalformedQuery q
    · unfold SearchServer.FindTopDocuments at hdocs
      rw [SearchServer.parseQuery_eq, if_pos hq] at hdocs
      cases hdocs
    · rw [SearchServer.findTopDocuments_eq ln s hinv q hq predicate] at hdocs
      cases hdocs
      have h1 := (SearchServer.truncateTop_sublist _).subset hdoc
      rw [mem_stdSort] at h1
      rw [(SearchServer.mem_candidates ln s _ _ doc h1).1]
      apply List.sum_nonneg
      intro x hx
      rw [List.mem_map] at hx
      obtain ⟨w, _, rfl⟩ := hx
      exact SearchServer.termScore_nonneg ln hln s hs w doc.id

/-- Witness of C25: the scenario corpus. -/
theorem C25_lookups_and_divisions_safe_witness :
    (∀ w inner d x, (w, inner) ∈ SearchServer.scenario4.word_to_document_freqs_ →
        (d, x) ∈ inner →
        d ∈ OMap.keys SearchServer.scenario4.documents_
        ∧ (∃ data, OMap.find? SearchServer.scenario4.documents_ d = some data)
        ∧ 1 ≤ inner.length
        ∧ (inner.length : Int) ≤ SearchServer.GetDocumentCount SearchServer.scenario4)
    ∧ ∃ docs, SearchServer.FindTopDocuments (fun _ => 1) SearchServer.scenario4
        (bytes "fluffy groomed cat") (fun _ _ _ => true) = Except.ok docs
      ∧ ∀ doc ∈ docs, 0 ≤ doc.relevance :=
  have h := C25_lookups_and_divisions_safe SearchServer.scenario4
    SearchServer.reachable_scenario4
  ⟨h.1, by
    rcases h.2.2.1 (fun _ => 1) (bytes "fluffy groomed cat") (fun _ _ _ => true)
      with ⟨hm, _⟩ | ⟨docs, hdocs⟩
    · exact absurd hm (by decide)
    · exact ⟨docs, hdocs, h.2.2.2 (fun _ => 1) (fun _ _ => by norm_num) _ _ docs hdocs⟩⟩

/-- C23 (amended): for every bucket count from 1 to 2^31 and every finite sequence of
operations on a `ConcurrentMap` executed one at a time (element access followed by
an update of the referenced value, and `Erase`), the map keeps its bucket count,
every key stored in a shard is stored in the shard of its remainder (the key taken
modulo 2^64, then modulo the bucket count), every subscript the operations compute
is that remainder and lies inside the vector, `Erase` returns 1 when the key is
present and 0 otherwise, where present is the same for the merged map and for the
ordinary map, and `BuildOrdinaryMap` returns the ordered map that the same
operations build from the empty ordinary map. -/
theorem C23_concurrent_map_refines_ordinary_map {V : Type} (dflt : V) (bucket_count : Nat)
    (h0 : 0 < bucket_count) (hle : bucket_count ≤ 2147483648) (ops : List (MapOp V)) :
    (ops.foldl (ConcurrentMap.apply dflt) (ConcurrentMap.create V bucket_count)).all_maps_.length
      = bucket_count
    ∧ (∀ i key, key ∈ OMap.keys
          ((ops.foldl (ConcurrentMap.apply dflt)
            (ConcurrentMap.create V bucket_count)).all_maps_.getD i []) →
        i = (key % 18446744073709551616).toNat % bucket_count)
    ∧ (∀ key, (ops.foldl (ConcurrentMap.apply dflt) (ConcurrentMap.create V bucket_count)).slot key
          = (key % 18446744073709551616).toNat % bucket_count
        ∧ (ops.foldl (ConcurrentMap.apply dflt) (ConcurrentMap.create V bucket_count)).slot key
          < bucket_count)
    ∧ (∀ key, (ConcurrentMap.Erase
          (ops.foldl (ConcurrentMap.apply dflt) (ConcurrentMap.create V bucket_count)) key).1
        = if key ∈ OMap.keys (ops.foldl (ConcurrentMap.applyOrdinary dflt) []) then 1 else 0)
    ∧ ConcurrentMap.BuildOrdinaryMap
        (ops.foldl (ConcurrentMap.apply dflt) (ConcurrentMap.create V bucket_count))
      = ops.foldl (ConcurrentMap.applyOrdinary dflt) [] := by
  obtain ⟨hsh, hlength, hbuild⟩ := ConcurrentMap.foldl_apply_spec dflt bucket_count h0 hle ops
  have hslot : ∀ key,
      (ops.foldl (ConcurrentMap.apply dflt) (ConcurrentMap.create V bucket_count)).slot key
        = (key % 18446744073709551616).toNat % bucket_count := by
    intro key
    rw [ConcurrentMap.slot_eq _ hsh.size_pos hsh.size_le key, hlength]
  refine ⟨hlength, fun i key hk => ?_, fun key => ⟨hslot key, ?_⟩, fun key => ?_, hbuild⟩
  · rw [← hslot key]
    exact (hsh.shard_keys i key hk).symm
  · rw [hslot key]
    exact Nat.mod_lt _ h0
  · rw [ConcurrentMap.erase_count _ hsh key, hbuild]

/-- Witness of C23 (amended): 100 shards, the key -1 incremented twice and the key 5
incremented and erased; the key -1 is stored in shard 15 with the value 2. -/
theorem C23_concurrent_map_refines_ordinary_map_witness :
    ConcurrentMap.BuildOrdinaryMap
        ([MapOp.access (-1) (fun x : ℚ => x + 1), MapOp.access 5 (fun x : ℚ => x + 1),
          MapOp.access (-1) (fun x : ℚ => x + 1), MapOp.erase 5].foldl
          (ConcurrentMap.apply 0) (ConcurrentMap.create ℚ 100))
      = [(-1, 2)]
    ∧ ([MapOp.access (-1) (fun x : ℚ => x + 1), MapOp.access 5 (fun x : ℚ => x + 1),
          MapOp.access (-1) (fun x : ℚ => x + 1), MapOp.erase 5].foldl
          (ConcurrentMap.apply 0) (ConcurrentMap.create ℚ 100)).all_maps_.getD 15 []
      = [(-1, 2)]
    ∧ ((-1 : Int) % 18446744073709551616).toNat % 100 = 15 :=
  ⟨((C23_concurrent_map_refines_ordinary_map (0 : ℚ) 100 (by decide) (by decide)
      [MapOp.access (-1) (fun x : ℚ => x + 1), MapOp.access 5 (fun x : ℚ => x + 1),
        MapOp.access (-1) (fun x : ℚ => x + 1), MapOp.erase 5]).2.2.2.2).trans (by decide!),
    by decide!, by decide⟩

/-! ## A higher rating behind a lower one at distance 1e-7 -/

namespace SearchServer

theorem reachable_blockedCorpus : Reachable blockedCorpus :=
  Reachable.add _ _ _ _ _ (Reachable.add _ _ _ _ _ (Reachable.add _ _ _ _ _
    (Reachable.add _ _ _ _ _ reachable_empty)))

set_option maxRecDepth 100000 in
/-- With other results between them the rating does not decide: for the function
`ln` that is constantly 1/100000, the query "w" on `blockedCorpus` returns
document 2 (rating 1, relevance 2.0e-6) before document 4 (rating 9, relevance
1.9e-6), because document 3 between them is more than 1e-6 above document 4 and
closer than 1e-6 to document 2. -/
theorem blocked_result :
    FindTopDocuments (fun _ => 1 / 100000) blockedCorpus (bytes "w") (fun _ _ _ => true)
      = .ok [⟨1, 1 / 200000, 0⟩, ⟨2, 1 / 500000, 1⟩, ⟨3, 59 / 20000000, 0⟩,
          ⟨4, 19 / 10000000, 9⟩]
    ∧ |(1 : ℚ) / 500000 - 19 / 10000000| = 1 / 10000000 := by
  constructor
  · decide!
  · norm_num [abs_of_pos]

end SearchServer
